import Mathlib

/-!
Verification of the Ren-C evaluation runtime core (shallow embedding).

The development models, directly from the C sources:
  - the QUOTED! datatype natives (src/core/t-quoted.c),
  - the chain dispatcher and returner dispatcher (src/core/c-function.c),
  - the paramlist builder Make_Paramlist_Managed_May_Fail (src/core/c-function.c),
  - the garbage collector sweep and recycle (src/core/m-gc.c),
  - the symbol interner (src/core/c-word.c).

Helpers that live in headers outside the provided sources (Quotify, Unquotify,
Hash_UTF8, Compare_UTF8, First_Hash_Candidate_Slot) are modelled from the
specification and are marked as such in their doc comments.
-/

namespace RenC

/-! ### Quoting model (src/core/t-quoted.c)

A cell has a kind byte; kind bytes are organised in banks of 64, with
`kind + 64 * depth` encoding an in-place quote of 1 to 3 levels.  Deeper
quoting uses a singular wrapper array holding the unquoted cell. -/

/-- An unquoted cell: a kind byte in the base bank (below 64) plus an
abstract payload standing for the two payload words. -/
structure BaseCell where
  kind : Nat
  payload : Nat
deriving DecidableEq, Repr

/-- A cell as seen by the quoting machinery: either an in-place encoding
(kind byte, payload) where the quote depth is the bank `kindByte / 64`, or a
wrapper (used for quote depth four and beyond) holding the depth and the
unquoted inner cell. -/
inductive Cell where
  | inline (kindByte : Nat) (payload : Nat)
  | wrapped (depth : Nat) (inner : BaseCell)
deriving DecidableEq, Repr

/-- Well-formed cells: an in-place kind byte is a byte (below 256, so the
bank is at most 3), and a wrapper is only used for depth at least 4 with
an unquoted (base-bank) inner cell. -/
def WFCell : Cell → Prop
  | .inline k _ => k < 256
  | .wrapped d b => 4 ≤ d ∧ b.kind < 64

instance : DecidablePred WFCell := by
  intro c
  cases c <;> simp [WFCell] <;> infer_instance

/-- Modelled from the spec: VAL_NUM_QUOTES, the observable quote depth.  For
the in-place form this is the bank of the kind byte; for the wrapper it is
the stored depth. -/
def valNumQuotes : Cell → Nat
  | .inline k _ => k / 64
  | .wrapped d _ => d

/-- The fully unquoted form of a cell (kind byte reduced to the base bank). -/
def cellBase : Cell → BaseCell
  | .inline k p => ⟨k % 64, p⟩
  | .wrapped _ b => b

/-- Rebuild a cell with the given total quote depth over a base cell:
depth up to 3 is encoded in place (kind byte plus 64 per level), deeper
depths allocate the singular wrapper.  Modelled from the spec. -/
def reQuote (b : BaseCell) (d : Nat) : Cell :=
  if d ≤ 3 then .inline (b.kind + 64 * d) b.payload
  else .wrapped d b

/-- Modelled from the spec: Quotify adds `n` quote levels to a value (the
in-place representation is used while the total depth stays at most 3). -/
def Quotify (v : Cell) (n : Nat) : Cell :=
  reQuote (cellBase v) (valNumQuotes v + n)

/-- Modelled from the spec: Unquotify removes `n` quote levels (callers only
remove levels that are present). -/
def Unquotify (v : Cell) (n : Nat) : Cell :=
  reQuote (cellBase v) (valNumQuotes v - n)

/-- Errors surfaced by the natives modelled here. -/
inductive NativeErr where
  | invalidArg
deriving DecidableEq, Repr

/-- The UNEVAL native: `depth = REF(depth) ? VAL_INT32(ARG(count)) : 1`,
negative depth is an invalid argument, otherwise the result is
`Quotify(Move_Value(out, optional), depth)`. -/
def uneval (optional : Cell) (depthUsed : Bool) (count : Int) : Except NativeErr Cell :=
  let depth : Int := if depthUsed then count else 1
  if depth < 0 then .error .invalidArg
  else .ok (Quotify optional depth.toNat)

/-- The DEQUOTE native: `Unquotify(v, VAL_NUM_QUOTES(v))` removes all levels
of quoting. -/
def dequote (v : Cell) : Cell :=
  Unquotify v (valNumQuotes v)

/-! ### Chain dispatcher (Chainer_Dispatcher, src/core/c-function.c)

Actions are modelled extensionally as functions on values; the evaluator
data stack is a list with its head as DS_TOP. -/

/-- Result signals a dispatcher can return to the evaluator (REB_R). -/
inductive RebSignal where
  | rOut
  | rOutIsThrown
  | rRedoUnchecked
  | rRedoChecked
  | rVoid
  | rInvisible
deriving DecidableEq, Repr

/-- The push loop of Chainer_Dispatcher: starting from the last element of
the pipeline and walking down to (but not including) index 0, push each
action onto the data stack.  `i` is the index about to be pushed. -/
def chainerPushLoop {α : Type} (pipeline : List (α → α)) :
    Nat → List (α → α) → List (α → α)
  | 0, stack => stack
  | i + 1, stack => chainerPushLoop pipeline i (pipeline.getD (i + 1) id :: stack)

/-- Chainer_Dispatcher: push all pipeline members except the first onto the
data stack in reverse order (last pushed first), set the frame phase to the
first member, and return R_REDO_UNCHECKED. -/
def Chainer_Dispatcher {α : Type} (pipeline : List (α → α)) (stack : List (α → α)) :
    List (α → α) × (α → α) × RebSignal :=
  ( chainerPushLoop pipeline (pipeline.length - 1) stack
  , pipeline.getD 0 id
  , .rRedoUnchecked )

/-- The evaluator post-processing: after the redone first action produced a
value, pop each pushed action off the stack (top first) and apply it to the
running result.  Mirrors the %c-eval.c handling of stack-pushed
post-processing actions. -/
def applyPostStack {α : Type} (pushed : List (α → α)) (x : α) : α :=
  pushed.foldl (fun acc g => g acc) x

/-! ### Typesets and parameter cells (src/include/sys-typeset.h)

A typeset is a 64-bit bitset indexed by kind; a parameter cell is a typeset
carrying a parameter class and a key spelling. -/

/-- All 64 bits set (the ALL_64 mask). -/
def ALL_64 : Nat := 2 ^ 64 - 1

/-- The pseudotype bit used for the `<opt>` sense of void (REB_MAX_VOID).
The numeric value of the kind enumeration is not part of the provided
sources; only its position inside the 64-bit range matters here. -/
def REB_MAX_VOID : Nat := 51

/-- The FUNCTION! kind bit position (see REB_MAX_VOID for the convention). -/
def REB_FUNCTION : Nat := 38

/-- FLAGIT_KIND: the single bit for a kind. -/
def FLAGIT_KIND (k : Nat) : Nat := 2 ^ k

/-- TYPE_CHECK: whether a typeset's bits contain the bit for kind `k`. -/
def TYPE_CHECK (bits k : Nat) : Bool := bits.testBit k

/-- Parameter classes (PARAM_CLASS_XXX pseudotype kind bytes). -/
inductive ParamClass where
  | normal
  | tight
  | hardQuote
  | softQuote
  | refinement
  | localP
  | returnP
  | leaveP
deriving DecidableEq, Repr

/-- A parameter cell: key spelling, parameter class, typeset bits. -/
structure ParamTypeset where
  spelling : String
  pclass : ParamClass
  bits : Nat
deriving DecidableEq, Repr

/-- The canonical (case-folded) form of a word spelling, standing for
VAL_WORD_CANON / VAL_PARAM_CANON. -/
def canonSpelling (s : String) : String := ⟨s.data.map Char.toLower⟩

/-! ### Paramlist builder (Make_Paramlist_Managed_May_Fail, src/core/c-function.c)

The spec block is modelled as a stream of items.  Type blocks are
abstracted to the typeset bits they denote (Update_Typeset_Bits_Core is
the identity on that denotation). -/

/-- Items of the spec dialect that the builder loop distinguishes. -/
inductive SpecItem where
  | str (s : String)
  | tagLocal
  | tagWith
  | tagOther
  | block (bits : Nat)
  | word (sp : String)
  | getWord (sp : String)
  | litWord (sp : String)
  | refinement (sp : String)
  | setWord (sp : String)
  | issue (sp : String)
deriving DecidableEq, Repr

/-- The MKF_XXX flags given to the builder (release-build semantics: the
debug-only conversion of MKF_FAKE_RETURN into MKF_RETURN is not applied). -/
structure MKFlags where
  mkfReturn : Bool
  mkfLeave : Bool
  mkfFakeReturn : Bool
  mkfAnyValue : Bool
  mkfKeywords : Bool
deriving DecidableEq, Repr

/-- Errors the builder can raise. -/
inductive BuildErr where
  | badFuncDef
  | refinementArgOpt
  | dupVars (sp : String)
deriving DecidableEq, Repr

instance {ε α : Type} [DecidableEq ε] [DecidableEq α] : DecidableEq (Except ε α) :=
  fun a b =>
    match a, b with
    | .error e, .error f =>
        if h : e = f then .isTrue (by rw [h])
        else .isFalse fun hc => h (by injection hc)
    | .error _, .ok _ => .isFalse fun hc => Except.noConfusion hc
    | .ok _, .error _ => .isFalse fun hc => Except.noConfusion hc
    | .ok x, .ok y =>
        if h : x = y then .isTrue (by rw [h])
        else .isFalse fun hc => h (by injection hc)

/-- Parsing modes  (enum Reb_Spec_Mode). -/
inductive SpecMode where
  | normal
  | localMode
  | withMode
deriving DecidableEq, Repr

/-- Data-stack cells used by the builder: the unreadable blank that will
become paramlist[0], parameter typesets, block slots (`none` stands for the
shared EMPTY_BLOCK), and string slots (`none` for EMPTY_STRING). -/
inductive StackVal where
  | blank0
  | tsv (p : ParamTypeset)
  | blk (b : Option Nat)
  | strv (s : Option String)
deriving DecidableEq, Repr

instance : Inhabited StackVal := ⟨.blank0⟩

def StackVal.isTypeset : StackVal → Bool
  | .tsv _ => true
  | _ => false

def StackVal.isBlock : StackVal → Bool
  | .blk _ => true
  | _ => false

def StackVal.isString : StackVal → Bool
  | .strv _ => true
  | _ => false

/-- The builder's mutable state while walking the spec block.  The data
stack grows at the tail (the last element is DS_TOP); absolute positions
in the list correspond to data-stack pointers. -/
structure BuildState where
  stack : List StackVal
  mode : SpecMode
  refinementSeen : Bool
  defReturnIdx : Option Nat
  defLeaveIdx : Option Nat
  flags : MKFlags
  hasDescription : Bool
  hasTypes : Bool
  hasNotes : Bool
deriving DecidableEq, Repr

/-- DS_TOP of the modelled stack. -/
def dsTop (stack : List StackVal) : StackVal :=
  stack.getD (stack.length - 1) .blank0

/-- DS_TOP minus `k` of the modelled stack. -/
def dsTopMinus (stack : List StackVal) (k : Nat) : StackVal :=
  stack.getD (stack.length - 1 - k) .blank0

/-- The initial state: the three pushes that seed paramlist[0] and the two
rootkey slots, normal mode, nothing seen yet. -/
def initBuildState (flags : MKFlags) : BuildState :=
  { stack := [.blank0, .blk none, .strv none]
  , mode := .normal
  , refinementSeen := false
  , defReturnIdx := none
  , defLeaveIdx := none
  , flags := flags
  , hasDescription := false
  , hasTypes := false
  , hasNotes := false }

/-- Typeset bits used when a parameter is first pushed: all datatypes, minus
void and function unless MKF_ANY_VALUE. -/
def defaultParamBits (anyValue : Bool) : Nat :=
  if anyValue then ALL_64
  else ALL_64 - FLAGIT_KIND REB_MAX_VOID - FLAGIT_KIND REB_FUNCTION

/-- Keep the TYPESET! BLOCK! STRING! rhythm: push EMPTY_BLOCK over a
typeset, then EMPTY_STRING over a block, so that DS_TOP is a string slot. -/
def fleshOutRhythm (stack : List StackVal) : List StackVal :=
  let stack := if (dsTop stack).isTypeset then stack ++ [.blk none] else stack
  if (dsTop stack).isBlock then stack ++ [.strv none] else stack

/-- The word-kind discrimination the builder's switch makes; a convenience
view of the word-like SpecItem constructors. -/
inductive WordKind where
  | wkWord
  | wkGetWord
  | wkLitWord
  | wkRefinement
  | wkSetWord
  | wkIssue
deriving DecidableEq, Repr

/-- The word-like items with their kind and spelling; `none` otherwise. -/
def SpecItem.asWord : SpecItem → Option (WordKind × String)
  | .word sp => some (.wkWord, sp)
  | .getWord sp => some (.wkGetWord, sp)
  | .litWord sp => some (.wkLitWord, sp)
  | .refinement sp => some (.wkRefinement, sp)
  | .setWord sp => some (.wkSetWord, sp)
  | .issue sp => some (.wkIssue, sp)
  | _ => none

/-- The mode adjustment at the head of the word-item handling: a
refinement cancels a pending `<local>`/`<with>` mode; only words and
set-words are otherwise legal while such a mode is active. -/
def adjustMode (mode : SpecMode) (wk : WordKind) : Except BuildErr SpecMode :=
  if mode ≠ .normal then
    if wk = .wkRefinement then .ok .normal
    else if wk ≠ .wkWord ∧ wk ≠ .wkSetWord then .error .badFuncDef
    else .ok mode
  else .ok mode

/-- The RETURN / LEAVE bookkeeping done as each word is pushed: an
explicit `return:`/`leave:` set-word is captured by stack position, and
any other use of those names cancels the corresponding flag. -/
def returnLeaveBookkeeping (st : BuildState) (wk : WordKind) (canon : String)
    (typesetIdx : Nat) : Option Nat × Option Nat × MKFlags :=
  if canon = "return" ∧ ¬ st.flags.mkfLeave then
    if wk = .wkSetWord then (some typesetIdx, st.defLeaveIdx, st.flags)
    else
      ( st.defReturnIdx, st.defLeaveIdx
      , { st.flags with mkfReturn := false, mkfFakeReturn := false } )
  else if canon = "leave" ∧ ¬ (st.flags.mkfReturn ∨ st.flags.mkfFakeReturn) then
    if wk = .wkSetWord then (st.defReturnIdx, some typesetIdx, st.flags)
    else
      ( st.defReturnIdx, st.defLeaveIdx
      , { st.flags with mkfLeave := false } )
  else (st.defReturnIdx, st.defLeaveIdx, st.flags)

/-- The class the switch at the end of the word handling assigns. -/
def wordParamClass (wk : WordKind) (mode : SpecMode) : ParamClass :=
  match wk with
  | .wkWord => if mode = .localMode then .localP else .normal
  | .wkGetWord => .hardQuote
  | .wkLitWord => .softQuote
  | .wkRefinement => .refinement
  | .wkSetWord => .localP
  | .wkIssue => .tight

/-- The failure-free tail of the word-item handling, after the mode has
been adjusted: keep the rhythm, push the typeset, do the return/leave
bookkeeping, drop the slot again for `<with>` words, otherwise set the
parameter class. -/
def processWordCore (st : BuildState) (wk : WordKind) (sp : String)
    (mode : SpecMode) : BuildState :=
  let canon := canonSpelling sp
  let stack := fleshOutRhythm st.stack
  let typesetIdx := stack.length
  let stack := stack ++ [.tsv ⟨sp, .normal, defaultParamBits st.flags.mkfAnyValue⟩]
  let rlf := returnLeaveBookkeeping st wk canon typesetIdx
  if mode = .withMode ∧ wk ≠ .wkSetWord then
    { st with
      stack := stack.dropLast
      , mode := mode
      , defReturnIdx := rlf.1
      , defLeaveIdx := rlf.2.1
      , flags := rlf.2.2 }
  else
    { st with
      stack := stack.dropLast
        ++ [.tsv ⟨sp, wordParamClass wk mode, defaultParamBits st.flags.mkfAnyValue⟩]
      , mode := mode
      , refinementSeen := (if wk = .wkRefinement then true else st.refinementSeen)
      , defReturnIdx := rlf.1
      , defLeaveIdx := rlf.2.1
      , flags := rlf.2.2 }

/-- One pass of the spec-walking loop body for a word-like item. -/
def processWord (st : BuildState) (wk : WordKind) (sp : String) :
    Except BuildErr BuildState :=
  match adjustMode st.mode wk with
  | .error e => .error e
  | .ok mode => .ok (processWordCore st wk sp mode)

/-- One pass of the spec-walking loop body (the big while over the spec). -/
def processItem (st : BuildState) (item : SpecItem) : Except BuildErr BuildState :=
  match item with
  | .str s =>
      -- a <with>-mode description is purely commentary
      if st.mode = .withMode then .ok st
      else
        let stack :=
          if (dsTop st.stack).isTypeset then st.stack ++ [.blk none] else st.stack
        let stack :=
          if (dsTop stack).isBlock then stack ++ [.strv (some s)]
          else stack.dropLast ++ [.strv (some s)]
        -- the root string slot (absolute position 2) carries the description
        if stack.length - 1 = 2 then
          .ok { st with stack := stack, hasDescription := true }
        else
          .ok { st with stack := stack, hasNotes := true }
  | .tagLocal =>
      if st.flags.mkfKeywords then .ok { st with mode := .localMode }
      else .error .badFuncDef
  | .tagWith =>
      if st.flags.mkfKeywords then .ok { st with mode := .withMode }
      else .error .badFuncDef
  | .tagOther => .error .badFuncDef
  | .block bits =>
      if (dsTop st.stack).isBlock then .error .badFuncDef
      else if st.mode ≠ .normal then .error .badFuncDef
      else if (dsTop st.stack).isTypeset then
        -- push the types block; retarget the typeset just below it
        let stack := st.stack ++ [.blk (some bits)]
        match dsTopMinus stack 1 with
        | .tsv p =>
            if st.refinementSeen ∧ TYPE_CHECK bits REB_MAX_VOID then
              .error .refinementArgOpt
            else
              .ok { st with
                stack := stack.set (stack.length - 2) (.tsv { p with bits := bits })
                , hasTypes := true }
        | _ => .error .badFuncDef
      else
        -- DS_TOP is a string; the typeset sits two below, its block between
        if dsTopMinus st.stack 2 = .blank0 then .error .badFuncDef
        else
          match dsTopMinus st.stack 2, dsTopMinus st.stack 1 with
          | .tsv p, .blk none =>
              if st.refinementSeen ∧ TYPE_CHECK bits REB_MAX_VOID then
                .error .refinementArgOpt
              else
                .ok { st with
                  stack := (st.stack.set (st.stack.length - 2) (.blk (some bits))).set
                    (st.stack.length - 3) (.tsv { p with bits := bits })
                  , hasTypes := true }
          | .tsv _, .blk (some _) => .error .badFuncDef
          | _, _ => .error .badFuncDef
  | .word sp => processWord st .wkWord sp
  | .getWord sp => processWord st .wkGetWord sp
  | .litWord sp => processWord st .wkLitWord sp
  | .refinement sp => processWord st .wkRefinement sp
  | .setWord sp => processWord st .wkSetWord sp
  | .issue sp => processWord st .wkIssue sp

/-- The typeset bits of a definitional return synthesized when the spec
declared no `return:` of its own. -/
def synthesizedReturnBits (st : BuildState) : Nat :=
  if st.flags.mkfAnyValue ∨ ¬ (st.hasDescription ∨ st.hasTypes ∨ st.hasNotes)
  then ALL_64
  else ALL_64 - FLAGIT_KIND REB_MAX_VOID - FLAGIT_KIND REB_FUNCTION

/-- Post-loop handling of MKF_LEAVE and MKF_RETURN: synthesize a missing
`leave:`/`return:` triple at the tail, or reclassify an explicit one in
place from the pure-local class to the leave/return class. -/
def finalizeReturnLeave (st : BuildState) : BuildState :=
  let st := { st with stack := fleshOutRhythm st.stack }
  let st :=
    if st.flags.mkfLeave then
      match st.defLeaveIdx with
      | none =>
          let idx := st.stack.length
          { st with
            stack := st.stack
              ++ [.tsv ⟨"leave", .leaveP, FLAGIT_KIND REB_MAX_VOID⟩, .blk none, .strv none]
            , defLeaveIdx := some idx }
      | some idx =>
          match st.stack.getD idx .blank0 with
          | .tsv p => { st with stack := st.stack.set idx (.tsv { p with pclass := .leaveP }) }
          | _ => st
    else st
  if st.flags.mkfReturn then
    match st.defReturnIdx with
    | none =>
        let idx := st.stack.length
        { st with
          stack := st.stack
            ++ [.tsv ⟨"return", .returnP, synthesizedReturnBits st⟩, .blk none, .strv none]
          , defReturnIdx := some idx }
    | some idx =>
        match st.stack.getD idx .blank0 with
        | .tsv p => { st with stack := st.stack.set idx (.tsv { p with pclass := .returnP }) }
        | _ => st
  else st

/-- The typeset stack slots together with their absolute positions: the
copy and binder loops walk positions 3, 6, 9, ... of the data stack. -/
def typesetSlots (stack : List StackVal) : List (Nat × ParamTypeset) :=
  stack.enum.filterMap fun iv =>
    match iv with
    | (i, .tsv p) => if 3 ≤ i ∧ i % 3 = 0 then some (i, p) else none
    | _ => none

/-- Try_Add_Binder_Index over the transient binder, threading the
`duplicate` spelling exactly as the copy loop does. -/
def binderAddLoop (slots : List (Nat × ParamTypeset)) (binder : List String)
    (dup : Option String) : List String × Option String :=
  match slots with
  | [] => (binder, dup)
  | (_, p) :: rest =>
      let canon := canonSpelling p.spelling
      if canon ∈ binder then binderAddLoop rest binder (some p.spelling)
      else binderAddLoop rest (canon :: binder) dup

/-- Remove_Binder_Index_Else_0 over every typeset slot (runs on the error
path as well, so no binder state is left behind). -/
def binderRemoveLoop (slots : List (Nat × ParamTypeset)) (binder : List String) :
    List String :=
  match slots with
  | [] => binder
  | (_, p) :: rest => binderRemoveLoop rest (binder.erase (canonSpelling p.spelling))

/-- The copy into the paramlist: every typeset slot except the definitional
return is appended in stack order; the definitional return (when present
and not faked away) is appended last. -/
def copyParams (slots : List (Nat × ParamTypeset)) (defReturnIdx : Option Nat)
    (fakeReturn : Bool) : List ParamTypeset :=
  let body := slots.filterMap fun ip =>
    if defReturnIdx = some ip.1 then none else some ip.2
  match defReturnIdx with
  | none => body
  | some i =>
      if fakeReturn then body
      else
        match slots.find? (fun ip => ip.1 = i) with
        | some ip => body ++ [ip.2]
        | none => body

/-- The post-loop phase of Make_Paramlist_Managed_May_Fail: definitional
return/leave synthesis or reclassification, the copy off the data stack
with its duplicate check through the transient binder, the binder teardown
(on all paths), and the duplicate-variable error.  Returns the build
outcome together with the binder's state at exit. -/
def finalizeParamlist (st : BuildState) :
    Except BuildErr (List ParamTypeset) × List String :=
  let st := finalizeReturnLeave st
  let slots := typesetSlots st.stack
  let (binder, dup) := binderAddLoop slots [] none
  let params := copyParams slots st.defReturnIdx st.flags.mkfFakeReturn
  let binder := binderRemoveLoop slots binder
  match dup with
  | some sp => (.error (.dupVars sp), binder)
  | none => (.ok params, binder)

/-- Make_Paramlist_Managed_May_Fail: walk the spec block, then finalize.
The first component is the resulting parameter list (paramlist positions
1 and upward; the archetype at position 0 is implicit) or the error; the
second component is the transient binder's state when the routine exits. -/
def Make_Paramlist_Managed_May_Fail (spec : List SpecItem) (flags : MKFlags) :
    Except BuildErr (List ParamTypeset) × List String :=
  match spec.foldlM processItem (initBuildState flags) with
  | .error e => (.error e, [])
  | .ok st => finalizeParamlist st

/-- A spec item that cancels a definitional return: any word-like item
spelled `return` that is not a set-word (plain word, get-word, lit-word,
refinement or issue) clears the RETURN flag when processed. -/
def isCancelItem (item : SpecItem) : Bool :=
  match item.asWord with
  | some (wk, sp) => wk ≠ WordKind.wkSetWord && canonSpelling sp = "return"
  | none => false

/-- Whether the spec contains an item that cancels the RETURN flag. -/
def specCancelsReturn (spec : List SpecItem) : Bool :=
  spec.any isCancelItem

/-- An explicit `return:` set-word item. -/
def isReturnSetWord (item : SpecItem) : Bool :=
  match item with
  | .setWord sp => canonSpelling sp = "return"
  | _ => false

/-- Whether the spec contains an explicit `return:` set-word. -/
def hasReturnSetWord (spec : List SpecItem) : Bool :=
  spec.any isReturnSetWord

/-- The canonical spellings of the typeset slots, in stack order (what the
transient binder indexes). -/
def slotCanons (slots : List (Nat × ParamTypeset)) : List String :=
  slots.map fun ip => canonSpelling ip.2.spelling

/-- The rhythm invariant of the builder's data stack: the bottom three
cells are the root triple, and typeset cells appear exactly at positions
3, 6, 9, ... (a partially pushed triple only ever trails blocks/strings). -/
def stackShapeOK (stack : List StackVal) : Prop :=
  3 ≤ stack.length ∧
  ∀ i, i < stack.length →
    ((stack.getD i .blank0).isTypeset = true ↔ (3 ≤ i ∧ i % 3 = 0))
    ∧ ((stack.getD i .blank0).isBlock = true ↔ i % 3 = 1)
    ∧ ((stack.getD i .blank0).isString = true ↔ i % 3 = 2)

/-- The builder-loop invariant used for the definitional-return placement
analysis: the RETURN flag is on (and never cancelled, LEAVE and
FAKE_RETURN off), the stack keeps its rhythm, no slot carries the
return/leave class yet, and a captured explicit `return:` is a valid
pure-local slot spelled `return`. -/
structure BuilderInv (st : BuildState) : Prop where
  fret : st.flags.mkfReturn = true
  ffake : st.flags.mkfFakeReturn = false
  fleave : st.flags.mkfLeave = false
  shape : stackShapeOK st.stack
  classes : ∀ i p, st.stack.getD i .blank0 = .tsv p →
    p.pclass ≠ ParamClass.returnP ∧ p.pclass ≠ ParamClass.leaveP
  retIdx : ∀ idx, st.defReturnIdx = some idx →
    3 ≤ idx ∧ idx % 3 = 0 ∧ idx < st.stack.length ∧
    ∃ p, st.stack.getD idx .blank0 = .tsv p
      ∧ canonSpelling p.spelling = "return" ∧ p.pclass = ParamClass.localP
  leaveIdx : st.defLeaveIdx = none

/-! ### Returner dispatcher (Returner_Dispatcher, src/core/c-function.c)

The body evaluation (Do_At_Throws) is abstracted to its outcome: either a
thrown value or a completed value.  Values are abstracted to their kind
(VAL_TYPE) plus an identity, here a kind byte and a payload. -/

/-- An evaluation value: kind byte plus abstract payload. -/
structure EvalValue where
  kind : Nat
  payload : Nat
deriving DecidableEq, Repr

/-- The outcome of Do_At_Throws on a body block. -/
inductive BodyOutcome where
  | threw (v : EvalValue)
  | completed (v : EvalValue)
deriving DecidableEq, Repr

/-- Errors raised (via fail) by dispatchers. -/
inductive DispatchErr where
  | badReturnType (kind : Nat)
deriving DecidableEq, Repr

/-- What a dispatcher hands back to Do_Core: the out cell plus a signal. -/
structure DispatchOut where
  out : EvalValue
  signal : RebSignal
deriving DecidableEq, Repr

/-- Returner_Dispatcher: evaluate the body into the out cell; a throw
propagates as R_OUT_IS_THROWN without any checking.  Otherwise fetch the
last parameter of the phase's paramlist (the definitional return slot) and
fail with a bad-return-type error unless the result's kind passes its
typeset; on success the out cell is returned unchanged. -/
def Returner_Dispatcher (params : List ParamTypeset) (bodyOutcome : BodyOutcome) :
    Except DispatchErr DispatchOut :=
  match bodyOutcome with
  | .threw v => .ok ⟨v, .rOutIsThrown⟩
  | .completed v =>
      let typeset := (params.getLast?).getD ⟨"return", .returnP, 0⟩
      if TYPE_CHECK typeset.bits v.kind then .ok ⟨v, .rOut⟩
      else .error (.badReturnType v.kind)

/-! ### Garbage collector (src/core/m-gc.c)

A node of the SER_POOL carries the NODE_FLAG_FREE, NODE_FLAG_MANAGED and
NODE_FLAG_MARKED header bits, plus the indices of the nodes its cells and
link/misc slots reference.  The marking phase (Mark_Root_Series through
Propagate_All_GC_Marks) is modelled as marking everything reachable from
the root set through those references; Sweep_Series is translated from the
switch over the header-bit nibble. -/

/-- A SER_POOL node, reduced to its GC-relevant header bits and outgoing
references. -/
structure GCNode where
  nodeFree : Bool
  managed : Bool
  marked : Bool
  refs : List Nat
deriving DecidableEq, Repr

instance : Inhabited GCNode := ⟨⟨true, false, false, []⟩⟩

/-- The node pool: SER_POOL flattened into one indexed list. -/
abbrev Pool := List GCNode

/-- A node is live (not freed) and under GC custody. -/
def liveManaged (s : GCNode) : Bool := !s.nodeFree && s.managed

/-- Sweep_Series panics on a marked node that is not managed (switch case
9: marking asserts nodes are managed, so this state is impossible). -/
def sweepPanics (s : GCNode) : Bool := !s.nodeFree && !s.managed && s.marked

/-- What the sweep switch does to one node: a free node (case 12) and an
unmanaged unmarked node (case 8) are left alone; a managed marked node
(case 11) survives with its mark cleared; a managed unmarked node (case
10) is freed. -/
def sweptNode (s : GCNode) : GCNode :=
  if s.nodeFree then s
  else if s.managed then
    if s.marked then { s with marked := false }
    else { s with nodeFree := true }
  else s

/-- Whether the sweep frees this node (contributes to the return count). -/
def sweepFreed (s : GCNode) : Bool := !s.nodeFree && s.managed && !s.marked

/-- Sweep_Series: walk every node of the pool, free the managed unmarked
ones (counting them), clear the mark on managed marked ones; panic
(modelled as `none`) if a marked unmanaged node is encountered. -/
def Sweep_Series (pool : Pool) : Option (Pool × Nat) :=
  if pool.any sweepPanics then none
  else some (pool.map sweptNode, (pool.filter sweepFreed).length)

/-- The outgoing references of node `i` (freed or absent nodes contribute
none). -/
def nodeRefs (pool : Pool) (i : Nat) : List Nat :=
  (pool.getD i default).refs

/-- One round of mark propagation: everything already reached stays, plus
everything directly referenced by a reached node. -/
def reachStep (pool : Pool) (s : List Nat) : List Nat :=
  (s ++ s.flatMap (nodeRefs pool)).dedup

/-- `n` rounds of propagation from the root set. -/
def reachN (pool : Pool) (roots : List Nat) : Nat → List Nat
  | 0 => roots.dedup
  | n + 1 => reachStep pool (reachN pool roots n)

/-- The nodes the marking phase visits: propagation run to its fixpoint
(pool-many rounds always suffice). -/
def reachable (pool : Pool) (roots : List Nat) : List Nat :=
  reachN pool roots pool.length

/-- The marking phase: set MARKED on every node reachable from the roots
(marks are only ever set here, never cleared). -/
def Mark_Phase (pool : Pool) (roots : List Nat) : Pool :=
  pool.enum.map fun is =>
    { is.2 with marked := is.2.marked || decide (is.1 ∈ reachable pool roots) }

/-- Recycle_Core (not in shutdown, no sweeplist): run the marking phase
from the root set, then sweep. -/
def Recycle_Core (pool : Pool) (roots : List Nat) : Option (Pool × Nat) :=
  Sweep_Series (Mark_Phase pool roots)

/-- Recycle: Recycle_Core with the default arguments. -/
def Recycle (pool : Pool) (roots : List Nat) : Option (Pool × Nat) :=
  Recycle_Core pool roots

/-- Well-formedness at GC entry: roots are live managed nodes of the pool;
references of live managed nodes stay among live managed nodes of the
pool; and no mark state exists between collections. -/
def GCWF (pool : Pool) (roots : List Nat) : Prop :=
  (∀ i ∈ roots, i < pool.length ∧ liveManaged (pool.getD i default) = true)
  ∧ (∀ s ∈ pool, liveManaged s = true →
      ∀ j ∈ s.refs, j < pool.length ∧ liveManaged (pool.getD j default) = true)
  ∧ (∀ s ∈ pool, s.marked = false)

instance (pool : Pool) (roots : List Nat) : Decidable (GCWF pool roots) := by
  unfold GCWF
  infer_instance

/-! ### Symbol interner (src/core/c-word.c)

Interned strings are series; the model identifies a symbol (REBSTR) with
its index into a list of symbol records.  The hash table PG_Canons_By_Hash
is a list of slots holding NULL (vacant), DELETED_CANON, or a canon symbol.
Hash_UTF8/Hash_String and First_Hash_Candidate_Slot live outside the
provided sources; per the spec the hash is taken over the case-folded
bytes and collisions are resolved by linear probing, so they are modelled
as an arbitrary function applied to the case-folded string and a step of
one slot. -/

/-- A byte string. -/
abbrev Bytes := List Nat

/-- ASCII case folding of one byte (upper-case letters map to lower). -/
def foldByte (b : Nat) : Nat := if 65 ≤ b ∧ b ≤ 90 then b + 32 else b

/-- Modelled from the spec: the case-insensitive equivalence on byte
strings is equality after case folding. -/
def caseFold (s : Bytes) : Bytes := s.map foldByte

/-- Modelled from the spec: Compare_UTF8 returns 0 on an exact match, a
positive value on a case-insensitive-only match, and a negative value
otherwise. -/
def compareUTF8 (s1 s2 : Bytes) : Int :=
  if s1 = s2 then 0
  else if caseFold s1 = caseFold s2 then 1
  else -1

/-- A symbol record: its bytes, the LINK().synonym pointer of the circular
synonym ring, the STRING_INFO_CANON flag, the SYM_XXX number stored in the
header's second uint16, and the MISC() bind_index pair kept by canons. -/
structure SymData where
  str : Bytes
  synonym : Nat
  canonFlag : Bool
  symNum : Nat
  bindHigh : Nat
  bindLow : Nat
deriving DecidableEq, Repr

instance : Inhabited SymData := ⟨⟨[], 0, false, 0, 0, 0⟩⟩

/-- A slot of PG_Canons_By_Hash. -/
inductive Slot where
  | vacant
  | deletedCanon
  | occupied (id : Nat)
deriving DecidableEq, Repr

instance : Inhabited Slot := ⟨.vacant⟩

/-- The interner's global state: the symbol store, the hash table, and
PG_Num_Canon_Slots_In_Use. -/
structure InternState where
  syms : List SymData
  table : List Slot
  slotsInUse : Nat
deriving DecidableEq, Repr

/-- Symbol record by id (defaulted outside range, never relied upon). -/
def symOf (st : InternState) (id : Nat) : SymData := st.syms.getD id default

/-- Table slot content (NULL outside range, never relied upon). -/
def slotOf (st : InternState) (slot : Nat) : Slot := st.table.getD slot .vacant

/-- Advance one slot with wrap-around (linear probing with a skip of one,
per the spec; First_Hash_Candidate_Slot is outside the sources). -/
def nextSlot (slot numSlots : Nat) : Nat := (slot + 1) % numSlots

/-- The prime sizes used for the hash table. -/
def primesList : List Nat :=
  [7, 13, 31, 61, 127, 251, 509, 1021, 2039, 4093, 8191, 16381, 32749,
   65521, 131071, 262139, 524287, 1048573, 2097143, 4194301, 8388593,
   16777213, 33554393, 67108859, 134217689, 268435399, 536870909,
   1073741789, 2147483647, 4294967291]

/-- Get_Hash_Prime: the first listed prime at least `size`, or 0 when the
table of primes is exhausted. -/
def Get_Hash_Prime (size : Nat) : Nat :=
  (primesList.find? (fun p => size ≤ p)).getD 0

/-- Failures of the interner: the allocation error raised when no larger
prime exists, and the (unreachable under well-formedness) exhaustion of a
probe or ring-walk fuel bound standing in for a C loop that would not
terminate. -/
inductive InternFail where
  | sizeLimit
  | probeOverflow
deriving DecidableEq, Repr

section InternOps

variable (hash0 : Bytes → Nat)

/-- Modelled from the spec: the hash of a string is computed over its
case-folded bytes (Hash_UTF8/Hash_String are case-insensitive). -/
def hashString (s : Bytes) : Nat := hash0 (caseFold s)

/-- The rehash inner probe of Expand_Word_Table: skip occupied slots until
a vacant one is found. -/
def findVacant (table : List Slot) : Nat → Nat → Option Nat
  | _, 0 => none
  | slot, fuel + 1 =>
      match table.getD slot .vacant with
      | .vacant => some slot
      | _ => findVacant table (nextSlot slot table.length) fuel

/-- One old-table slot of the rehash loop of Expand_Word_Table: skip NULLs,
drop DELETED_CANON entries (deducting them from the slots-in-use count),
and re-insert canons at the first vacant slot probed from their hash. -/
def expandStep (st : InternState) (numSlots : Nat) (acc : List Slot × Nat) (s : Slot) :
    Except InternFail (List Slot × Nat) :=
  match s with
  | .vacant => pure acc
  | .deletedCanon => pure (acc.1, acc.2 - 1)
  | .occupied c =>
      match findVacant acc.1 (hashString hash0 (symOf st c).str % numSlots) numSlots with
      | none => throw InternFail.probeOverflow
      | some v => pure (acc.1.set v (.occupied c), acc.2)

/-- Expand_Word_Table: allocate the next prime size (failing with the
size-limit error when none is left), then rehash every canon of the old
table into the new one, dropping DELETED_CANON entries and deducting them
from the slots-in-use count. -/
def Expand_Word_Table (st : InternState) : Except InternFail InternState := do
  let numSlots := Get_Hash_Prime (st.table.length + 1)
  if numSlots = 0 then throw .sizeLimit
  let start : List Slot × Nat := (List.replicate numSlots .vacant, st.slotsInUse)
  let result ← st.table.foldlM (expandStep hash0 st numSlots) start
  pure { st with table := result.1, slotsInUse := result.2 }

/-- The synonym-ring walk of Intern_UTF8_Managed: starting after the canon
and stopping when the cycle returns to it, look for an exact spelling
match. -/
def ringFindExact (st : InternState) (canonId : Nat) (utf8 : Bytes) :
    Nat → Nat → Option Nat
  | _, 0 => none
  | current, fuel + 1 =>
      if current = canonId then none
      else if (symOf st current).str = utf8 then some current
      else ringFindExact st canonId utf8 (symOf st current).synonym fuel

/-- A new canon interning: the fresh symbol is its own synonym ring, is
flagged CANON with symbol number 0 and zero bind indices, and is installed
at the remembered deleted slot if any (slot usage stays constant) or at
the vacant slot that ended the probe (incrementing the usage count). -/
def internNewCanon (st : InternState) (utf8 : Bytes) (slot : Nat)
    (deletedSlot : Option Nat) : InternState × Nat :=
  let id := st.syms.length
  let sym : SymData := ⟨utf8, id, true, 0, 0, 0⟩
  match deletedSlot with
  | some ds =>
      ({ st with syms := st.syms ++ [sym], table := st.table.set ds (.occupied id) }, id)
  | none =>
      ({ st with
          syms := st.syms ++ [sym]
          , table := st.table.set slot (.occupied id)
          , slotsInUse := st.slotsInUse + 1 }, id)

/-- A new synonym interning: the fresh symbol is linked into the ring right
after the canon and inherits the canon's SYM_XXX number. -/
def internNewSynonym (st : InternState) (utf8 : Bytes) (canonId : Nat) :
    InternState × Nat :=
  let id := st.syms.length
  let c := symOf st canonId
  let sym : SymData := ⟨utf8, c.synonym, false, c.symNum, 0, 0⟩
  ({ st with syms := (st.syms.set canonId { c with synonym := id }) ++ [sym] }, id)

/-- The probe loop of Intern_UTF8_Managed.  A vacant slot ends the search
and creates a canon; a deleted slot is remembered (the last one seen) and
skipped; an occupied slot is compared case-insensitively against the
canon held there: exact match returns it, a different class continues the
probe, and a case-insensitive match searches the synonym ring, returning
the exact synonym or creating a new one. -/
def internLoop (st : InternState) (utf8 : Bytes) :
    Nat → Option Nat → Nat → Except InternFail (InternState × Nat)
  | _, _, 0 => throw .probeOverflow
  | slot, deletedSlot, fuel + 1 =>
      match slotOf st slot with
      | .vacant => pure (internNewCanon st utf8 slot deletedSlot)
      | .deletedCanon =>
          internLoop st utf8 (nextSlot slot st.table.length) (some slot) fuel
      | .occupied c =>
          let cmp := compareUTF8 (symOf st c).str utf8
          if cmp = 0 then pure (st, c)
          else if cmp < 0 then
            internLoop st utf8 (nextSlot slot st.table.length) deletedSlot fuel
          else
            match ringFindExact st c utf8 (symOf st c).synonym (st.syms.length + 1) with
            | some syn => pure (st, syn)
            | none => pure (internNewSynonym st utf8 c)

/-- Intern_UTF8_Managed: expand the table first when more than half the
slots are in use, then probe from the hash of the (case-folded) input. -/
def Intern_UTF8_Managed (st : InternState) (utf8 : Bytes) :
    Except InternFail (InternState × Nat) := do
  let st ←
    if st.slotsInUse > st.table.length / 2 then Expand_Word_Table hash0 st
    else pure st
  internLoop st utf8 (hashString hash0 utf8 % st.table.length) none st.table.length

/-- The ring walk of GC_Kill_Interning: find the member whose synonym link
points at the symbol being killed. -/
def ringFindPrev (st : InternState) (internId : Nat) : Nat → Nat → Option Nat
  | _, 0 => none
  | current, fuel + 1 =>
      if (symOf st current).synonym = internId then some current
      else ringFindPrev st internId (symOf st current).synonym fuel

/-- The hash probe of GC_Kill_Interning: the canon form will be found in
the table. -/
def findSlotOf (table : List Slot) (internId : Nat) : Nat → Nat → Option Nat
  | _, 0 => none
  | slot, fuel + 1 =>
      if table.getD slot .vacant = .occupied internId then some slot
      else findSlotOf table internId (nextSlot slot table.length) fuel

/-- The rippling loop of GC_Kill_Interning, translated exactly: while the
current slot is not NULL, advance and copy the advanced slot's content
into `previousSlot`.  (The source never moves `previous_slot` forward, so
every write lands in the same slot.) -/
def rippleLoop (previousSlot : Nat) : List Slot → Nat → Nat → Option (List Slot)
  | _, _, 0 => none
  | table, slot, fuel + 1 =>
      match table.getD slot .vacant with
      | .vacant => some table
      | _ =>
          let slot2 := nextSlot slot table.length
          let table2 := table.set previousSlot (table.getD slot2 .vacant)
          rippleLoop previousSlot table2 slot2 fuel

/-- The slot rewrite of GC_Kill_Interning once the canon's hash slot is
found: promote a surviving distinct synonym in place (flagging it CANON
and zeroing its bind indices), or run the ripple loop from the canon's
slot and store DELETED_CANON there. -/
def killCanonSlot (st1 : InternState) (internId synonym slot : Nat) :
    Except InternFail InternState :=
  if synonym ≠ internId then
    let st2 : InternState := { st1 with table := st1.table.set slot (.occupied synonym) }
    let s := symOf st2 synonym
    pure { st2 with
      syms := st2.syms.set synonym
        { s with canonFlag := true, bindHigh := 0, bindLow := 0 } }
  else
    match rippleLoop slot st1.table slot (st1.table.length + 1) with
    | none => throw InternFail.probeOverflow
    | some table => pure { st1 with table := table.set slot .deletedCanon }

/-- The canon half of GC_Kill_Interning: locate the canon's hash slot by
probing from its hash, then rewrite it. -/
def killCanon (st1 : InternState) (internId synonym : Nat) :
    Except InternFail InternState :=
  match findSlotOf st1.table internId
      (hashString hash0 (symOf st1 internId).str % st1.table.length)
      st1.table.length with
  | none => throw InternFail.probeOverflow
  | some slot => killCanonSlot st1 internId synonym slot

/-- GC_Kill_Interning: cut the symbol out of its synonym ring; for a canon
with a surviving distinct synonym, promote that synonym into the hash slot
(flagging it CANON and zeroing its bind indices); for a canon alone in its
ring, run the ripple loop from its slot and store DELETED_CANON there. -/
def GC_Kill_Interning (st : InternState) (internId : Nat) :
    Except InternFail InternState :=
  match ringFindPrev st internId (symOf st internId).synonym (st.syms.length + 1) with
  | none => throw InternFail.probeOverflow
  | some temp =>
      let st1 : InternState :=
        { st with syms := (st.syms.set temp
            { symOf st temp with synonym := (symOf st internId).synonym }) }
      if (symOf st1 internId).canonFlag = false then pure st1
      else killCanon hash0 st1 internId (symOf st internId).synonym

end InternOps

/-- STR_CANON: walk the synonym links until the CANON-flagged member of the
ring is found. -/
def strCanonWalk (st : InternState) : Nat → Nat → Nat
  | id, 0 => id
  | id, fuel + 1 =>
      if (symOf st id).canonFlag then id
      else strCanonWalk st (symOf st id).synonym fuel

/-- STR_CANON with its fuel instantiated (a ring has at most as many
members as there are symbols). -/
def STR_CANON (st : InternState) (id : Nat) : Nat :=
  strCanonWalk st id st.syms.length

/-- STR_SYMBOL: the SYM_XXX number in the header's second uint16. -/
def STR_SYMBOL (st : InternState) (id : Nat) : Nat := (symOf st id).symNum

/-- The ring-tagging inner loop of Startup_Symbols: a do-while over the
circular synonym list, writing the symbol number into each member. -/
def tagRingWalk (canonId sym : Nat) : InternState → Nat → Nat → InternState
  | st, _, 0 => st
  | st, current, fuel + 1 =>
      let st2 : InternState :=
        { st with syms := st.syms.set current { symOf st current with symNum := sym } }
      let next := (symOf st current).synonym
      if next = canonId then st2 else tagRingWalk canonId sym st2 next fuel

/-- One %words.r word of the Startup_Symbols loop: bump the symbol number
and tag the canon's whole ring with it. -/
def startupStep (acc : InternState × Nat) (canon : Nat) : InternState × Nat :=
  (tagRingWalk canon (acc.2 + 1) acc.1 canon (acc.1.syms.length + 1), acc.2 + 1)

/-- Startup_Symbols: number the %words.r canons from 1 upward, tagging
every member of each canon's synonym ring with the canon's number, and
build the PG_Symbol_Canons lookup table (whose 0 slot is trash, since
SYM_0 cannot be canonized).  After the loop the terminator write stores
NULL at index `sym` - the index the last canon was just written to - so
the last canon's slot is clobbered (for an empty word list the trash 0
slot is). -/
def Startup_Symbols (st : InternState) (words : List Nat) :
    InternState × List (Option Nat) :=
  let final := words.foldl startupStep (st, 0)
  (final.1, (none :: words.map some).set final.2 none)

/-! ### Interner well-formedness -/

/-- Whether a slot holds a canon. -/
def Slot.isOccupied : Slot → Bool
  | .occupied _ => true
  | _ => false

/-- Whether a slot holds the deleted sentinel. -/
def Slot.isDeleted : Slot → Bool
  | .deletedCanon => true
  | _ => false

/-- Number of slots holding a canon. -/
def occupiedCount (st : InternState) : Nat :=
  (st.table.filter Slot.isOccupied).length

/-- Number of tombstone slots. -/
def deletedCount (st : InternState) : Nat :=
  (st.table.filter Slot.isDeleted).length

/-- Number of non-vacant slots (canons plus tombstones). -/
def nonVacantCount (st : InternState) : Nat :=
  (st.table.filter (fun s => !(s = Slot.vacant : Bool))).length

/-- The home slot of a canon: the hash of its (case-folded) spelling,
reduced modulo the table size. -/
def homeSlot (hash0 : Bytes → Nat) (st : InternState) (c : Nat) : Nat :=
  hashString hash0 (symOf st c).str % st.table.length

/-- The links of a synonym ring, listed with the canon first: each member's
synonym field points at the next, and the last points back at the head. -/
def ringLinks (st : InternState) (r : List Nat) : Prop :=
  List.Chain' (fun a b => (symOf st a).synonym = b) (r ++ r.take 1)

/-- A well-formed synonym ring (oriented with its canon at the head): the
members are distinct valid symbols with pairwise distinct exact spellings,
the links close a cycle, exactly the head carries the CANON flag, all
members are case-insensitive equals, and the canon occupies a hash-table
slot. -/
structure IsRing (st : InternState) (r : List Nat) : Prop where
  ne : r ≠ []
  nodup : r.Nodup
  bound : ∀ a ∈ r, a < st.syms.length
  links : ringLinks st r
  headFlag : (symOf st (r.headD 0)).canonFlag = true
  tailFlag : ∀ a ∈ r.tail, (symOf st a).canonFlag = false
  classEq : ∀ a ∈ r, caseFold (symOf st a).str = caseFold (symOf st (r.headD 0)).str
  slotEx : ∃ slot, slotOf st slot = .occupied (r.headD 0)
  strsNe : List.Pairwise (fun a b => (symOf st a).str ≠ (symOf st b).str) r

/-- Every canon in the table sits on an unbroken probe chain from its home
slot: some number of non-vacant slots separate its home from its slot, so
a probe that starts at the home cannot fall off onto a vacant slot before
reaching the canon. -/
def ProbeChainOK (hash0 : Bytes → Nat) (st : InternState) : Prop :=
  ∀ slot c, slotOf st slot = .occupied c →
    ∃ d, d < st.table.length ∧
      slot = (homeSlot hash0 st c + d) % st.table.length ∧
      ∀ j, j < d →
        st.table.getD ((homeSlot hash0 st c + j) % st.table.length) .vacant ≠ .vacant

/-- The synonym-link walk that collects the ring members after the canon,
stopping when the cycle returns to it. -/
def synList (st : InternState) (c : Nat) : Nat → Nat → List Nat
  | _, 0 => []
  | current, fuel + 1 =>
      if current = c then []
      else current :: synList st c (symOf st current).synonym fuel

/-- The ring of a canon, read off the synonym links: the canon followed by
its synonyms in link order. -/
def ringOf (st : InternState) (c : Nat) : List Nat :=
  c :: synList st c (symOf st c).synonym (st.syms.length + 1)

/-- Well-formedness of the interner state with respect to the hash
function. -/
structure WFIntern (hash0 : Bytes → Nat) (st : InternState) : Prop where
  tableNE : 0 < st.table.length
  countEq : st.slotsInUse = nonVacantCount st
  occValid : ∀ slot c, slotOf st slot = .occupied c →
    c < st.syms.length ∧ (symOf st c).canonFlag = true
  occInj : ∀ s1 s2 c, slotOf st s1 = .occupied c → slotOf st s2 = .occupied c → s1 = s2
  classUnique : ∀ s1 s2 c1 c2, slotOf st s1 = .occupied c1 → slotOf st s2 = .occupied c2 →
    caseFold (symOf st c1).str = caseFold (symOf st c2).str → c1 = c2
  probeChain : ProbeChainOK hash0 st
  rings : ∀ x, x < st.syms.length →
    IsRing st (ringOf st (STR_CANON st x)) ∧ x ∈ ringOf st (STR_CANON st x)

/-- The canon ids held by a list of slots, in slot order. -/
def occIds (l : List Slot) : List Nat :=
  l.filterMap (fun s => match s with | Slot.occupied c => some c | _ => none)

/-- A canon id occupies some slot of a table. -/
def occIn (T : List Slot) (c : Nat) : Prop :=
  ∃ slot, T.getD slot .vacant = .occupied c

/-- Probe-chain soundness of a bare table (the rehash target of
Expand_Word_Table before it is installed): every canon lies at the end of
an unbroken chain of non-vacant slots probed from the hash of its
spelling. -/
def TableChainOK (hash0 : Bytes → Nat) (st : InternState) (T : List Slot) : Prop :=
  ∀ slot c, T.getD slot .vacant = .occupied c →
    ∃ d, d < T.length
      ∧ slot = (hashString hash0 (symOf st c).str % T.length + d) % T.length
      ∧ ∀ j, j < d →
          T.getD ((hashString hash0 (symOf st c).str % T.length + j) % T.length) .vacant
            ≠ .vacant

/-! ## Theorems -/

/-! ### C1: quoting -/

theorem valNumQuotes_reQuote (b : BaseCell) (d : Nat) (hb : b.kind < 64) :
    valNumQuotes (reQuote b d) = d := by
  unfold reQuote
  split
  · show (b.kind + 64 * d) / 64 = d
    omega
  · rfl

theorem cellBase_reQuote (b : BaseCell) (d : Nat) (hb : b.kind < 64) :
    cellBase (reQuote b d) = b := by
  unfold reQuote
  split
  · show BaseCell.mk ((b.kind + 64 * d) % 64) b.payload = b
    cases b with
    | mk k p =>
        have hk : k < 64 := hb
        simp only [BaseCell.mk.injEq]
        exact ⟨by omega, trivial⟩
  · rfl

theorem cellBase_kind_lt (v : Cell) (hv : WFCell v) : (cellBase v).kind < 64 := by
  cases v with
  | inline k p => exact Nat.mod_lt _ (by omega)
  | wrapped d b => exact hv.2

theorem reQuote_cellBase (v : Cell) (hv : WFCell v) :
    reQuote (cellBase v) (valNumQuotes v) = v := by
  cases v with
  | inline k p =>
      unfold reQuote cellBase valNumQuotes
      have hk : k < 256 := hv
      have : k / 64 ≤ 3 := by omega
      simp only [this, if_pos]
      simp only [Cell.inline.injEq]
      refine ⟨by omega, trivial⟩
  | wrapped d b =>
      unfold reQuote cellBase valNumQuotes
      have hd : 4 ≤ d := hv.1
      simp only [if_neg (by omega : ¬ d ≤ 3)]

/-- Claim C1, counterexample to the claim as stated: quoting an
already-quoted value by depth 1 yields observable depth 2 (not 1), and
DEQUOTE then strips both levels, so it does not restore the original
value. -/
theorem C1_counterexample :
    uneval (Cell.inline 64 0) true 1 = Except.ok (Cell.inline 128 0)
    ∧ valNumQuotes (Cell.inline 128 0) ≠ 1
    ∧ dequote (Cell.inline 128 0) ≠ Cell.inline 64 0 := by
  refine ⟨?_, by decide, by decide⟩
  rfl

/-- Claim C1 (amended): for every well-formed value v and d in [0,255],
UNEVAL applies exactly d quote levels on top of those already present
(observable depth becomes depth(v) + d), unquoting d levels restores v,
and DEQUOTE strips all levels down to the unquoted base; when v is itself
unquoted the observable depth is exactly d and DEQUOTE restores v. -/
theorem C1_quote_roundtrip (v : Cell) (d : Nat) (hv : WFCell v) (hd : d ≤ 255) :
    ∃ q, uneval v true (d : Int) = Except.ok q
      ∧ Unquotify q d = v
      ∧ valNumQuotes q = valNumQuotes v + d
      ∧ dequote q = Cell.inline (cellBase v).kind (cellBase v).payload
      ∧ (valNumQuotes v = 0 → valNumQuotes q = d ∧ dequote q = v) := by
  have hb := cellBase_kind_lt v hv
  have huneval : uneval v true (d : Int) = Except.ok (Quotify v d) := by
    unfold uneval
    have h1 : ¬ ((d : Int) < 0) := by omega
    simp [h1]
  refine ⟨Quotify v d, huneval, ?_, ?_, ?_, ?_⟩
  · unfold Unquotify Quotify
    rw [cellBase_reQuote _ _ hb, valNumQuotes_reQuote _ _ hb]
    rw [Nat.add_sub_cancel]
    exact reQuote_cellBase v hv
  · unfold Quotify
    exact valNumQuotes_reQuote _ _ hb
  · unfold dequote Unquotify Quotify
    rw [cellBase_reQuote _ _ hb, valNumQuotes_reQuote _ _ hb, Nat.sub_self]
    unfold reQuote
    simp
  · intro h0
    unfold Quotify
    rw [h0, Nat.zero_add]
    refine ⟨valNumQuotes_reQuote _ _ hb, ?_⟩
    unfold dequote Unquotify
    rw [cellBase_reQuote _ _ hb, valNumQuotes_reQuote _ _ hb, Nat.sub_self]
    unfold reQuote
    simp only [Nat.zero_le, if_pos (by omega : (0:Nat) ≤ 3)]
    rw [Nat.mul_zero, Nat.add_zero]
    have := reQuote_cellBase v hv
    rw [h0] at this
    unfold reQuote at this
    simpa using this

/-- Witness for C1_quote_roundtrip at a concrete unquoted value and depth 2. -/
theorem C1_quote_roundtrip_witness :
    ∃ q, uneval (Cell.inline 5 7) true ((2 : Nat) : Int) = Except.ok q
      ∧ Unquotify q 2 = Cell.inline 5 7
      ∧ valNumQuotes q = valNumQuotes (Cell.inline 5 7) + 2
      ∧ dequote q = Cell.inline (cellBase (Cell.inline 5 7)).kind
          (cellBase (Cell.inline 5 7)).payload
      ∧ (valNumQuotes (Cell.inline 5 7) = 0 →
          valNumQuotes q = 2 ∧ dequote q = Cell.inline 5 7) :=
  C1_quote_roundtrip (Cell.inline 5 7) 2 (by decide) (by decide)

/-! ### C5: Returner dispatcher -/

/-- Claim C5: the returner dispatcher propagates a thrown body result
unchecked; otherwise it checks the completed result's kind against the
last parameter's typeset (the definitional return slot), raising the
bad-return-type error exactly when the kind is not in the typeset and
returning the body's result unchanged when it is. -/
theorem C5_returner_contract (params : List ParamTypeset) (outcome : BodyOutcome)
    (ret : ParamTypeset) (hlast : params.getLast? = some ret) :
    (∀ v, outcome = .threw v →
      Returner_Dispatcher params outcome = Except.ok ⟨v, .rOutIsThrown⟩)
    ∧ (∀ v, outcome = .completed v →
        (Returner_Dispatcher params outcome = Except.error (.badReturnType v.kind)
          ↔ TYPE_CHECK ret.bits v.kind = false)
        ∧ (TYPE_CHECK ret.bits v.kind = true →
            Returner_Dispatcher params outcome = Except.ok ⟨v, .rOut⟩)) := by
  constructor
  · rintro v rfl
    rfl
  · rintro v rfl
    unfold Returner_Dispatcher
    rw [hlast]
    simp only [Option.getD_some]
    constructor
    · constructor
      · intro h
        by_contra hbit
        rw [if_pos (by revert hbit; cases TYPE_CHECK ret.bits v.kind <;> simp)] at h
        cases h
      · intro h
        rw [if_neg (by simp [h])]
    · intro h
      rw [if_pos h]

/-- Witness for C5_returner_contract: a one-parameter paramlist whose
return typeset holds only bit 3, a completed value of kind 3. -/
theorem C5_returner_contract_witness :
    (∀ v, BodyOutcome.completed ⟨3, 0⟩ = BodyOutcome.threw v →
      Returner_Dispatcher [⟨"return", .returnP, 8⟩] (BodyOutcome.completed ⟨3, 0⟩)
        = Except.ok ⟨v, .rOutIsThrown⟩)
    ∧ (∀ v, BodyOutcome.completed ⟨3, 0⟩ = BodyOutcome.completed v →
        (Returner_Dispatcher [⟨"return", .returnP, 8⟩] (BodyOutcome.completed ⟨3, 0⟩)
            = Except.error (.badReturnType v.kind)
          ↔ TYPE_CHECK (ParamTypeset.mk "return" .returnP 8).bits v.kind = false)
        ∧ (TYPE_CHECK (ParamTypeset.mk "return" .returnP 8).bits v.kind = true →
            Returner_Dispatcher [⟨"return", .returnP, 8⟩] (BodyOutcome.completed ⟨3, 0⟩)
              = Except.ok ⟨v, .rOut⟩)) :=
  C5_returner_contract [⟨"return", .returnP, 8⟩] (BodyOutcome.completed ⟨3, 0⟩)
    ⟨"return", .returnP, 8⟩ rfl

/-! ### C6: Chainer -/

theorem chainerPushLoop_eq {α : Type} (pipeline : List (α → α)) :
    ∀ i, i ≤ pipeline.length - 1 → ∀ stack,
      chainerPushLoop pipeline i stack = (pipeline.drop 1).take i ++ stack := by
  intro i
  induction i with
  | zero => intro _ stack; rfl
  | succ j ih =>
      intro hij stack
      unfold chainerPushLoop
      rw [ih (by omega)]
      have hj1 : j + 1 < pipeline.length := by
        cases pipeline with
        | nil => simp at hij
        | cons a t => simp at hij ⊢; omega
      have hdrop : (pipeline.drop 1).take (j + 1)
          = (pipeline.drop 1).take j ++ [pipeline.getD (j + 1) id] := by
        have hjlt : j < (pipeline.drop 1).length := by
          rw [List.length_drop]; omega
        rw [List.take_succ]
        congr 1
        rw [List.getElem?_eq_getElem hjlt]
        simp only [Option.toList_some]
        congr 1
        rw [List.getElem_drop]
        rw [List.getD_eq_getElem _ _ hj1]
        congr 1
        omega
      rw [hdrop]
      simp

/-- Claim C6: the chain dispatcher pushes the pipeline minus its first
action onto the data stack in reverse order (so the stack, top first,
reads as the pipeline from its second element on), rewrites the phase to
the first action, and returns redo-unchecked; popping and applying the
pushed actions over the first action's output evaluates the whole chain
left to right, i.e. chain [f, g, h] applied to x computes h (g (f x)). -/
theorem C6_chainer_order {α : Type} (pipeline : List (α → α)) (stack : List (α → α))
    (hne : pipeline ≠ []) (x : α) :
    (Chainer_Dispatcher pipeline stack).1 = pipeline.drop 1 ++ stack
    ∧ (Chainer_Dispatcher pipeline stack).2.1 = pipeline.getD 0 id
    ∧ (Chainer_Dispatcher pipeline stack).2.2 = RebSignal.rRedoUnchecked
    ∧ applyPostStack (pipeline.drop 1) ((pipeline.getD 0 id) x)
        = pipeline.foldl (fun acc g => g acc) x
    ∧ (∀ f g h : α → α, pipeline = [f, g, h] →
        applyPostStack (pipeline.drop 1) ((pipeline.getD 0 id) x) = h (g (f x))) := by
  obtain ⟨hd, tl, rfl⟩ := List.exists_cons_of_ne_nil hne
  refine ⟨?_, rfl, rfl, ?_, ?_⟩
  · show chainerPushLoop (hd :: tl) ((hd :: tl).length - 1) stack = _
    rw [chainerPushLoop_eq (hd :: tl) ((hd :: tl).length - 1) (le_refl _)]
    simp
  · simp [applyPostStack]
  · rintro f g h hfgh
    injection hfgh with h1 h2
    subst h1; subst h2
    rfl

/-! ### C3: garbage collector -/

theorem mem_reachStep {pool : Pool} {s : List Nat} {a : Nat} :
    a ∈ reachStep pool s ↔ a ∈ s ∨ ∃ b ∈ s, a ∈ nodeRefs pool b := by
  simp [reachStep]

theorem reachN_subset_succ {pool : Pool} {roots : List Nat} {n : Nat} :
    ∀ a ∈ reachN pool roots n, a ∈ reachN pool roots (n + 1) :=
  fun _ ha => mem_reachStep.2 (Or.inl ha)

theorem mem_reachN_zero {pool : Pool} {roots : List Nat} {a : Nat} :
    a ∈ reachN pool roots 0 ↔ a ∈ roots := List.mem_dedup

theorem roots_subset_reachable {pool : Pool} {roots : List Nat} :
    ∀ a ∈ roots, a ∈ reachable pool roots := by
  intro a ha
  have : ∀ n, a ∈ reachN pool roots n := by
    intro n
    induction n with
    | zero => exact mem_reachN_zero.2 ha
    | succ n ih => exact reachN_subset_succ a ih
  exact this _

theorem reachN_valid {pool : Pool} {roots : List Nat} (wf : GCWF pool roots) :
    ∀ n a, a ∈ reachN pool roots n →
      a < pool.length ∧ liveManaged (pool.getD a default) = true := by
  intro n
  induction n with
  | zero =>
      intro a ha
      exact wf.1 a (mem_reachN_zero.1 ha)
  | succ n ih =>
      intro a ha
      rcases mem_reachStep.1 ha with h | ⟨b, hb, hab⟩
      · exact ih a h
      · obtain ⟨hblt, hblm⟩ := ih b hb
        have hmem : pool.getD b default ∈ pool := by
          rw [List.getD_eq_getElem _ _ hblt]
          exact List.getElem_mem _
        exact wf.2.1 _ hmem hblm a hab

theorem reachN_card_le {pool : Pool} {roots : List Nat} (wf : GCWF pool roots) (n : Nat) :
    (reachN pool roots n).toFinset.card ≤ pool.length := by
  have hsub : (reachN pool roots n).toFinset ⊆ Finset.range pool.length := by
    intro a ha
    rw [List.mem_toFinset] at ha
    rw [Finset.mem_range]
    exact (reachN_valid wf n a ha).1
  calc (reachN pool roots n).toFinset.card
      ≤ (Finset.range pool.length).card := Finset.card_le_card hsub
    _ = pool.length := Finset.card_range _

theorem reachN_progress {pool : Pool} {roots : List Nat} : ∀ n,
    (∀ a ∈ reachN pool roots (n + 1), a ∈ reachN pool roots n)
    ∨ n + 1 ≤ (reachN pool roots (n + 1)).toFinset.card := by
  have hstep : ∀ m, (¬ ∀ a ∈ reachN pool roots (m + 1), a ∈ reachN pool roots m) →
      (reachN pool roots m).toFinset.card < (reachN pool roots (m + 1)).toFinset.card := by
    intro m hm
    push_neg at hm
    obtain ⟨a, ha1, ha0⟩ := hm
    apply Finset.card_lt_card
    constructor
    · intro x hx
      rw [List.mem_toFinset] at hx ⊢
      exact reachN_subset_succ x hx
    · intro hsub
      exact ha0 (List.mem_toFinset.1 (hsub (List.mem_toFinset.2 ha1)))
  intro n
  induction n with
  | zero =>
      by_cases h : ∀ a ∈ reachN pool roots 1, a ∈ reachN pool roots 0
      · exact Or.inl h
      · exact Or.inr (by have := hstep 0 h; omega)
  | succ n ih =>
      rcases ih with hfix | hcard
      · left
        intro a ha
        rcases mem_reachStep.1 ha with h | ⟨b, hb, hab⟩
        · exact h
        · exact mem_reachStep.2 (Or.inr ⟨b, hfix b hb, hab⟩)
      · by_cases h : ∀ a ∈ reachN pool roots (n + 2), a ∈ reachN pool roots (n + 1)
        · exact Or.inl h
        · exact Or.inr (by have := hstep (n + 1) h; omega)

theorem reach_closed {pool : Pool} {roots : List Nat} (wf : GCWF pool roots) :
    ∀ a ∈ reachable pool roots, ∀ b ∈ nodeRefs pool a, b ∈ reachable pool roots := by
  have hfix : ∀ x ∈ reachN pool roots (pool.length + 1), x ∈ reachN pool roots pool.length := by
    rcases @reachN_progress pool roots pool.length with h | h
    · exact h
    · exfalso
      have := reachN_card_le wf (pool.length + 1)
      omega
  intro a ha b hb
  exact hfix b (mem_reachStep.2 (Or.inr ⟨a, ha, hb⟩))

theorem Mark_Phase_length (pool : Pool) (roots : List Nat) :
    (Mark_Phase pool roots).length = pool.length := by
  simp [Mark_Phase]

theorem Mark_Phase_getD {pool : Pool} {roots : List Nat} {i : Nat} (h : i < pool.length) :
    (Mark_Phase pool roots).getD i default =
      { pool.getD i default with
        marked := (pool.getD i default).marked || decide (i ∈ reachable pool roots) } := by
  unfold Mark_Phase
  rw [List.getD_eq_getElem _ _ (by simpa using h), List.getElem_map, List.getElem_enum,
    List.getD_eq_getElem _ _ h]

theorem Sweep_Series_eq {pool : Pool} (h : ∀ s ∈ pool, sweepPanics s = false) :
    Sweep_Series pool = some (pool.map sweptNode, (pool.filter sweepFreed).length) := by
  unfold Sweep_Series
  rw [if_neg]
  intro hc
  obtain ⟨s, hs, hps⟩ := List.any_eq_true.1 hc
  rw [h s hs] at hps
  cases hps

theorem getD_mem {α : Type} {l : List α} {i : Nat} {d : α} (h : i < l.length) :
    l.getD i d ∈ l := by
  rw [List.getD_eq_getElem _ _ h]
  exact List.getElem_mem _

theorem sweptNode_refs (s : GCNode) : (sweptNode s).refs = s.refs := by
  unfold sweptNode
  split_ifs <;> rfl

theorem liveManaged_iff {s : GCNode} :
    liveManaged s = true ↔ s.nodeFree = false ∧ s.managed = true := by
  unfold liveManaged
  cases s.nodeFree <;> cases s.managed <;> simp

theorem update_marked_self (s : GCNode) : ({ s with marked := s.marked }) = s := rfl

theorem update_marked_false {s : GCNode} (h : s.marked = false) :
    ({ s with marked := false }) = s := by
  rw [← h]

theorem sweptNode_live_marked {s : GCNode} (hf : s.nodeFree = false)
    (hm : s.managed = true) :
    sweptNode { s with marked := true } = { s with marked := false } := by
  unfold sweptNode
  simp [hf, hm]

theorem liveManaged_sweptNode_unmarked {s : GCNode} (h : s.marked = false) :
    liveManaged (sweptNode s) = false := by
  unfold sweptNode liveManaged
  cases hf : s.nodeFree <;> cases hmg : s.managed <;> simp [hf, hmg, h]

theorem sweptNode_marked_of_unmarked {s : GCNode} (h : s.marked = false) :
    (sweptNode s).marked = false := by
  unfold sweptNode
  cases hf : s.nodeFree <;> cases hmg : s.managed <;> simp [hf, hmg, h]

theorem markPhase_no_panic {pool : Pool} {roots : List Nat} (wf : GCWF pool roots) :
    ∀ s ∈ Mark_Phase pool roots, sweepPanics s = false := by
  intro s hs
  obtain ⟨i, hi, hgi⟩ := List.mem_iff_getElem.1 hs
  have hilen : i < pool.length := by
    rw [Mark_Phase_length] at hi
    exact hi
  have hs_eq : s = (Mark_Phase pool roots).getD i default := by
    rw [List.getD_eq_getElem _ _ hi, hgi]
  rw [hs_eq, Mark_Phase_getD hilen]
  have hm0 : (pool.getD i default).marked = false := wf.2.2 _ (getD_mem hilen)
  show (!(pool.getD i default).nodeFree && !(pool.getD i default).managed &&
      ((pool.getD i default).marked || decide (i ∈ reachable pool roots))) = false
  rw [hm0, Bool.false_or]
  by_cases hr : i ∈ reachable pool roots
  · have h2 : (pool.getD i default).managed = true :=
      (liveManaged_iff.1 (reachN_valid wf _ i hr).2).2
    rw [h2]
    simp only [Bool.not_true, Bool.and_false, Bool.false_and]
  · rw [decide_eq_false hr, Bool.and_false]

theorem recycle_eq {pool : Pool} {roots : List Nat} (wf : GCWF pool roots) :
    Recycle pool roots = some ((Mark_Phase pool roots).map sweptNode,
      ((Mark_Phase pool roots).filter sweepFreed).length) := by
  unfold Recycle Recycle_Core
  exact Sweep_Series_eq (markPhase_no_panic wf)

theorem pool1_length (pool : Pool) (roots : List Nat) :
    ((Mark_Phase pool roots).map sweptNode).length = pool.length := by
  simp [Mark_Phase_length]

theorem pool1_getD {pool : Pool} {roots : List Nat} (wf : GCWF pool roots)
    {i : Nat} (h : i < pool.length) :
    ((Mark_Phase pool roots).map sweptNode).getD i default =
      (if i ∈ reachable pool roots then pool.getD i default
       else sweptNode (pool.getD i default)) := by
  have hlen : i < (Mark_Phase pool roots).length := by rw [Mark_Phase_length]; exact h
  rw [List.getD_eq_getElem _ _ (by simpa using hlen), List.getElem_map]
  have : (Mark_Phase pool roots)[i] = (Mark_Phase pool roots).getD i default := by
    rw [List.getD_eq_getElem _ _ hlen]
  rw [this, Mark_Phase_getD h]
  have hm0 : (pool.getD i default).marked = false := wf.2.2 _ (getD_mem h)
  by_cases hr : i ∈ reachable pool roots
  · rw [if_pos hr, decide_eq_true hr, hm0, Bool.false_or]
    obtain ⟨hf, hmg⟩ := liveManaged_iff.1 (reachN_valid wf _ i hr).2
    rw [sweptNode_live_marked hf hmg]
    exact update_marked_false hm0
  · rw [if_neg hr, decide_eq_false hr, Bool.or_false, update_marked_self]

theorem nodeRefs_pool1 (pool : Pool) (roots : List Nat) :
    nodeRefs ((Mark_Phase pool roots).map sweptNode) = nodeRefs pool := by
  funext i
  unfold nodeRefs
  by_cases h : i < pool.length
  · have hlen : i < (Mark_Phase pool roots).length := by rw [Mark_Phase_length]; exact h
    rw [List.getD_eq_getElem _ _ (by simpa using hlen), List.getElem_map, sweptNode_refs]
    unfold Mark_Phase
    rw [List.getElem_map, List.getElem_enum]
    simp only
    rw [List.getD_eq_getElem _ _ h]
  · rw [List.getD_eq_default, List.getD_eq_default]
    · omega
    · rw [List.length_map, Mark_Phase_length]; omega

theorem reachable_pool1 (pool : Pool) (roots : List Nat) :
    reachable ((Mark_Phase pool roots).map sweptNode) roots = reachable pool roots := by
  have hrefs := nodeRefs_pool1 pool roots
  have hstep : reachStep ((Mark_Phase pool roots).map sweptNode) = reachStep pool := by
    funext s
    unfold reachStep
    rw [hrefs]
  have hN : ∀ n, reachN ((Mark_Phase pool roots).map sweptNode) roots n
      = reachN pool roots n := by
    intro n
    induction n with
    | zero => rfl
    | succ n ih =>
        show reachStep _ _ = reachStep _ _
        rw [hstep, ih]
  unfold reachable
  rw [hN, pool1_length]

theorem GCWF_pool1 {pool : Pool} {roots : List Nat} (wf : GCWF pool roots) :
    GCWF ((Mark_Phase pool roots).map sweptNode) roots := by
  set pool1 := (Mark_Phase pool roots).map sweptNode with hpool1
  have hlen : pool1.length = pool.length := pool1_length pool roots
  have hmem1 : ∀ s ∈ pool1, ∃ i, ∃ h : i < pool.length, s = pool1.getD i default := by
    intro s hs
    obtain ⟨i, hi, hgi⟩ := List.mem_iff_getElem.1 hs
    refine ⟨i, by omega, ?_⟩
    rw [List.getD_eq_getElem _ _ hi, hgi]
  have hlm1 : ∀ i, ∀ h : i < pool.length,
      liveManaged (pool1.getD i default) = true ↔
        (i ∈ reachable pool roots ∧ liveManaged (pool.getD i default) = true) := by
    intro i h
    rw [pool1_getD wf h]
    by_cases hr : i ∈ reachable pool roots
    · have := (reachN_valid wf _ i hr).2
      simp [hr, this]
    · rw [if_neg hr]
      have hm0 : (pool.getD i default).marked = false := wf.2.2 _ (getD_mem h)
      rw [liveManaged_sweptNode_unmarked hm0]
      simp [hr]
  refine ⟨?_, ?_, ?_⟩
  · intro i hi
    have h1 := wf.1 i hi
    have hr : i ∈ reachable pool roots := roots_subset_reachable i hi
    refine ⟨by omega, ?_⟩
    exact (hlm1 i h1.1).2 ⟨hr, h1.2⟩
  · intro s hs hlm j hj
    obtain ⟨i, hilt, hseq⟩ := hmem1 s hs
    rw [hseq] at hlm
    obtain ⟨hr, hpl⟩ := (hlm1 i hilt).1 hlm
    have hrefs_s : s.refs = (pool.getD i default).refs := by
      rw [hseq, pool1_getD wf hilt, if_pos hr]
    rw [hrefs_s] at hj
    have hjreach : j ∈ reachable pool roots :=
      reach_closed wf i hr j hj
    have hjval := reachN_valid wf _ j hjreach
    refine ⟨by omega, ?_⟩
    exact (hlm1 j hjval.1).2 ⟨hjreach, hjval.2⟩
  · intro s hs
    obtain ⟨i, hilt, hseq⟩ := hmem1 s hs
    rw [hseq, pool1_getD wf hilt]
    have hm0 : (pool.getD i default).marked = false := wf.2.2 _ (getD_mem hilt)
    by_cases hr : i ∈ reachable pool roots
    · rw [if_pos hr]; exact hm0
    · rw [if_neg hr]
      exact sweptNode_marked_of_unmarked hm0

theorem second_recycle_zero {pool : Pool} {roots : List Nat} (wf : GCWF pool roots) :
    ((Mark_Phase ((Mark_Phase pool roots).map sweptNode) roots).filter sweepFreed).length
      = 0 := by
  set pool1 := (Mark_Phase pool roots).map sweptNode with hpool1
  have wf1 : GCWF pool1 roots := GCWF_pool1 wf
  have hlen : pool1.length = pool.length := pool1_length pool roots
  rw [List.length_eq_zero, List.filter_eq_nil_iff]
  intro s hs
  obtain ⟨i, hi, hgi⟩ := List.mem_iff_getElem.1 hs
  have hilen : i < pool1.length := by rw [Mark_Phase_length] at hi; exact hi
  have hs_eq : s = (Mark_Phase pool1 roots).getD i default := by
    rw [List.getD_eq_getElem _ _ hi, hgi]
  suffices hsf : sweepFreed ((Mark_Phase pool1 roots).getD i default) = false by
    rw [hs_eq, hsf]
    decide
  rw [Mark_Phase_getD hilen]
  by_cases hlm : liveManaged (pool1.getD i default) = true
  · -- live managed nodes of pool1 are exactly the reachable ones, hence marked
    have hr1 : i ∈ reachable pool roots := by
      by_contra hr
      rw [pool1_getD wf (show i < pool.length by omega), if_neg hr] at hlm
      have hq0 : (pool.getD i default).marked = false :=
        wf.2.2 _ (getD_mem (show i < pool.length by omega))
      rw [liveManaged_sweptNode_unmarked hq0] at hlm
      exact absurd hlm (by decide)
    have hr : i ∈ reachable pool1 roots := by
      rw [reachable_pool1]
      exact hr1
    show (!(pool1.getD i default).nodeFree && (pool1.getD i default).managed &&
        !((pool1.getD i default).marked || decide (i ∈ reachable pool1 roots))) = false
    rw [decide_eq_true hr, Bool.or_true, Bool.not_true, Bool.and_false]
  · show (!(pool1.getD i default).nodeFree && (pool1.getD i default).managed &&
        !((pool1.getD i default).marked || decide (i ∈ reachable pool1 roots))) = false
    have hfm : (!(pool1.getD i default).nodeFree && (pool1.getD i default).managed) = false := by
      revert hlm
      unfold liveManaged
      cases (pool1.getD i default).nodeFree <;> cases (pool1.getD i default).managed <;> simp
    rw [hfm, Bool.false_and]

/-- Claim C3: the sweep frees exactly the managed non-free nodes whose
MARKED bit is clear and clears the MARKED bit on every survivor; as a
consequence, a recycle run immediately after a recycle frees zero
additional managed nodes. -/
theorem C3_gc_sweep_recycle (pool : Pool) (roots : List Nat) (wf : GCWF pool roots) :
    (∀ q : Pool, (∀ s ∈ q, sweepPanics s = false) →
        Sweep_Series q = some (q.map sweptNode, (q.filter sweepFreed).length))
    ∧ (∀ s : GCNode, sweepFreed s = true ↔ (liveManaged s = true ∧ s.marked = false))
    ∧ (∀ s : GCNode, liveManaged s = true → s.marked = false → (sweptNode s).nodeFree = true)
    ∧ (∀ s : GCNode, liveManaged s = true → s.marked = true →
        sweptNode s = { s with marked := false })
    ∧ (∃ pool1 c1 pool2, Recycle pool roots = some (pool1, c1)
        ∧ Recycle pool1 roots = some (pool2, 0)) := by
  refine ⟨fun q hq => Sweep_Series_eq hq, ?_, ?_, ?_, ?_⟩
  · intro s
    unfold sweepFreed liveManaged
    cases s.nodeFree <;> cases s.managed <;> cases s.marked <;> simp
  · intro s hlm hm
    obtain ⟨hf, hmg⟩ := liveManaged_iff.1 hlm
    unfold sweptNode
    simp [hf, hmg, hm]
  · intro s hlm hm
    obtain ⟨hf, hmg⟩ := liveManaged_iff.1 hlm
    unfold sweptNode
    simp [hf, hmg, hm]
  · refine ⟨(Mark_Phase pool roots).map sweptNode,
      ((Mark_Phase pool roots).filter sweepFreed).length, ?_, recycle_eq wf, ?_⟩
    · exact (Mark_Phase ((Mark_Phase pool roots).map sweptNode) roots).map sweptNode
    · have wf1 := GCWF_pool1 wf
      rw [recycle_eq wf1, second_recycle_zero wf]

/-- Witness for C3_gc_sweep_recycle: a three-node pool where node 0 is the
root referencing node 1, and node 2 is garbage. -/
theorem C3_gc_sweep_recycle_witness :
    (∀ q : Pool, (∀ s ∈ q, sweepPanics s = false) →
        Sweep_Series q = some (q.map sweptNode, (q.filter sweepFreed).length))
    ∧ (∀ s : GCNode, sweepFreed s = true ↔ (liveManaged s = true ∧ s.marked = false))
    ∧ (∀ s : GCNode, liveManaged s = true → s.marked = false → (sweptNode s).nodeFree = true)
    ∧ (∀ s : GCNode, liveManaged s = true → s.marked = true →
        sweptNode s = { s with marked := false })
    ∧ (∃ pool1 c1 pool2,
        Recycle [⟨false, true, false, [1]⟩, ⟨false, true, false, []⟩,
          ⟨false, true, false, []⟩] [0] = some (pool1, c1)
        ∧ Recycle pool1 [0] = some (pool2, 0)) :=
  C3_gc_sweep_recycle
    [⟨false, true, false, [1]⟩, ⟨false, true, false, []⟩, ⟨false, true, false, []⟩]
    [0] (by decide)

/-! ### C4 and C9: paramlist builder -/

theorem getD_tsv_iff {s : List StackVal} {i : Nat} {p : ParamTypeset} :
    s[i]? = some (.tsv p) ↔ (i < s.length ∧ s.getD i .blank0 = .tsv p) := by
  constructor
  · intro h
    have hlt : i < s.length := by
      by_contra hc
      rw [List.getElem?_eq_none (by omega)] at h
      cases h
    refine ⟨hlt, ?_⟩
    rw [List.getD_eq_getElem _ _ hlt]
    rw [List.getElem?_eq_getElem hlt] at h
    injection h
  · rintro ⟨hlt, hd⟩
    rw [List.getElem?_eq_getElem hlt]
    rw [List.getD_eq_getElem _ _ hlt] at hd
    rw [hd]

theorem mem_typesetSlots {s : List StackVal} {i : Nat} {p : ParamTypeset} :
    (i, p) ∈ typesetSlots s ↔
      (3 ≤ i ∧ i % 3 = 0 ∧ i < s.length ∧ s.getD i .blank0 = .tsv p) := by
  unfold typesetSlots
  rw [List.mem_filterMap]
  constructor
  · rintro ⟨⟨j, v⟩, hmem, hf⟩
    have hjv : s[j]? = some v := List.mem_enum_iff_getElem?.1 hmem
    cases v with
    | blank0 => simp at hf
    | tsv q =>
        by_cases hc : 3 ≤ j ∧ j % 3 = 0
        · simp only [hc, and_self, if_true] at hf
          injection hf with hf
          injection hf with hji hqp
          subst hji
          subst hqp
          obtain ⟨hlt, hd⟩ := getD_tsv_iff.1 hjv
          exact ⟨hc.1, hc.2, hlt, hd⟩
        · simp only [if_neg hc] at hf
          cases hf
    | blk b => simp at hf
    | strv t => simp at hf
  · rintro ⟨h3, h0, hlt, hd⟩
    refine ⟨(i, .tsv p), ?_, ?_⟩
    · rw [List.mem_enum_iff_getElem?]
      exact getD_tsv_iff.2 ⟨hlt, hd⟩
    · simp [h3, h0]

theorem typesetSlots_append_nonTs {s : List StackVal} {v : StackVal}
    (hv : v.isTypeset = false) :
    typesetSlots (s ++ [v]) = typesetSlots s := by
  unfold typesetSlots
  rw [List.enum_append, List.filterMap_append]
  suffices h : List.filterMap _ (List.enumFrom s.length [v]) = [] by
    rw [h, List.append_nil]
  cases v <;> simp_all [List.enumFrom, StackVal.isTypeset]

theorem typesetSlots_concat_tsv {s : List StackVal} {p : ParamTypeset}
    (h3 : 3 ≤ s.length) (h0 : s.length % 3 = 0) :
    typesetSlots (s ++ [.tsv p]) = typesetSlots s ++ [(s.length, p)] := by
  unfold typesetSlots
  rw [List.enum_append, List.filterMap_append]
  congr 1
  simp [List.enumFrom, h3, h0]

theorem shape_top_ts {s : List StackVal} (hs : stackShapeOK s) :
    (dsTop s).isTypeset = true ↔ s.length % 3 = 1 := by
  have h3 := hs.1
  have := (hs.2 (s.length - 1) (by omega)).1
  unfold dsTop
  rw [this]
  omega

theorem shape_top_blk {s : List StackVal} (hs : stackShapeOK s) :
    (dsTop s).isBlock = true ↔ s.length % 3 = 2 := by
  have h3 := hs.1
  have := (hs.2 (s.length - 1) (by omega)).2.1
  unfold dsTop
  rw [this]
  omega

theorem shape_top_str {s : List StackVal} (hs : stackShapeOK s) :
    (dsTop s).isString = true ↔ s.length % 3 = 0 := by
  have h3 := hs.1
  have := (hs.2 (s.length - 1) (by omega)).2.2
  unfold dsTop
  rw [this]
  omega

theorem shape_append {s : List StackVal} {v : StackVal} (hs : stackShapeOK s)
    (h1 : v.isTypeset = true ↔ (3 ≤ s.length ∧ s.length % 3 = 0))
    (h2 : v.isBlock = true ↔ s.length % 3 = 1)
    (h3 : v.isString = true ↔ s.length % 3 = 2) :
    stackShapeOK (s ++ [v]) := by
  refine ⟨by have h := hs.1; simp; omega, ?_⟩
  intro i hi
  rw [List.length_append, List.length_singleton] at hi
  by_cases hil : i < s.length
  · rw [List.getD_append _ _ _ _ hil]
    exact hs.2 i hil
  · have hieq : i = s.length := by omega
    subst hieq
    rw [List.getD_append_right _ _ _ _ (le_refl _), Nat.sub_self]
    exact ⟨h1, h2, h3⟩

theorem shape_push_blk {s : List StackVal} {b : Option Nat} (hs : stackShapeOK s)
    (h : s.length % 3 = 1) : stackShapeOK (s ++ [.blk b]) :=
  shape_append hs (by simp [StackVal.isTypeset]; omega) (by simp [StackVal.isBlock, h])
    (by simp [StackVal.isString]; omega)

theorem shape_push_strv {s : List StackVal} {t : Option String} (hs : stackShapeOK s)
    (h : s.length % 3 = 2) : stackShapeOK (s ++ [.strv t]) :=
  shape_append hs (by simp [StackVal.isTypeset]; omega) (by simp [StackVal.isBlock]; omega)
    (by simp [StackVal.isString, h])

theorem shape_push_tsv {s : List StackVal} {p : ParamTypeset} (hs : stackShapeOK s)
    (h : s.length % 3 = 0) : stackShapeOK (s ++ [.tsv p]) :=
  shape_append hs (by simp [StackVal.isTypeset]; exact ⟨hs.1, h⟩)
    (by simp [StackVal.isBlock]; omega) (by simp [StackVal.isString]; omega)

theorem getD_set_self {s : List StackVal} {i : Nat} {v : StackVal} (h : i < s.length) :
    (s.set i v).getD i .blank0 = v := by
  rw [List.getD_eq_getElem _ _ (by simpa using h)]
  simp

theorem getD_set_ne {s : List StackVal} {i j : Nat} {v : StackVal} (h : i ≠ j) :
    (s.set i v).getD j .blank0 = s.getD j .blank0 := by
  by_cases hj : j < s.length
  · rw [List.getD_eq_getElem _ _ (by simpa using hj), List.getD_eq_getElem _ _ hj]
    exact List.getElem_set_ne h _
  · rw [List.getD_eq_default _ _ (by simpa using hj), List.getD_eq_default _ _ (by omega)]

theorem flesh_eq_of_mod0 {s : List StackVal} (hs : stackShapeOK s)
    (h0 : s.length % 3 = 0) : fleshOutRhythm s = s := by
  have htopF : ¬ ((dsTop s).isTypeset = true) := by
    intro hc
    have := (shape_top_ts hs).1 hc
    omega
  have hbkF : ¬ ((dsTop s).isBlock = true) := by
    intro hc
    have := (shape_top_blk hs).1 hc
    omega
  unfold fleshOutRhythm
  rw [if_neg htopF, if_neg hbkF]

theorem flesh_eq_of_mod1 {s : List StackVal} (hs : stackShapeOK s)
    (h1 : s.length % 3 = 1) :
    fleshOutRhythm s = (s ++ [.blk none]) ++ [.strv none] := by
  have htop : (dsTop s).isTypeset = true := (shape_top_ts hs).2 h1
  have h2 : (s ++ [StackVal.blk none]).length % 3 = 2 := by simp; omega
  have htop2 : (dsTop (s ++ [StackVal.blk none])).isBlock = true :=
    (shape_top_blk (shape_push_blk hs h1)).2 h2
  unfold fleshOutRhythm
  rw [if_pos htop, if_pos htop2]

theorem flesh_eq_of_mod2 {s : List StackVal} (hs : stackShapeOK s)
    (h2 : s.length % 3 = 2) : fleshOutRhythm s = s ++ [.strv none] := by
  have htopF : ¬ ((dsTop s).isTypeset = true) := by
    intro hc
    have := (shape_top_ts hs).1 hc
    omega
  have hbk : (dsTop s).isBlock = true := (shape_top_blk hs).2 h2
  unfold fleshOutRhythm
  rw [if_neg htopF, if_pos hbk]

theorem flesh_spec {s : List StackVal} (hs : stackShapeOK s) :
    stackShapeOK (fleshOutRhythm s)
    ∧ (fleshOutRhythm s).length % 3 = 0
    ∧ s.length ≤ (fleshOutRhythm s).length
    ∧ (∀ i, i < s.length → (fleshOutRhythm s).getD i .blank0 = s.getD i .blank0)
    ∧ typesetSlots (fleshOutRhythm s) = typesetSlots s := by
  by_cases h1 : s.length % 3 = 1
  · rw [flesh_eq_of_mod1 hs h1]
    have hs1 : stackShapeOK (s ++ [StackVal.blk none]) := shape_push_blk hs h1
    have hm2 : (s ++ [StackVal.blk none]).length % 3 = 2 := by simp; omega
    refine ⟨shape_push_strv hs1 hm2, by simp; omega, by simp, ?_, ?_⟩
    · intro i hi
      rw [List.getD_append _ _ _ _ (by simp; omega), List.getD_append _ _ _ _ hi]
    · rw [typesetSlots_append_nonTs (by rfl), typesetSlots_append_nonTs (by rfl)]
  · by_cases h2 : s.length % 3 = 2
    · rw [flesh_eq_of_mod2 hs h2]
      refine ⟨shape_push_strv hs h2, by simp; omega, by simp, ?_, ?_⟩
      · intro i hi
        rw [List.getD_append _ _ _ _ hi]
      · rw [typesetSlots_append_nonTs (by rfl)]
    · have h0 : s.length % 3 = 0 := by omega
      rw [flesh_eq_of_mod0 hs h0]
      exact ⟨hs, h0, le_refl _, fun i _ => rfl, rfl⟩

theorem shape_getD_zero {s : List StackVal} (hs : stackShapeOK s) :
    s.getD 0 .blank0 = .blank0 := by
  have h := hs.2 0 (by have := hs.1; omega)
  rcases hv : s.getD 0 .blank0 with _ | p | b | t
  · rfl
  · rw [hv] at h
    have := h.1.1 rfl
    omega
  · rw [hv] at h
    have := h.2.1.1 rfl
    omega
  · rw [hv] at h
    have := h.2.2.1 rfl
    omega

theorem dropLast_append_eq_set {α : Type} (v : α) :
    ∀ (s : List α), s ≠ [] → s.dropLast ++ [v] = s.set (s.length - 1) v := by
  intro s
  induction s with
  | nil => intro h; cases h rfl
  | cons a t ih =>
      intro _
      cases t with
      | nil => rfl
      | cons b u =>
          have ihh := ih (by simp)
          show a :: ((b :: u).dropLast ++ [v]) = (a :: b :: u).set ((a :: b :: u).length - 1) v
          rw [ihh]
          simp only [List.length_cons]
          rfl

theorem getD_append_tsv {s : List StackVal} {v : StackVal} {i : Nat} {p : ParamTypeset}
    (h : (s ++ [v]).getD i .blank0 = .tsv p) :
    s.getD i .blank0 = .tsv p ∨ (i = s.length ∧ v = .tsv p) := by
  by_cases hi : i < s.length
  · left
    rw [List.getD_append _ _ _ _ hi] at h
    exact h
  · by_cases hieq : i = s.length
    · right
      subst hieq
      rw [List.getD_append_right _ _ _ _ (le_refl _), Nat.sub_self] at h
      exact ⟨rfl, h⟩
    · exfalso
      rw [List.getD_eq_default _ _ (by simp; omega)] at h
      cases h

theorem getD_set_cases {s : List StackVal} {j : Nat} {v : StackVal} {i : Nat}
    {p : ParamTypeset} (h : (s.set j v).getD i .blank0 = .tsv p) :
    (i = j ∧ j < s.length ∧ v = .tsv p) ∨ s.getD i .blank0 = .tsv p := by
  by_cases hij : i = j
  · subst hij
    by_cases hj : i < s.length
    · left
      rw [getD_set_self hj] at h
      exact ⟨rfl, hj, h⟩
    · right
      rw [List.set_eq_of_length_le (by omega)] at h
      exact h
  · right
    rw [getD_set_ne (Ne.symm hij)] at h
    exact h

theorem shape_set {s : List StackVal} {i : Nat} {v : StackVal} (hs : stackShapeOK s)
    (hi : i < s.length)
    (h1 : v.isTypeset = true ↔ (3 ≤ i ∧ i % 3 = 0))
    (h2 : v.isBlock = true ↔ i % 3 = 1)
    (h3 : v.isString = true ↔ i % 3 = 2) :
    stackShapeOK (s.set i v) := by
  refine ⟨by simpa using hs.1, ?_⟩
  intro j hj
  rw [List.length_set] at hj
  by_cases hij : i = j
  · subst hij
    rw [getD_set_self hi]
    exact ⟨h1, h2, h3⟩
  · rw [getD_set_ne hij]
    exact hs.2 j hj

theorem inv_str {st st' : BuildState} {s0 : String} (inv : BuilderInv st)
    (hok : processItem st (.str s0) = Except.ok st') :
    BuilderInv st' ∧ st'.defReturnIdx = st.defReturnIdx
      ∧ st'.flags = st.flags := by
  simp only [processItem] at hok
  by_cases hw : st.mode = .withMode
  · rw [if_pos hw] at hok
    injection hok with h
    subst h
    exact ⟨inv, rfl, rfl⟩
  · rw [if_neg hw] at hok
    have hsh := inv.shape
    have hlen3 := hsh.1
    by_cases h1 : st.stack.length % 3 = 1
    · -- top is a typeset: push EMPTY_BLOCK, then push the note string
      have hts : (dsTop st.stack).isTypeset = true := (shape_top_ts hsh).2 h1
      have hs1 : stackShapeOK (st.stack ++ [StackVal.blk none]) := shape_push_blk hsh h1
      have hm2 : (st.stack ++ [StackVal.blk none]).length % 3 = 2 := by simp; omega
      have hbk : (dsTop (st.stack ++ [StackVal.blk none])).isBlock = true :=
        (shape_top_blk hs1).2 hm2
      simp only [hts, hbk, if_true] at hok
      rw [if_neg (by simp; omega)] at hok
      injection hok with h
      subst h
      refine ⟨⟨inv.fret, inv.ffake, inv.fleave, shape_push_strv hs1 hm2, ?_, ?_,
        inv.leaveIdx⟩, rfl, rfl⟩
      · intro i p hp
        rcases getD_append_tsv hp with hp2 | ⟨_, hv⟩
        · rcases getD_append_tsv hp2 with hp3 | ⟨_, hv⟩
          · exact inv.classes i p hp3
          · cases hv
        · cases hv
      · intro idx hidx
        obtain ⟨h3, h0, hlt, q, hq, hcanon, hclass⟩ := inv.retIdx idx hidx
        refine ⟨h3, h0, by simp; omega, q, ?_, hcanon, hclass⟩
        rw [List.getD_append _ _ _ _ (by simp; omega), List.getD_append _ _ _ _ hlt]
        exact hq
    · by_cases h2 : st.stack.length % 3 = 2
      · -- top is a block: push the note string
        have htsF : (dsTop st.stack).isTypeset = false := by
          cases hc : (dsTop st.stack).isTypeset
          · rfl
          · exfalso
            have := (shape_top_ts hsh).1 hc
            omega
        have hbk : (dsTop st.stack).isBlock = true := (shape_top_blk hsh).2 h2
        simp only [htsF, Bool.false_eq_true, if_false, hbk, if_true] at hok
        rw [if_neg (by simp; omega)] at hok
        injection hok with h
        subst h
        refine ⟨⟨inv.fret, inv.ffake, inv.fleave, shape_push_strv hsh h2, ?_, ?_,
          inv.leaveIdx⟩, rfl, rfl⟩
        · intro i p hp
          rcases getD_append_tsv hp with hp2 | ⟨_, hv⟩
          · exact inv.classes i p hp2
          · cases hv
        · intro idx hidx
          obtain ⟨h3, h0, hlt, q, hq, hcanon, hclass⟩ := inv.retIdx idx hidx
          refine ⟨h3, h0, by simp; omega, q, ?_, hcanon, hclass⟩
          rw [List.getD_append _ _ _ _ hlt]
          exact hq
      · -- top is a string: overwrite it with the pushed string
        have h0 : st.stack.length % 3 = 0 := by omega
        have htsF : (dsTop st.stack).isTypeset = false := by
          cases hc : (dsTop st.stack).isTypeset
          · rfl
          · exfalso
            have := (shape_top_ts hsh).1 hc
            omega
        have hbkF : (dsTop st.stack).isBlock = false := by
          cases hc : (dsTop st.stack).isBlock
          · rfl
          · exfalso
            have := (shape_top_blk hsh).1 hc
            omega
        simp only [htsF, hbkF, Bool.false_eq_true, if_false] at hok
        rw [dropLast_append_eq_set _ _ (by intro hnil; rw [hnil] at hlen3; simp at hlen3)]
          at hok
        have hshape2 : stackShapeOK (st.stack.set (st.stack.length - 1)
            (.strv (some s0))) := by
          apply shape_set hsh (by omega)
          · simp [StackVal.isTypeset]
            omega
          · simp [StackVal.isBlock]
            omega
          · simp [StackVal.isString]
            omega
        have hcl2 : ∀ i p, (st.stack.set (st.stack.length - 1)
            (.strv (some s0))).getD i .blank0 = .tsv p →
            p.pclass ≠ ParamClass.returnP ∧ p.pclass ≠ ParamClass.leaveP := by
          intro i p hp
          rcases getD_set_cases hp with ⟨_, _, hv⟩ | hp2
          · cases hv
          · exact inv.classes i p hp2
        have hret2 : ∀ idx, st.defReturnIdx = some idx →
            3 ≤ idx ∧ idx % 3 = 0 ∧
              idx < (st.stack.set (st.stack.length - 1) (.strv (some s0))).length ∧
            ∃ p, (st.stack.set (st.stack.length - 1) (.strv (some s0))).getD idx
                .blank0 = .tsv p
              ∧ canonSpelling p.spelling = "return" ∧ p.pclass = ParamClass.localP := by
          intro idx hidx
          obtain ⟨h3, h03, hlt, q, hq, hcanon, hclass⟩ := inv.retIdx idx hidx
          refine ⟨h3, h03, by simp; omega, q, ?_, hcanon, hclass⟩
          rw [getD_set_ne (by omega)]
          exact hq
        split at hok <;>
          · injection hok with h
            subst h
            exact ⟨⟨inv.fret, inv.ffake, inv.fleave, hshape2, hcl2, hret2,
              inv.leaveIdx⟩, rfl, rfl⟩

theorem inv_tagLocal {st st' : BuildState} (inv : BuilderInv st)
    (hok : processItem st .tagLocal = Except.ok st') :
    BuilderInv st' ∧ st'.defReturnIdx = st.defReturnIdx ∧ st'.flags = st.flags := by
  simp only [processItem] at hok
  split at hok
  · injection hok with h
    subst h
    exact ⟨⟨inv.fret, inv.ffake, inv.fleave, inv.shape, inv.classes, inv.retIdx,
      inv.leaveIdx⟩, rfl, rfl⟩
  · cases hok

theorem inv_tagWith {st st' : BuildState} (inv : BuilderInv st)
    (hok : processItem st .tagWith = Except.ok st') :
    BuilderInv st' ∧ st'.defReturnIdx = st.defReturnIdx ∧ st'.flags = st.flags := by
  simp only [processItem] at hok
  split at hok
  · injection hok with h
    subst h
    exact ⟨⟨inv.fret, inv.ffake, inv.fleave, inv.shape, inv.classes, inv.retIdx,
      inv.leaveIdx⟩, rfl, rfl⟩
  · cases hok

theorem isTypeset_tsv {v : StackVal} (h : v.isTypeset = true) : ∃ p, v = .tsv p := by
  cases v with
  | tsv p => exact ⟨p, rfl⟩
  | blank0 => cases h
  | blk b => cases h
  | strv t => cases h

theorem isBlock_blk {v : StackVal} (h : v.isBlock = true) : ∃ b, v = .blk b := by
  cases v with
  | blk b => exact ⟨b, rfl⟩
  | blank0 => cases h
  | tsv p => cases h
  | strv t => cases h

theorem getD_tsv_flesh {s : List StackVal} (hs : stackShapeOK s) {i : Nat}
    {p : ParamTypeset} (h : (fleshOutRhythm s).getD i .blank0 = .tsv p) :
    s.getD i .blank0 = .tsv p := by
  by_cases h1 : s.length % 3 = 1
  · rw [flesh_eq_of_mod1 hs h1] at h
    rcases getD_append_tsv h with h2 | ⟨_, hv⟩
    · rcases getD_append_tsv h2 with h3 | ⟨_, hv⟩
      · exact h3
      · cases hv
    · cases hv
  · by_cases h2 : s.length % 3 = 2
    · rw [flesh_eq_of_mod2 hs h2] at h
      rcases getD_append_tsv h with h3 | ⟨_, hv⟩
      · exact h3
      · cases hv
    · rw [flesh_eq_of_mod0 hs (by omega)] at h
      exact h

theorem inv_block {st st' : BuildState} {bits : Nat} (inv : BuilderInv st)
    (hok : processItem st (.block bits) = Except.ok st') :
    BuilderInv st' ∧ st'.defReturnIdx = st.defReturnIdx ∧ st'.flags = st.flags := by
  have hsh := inv.shape
  have hlen3 := hsh.1
  simp only [processItem] at hok
  split at hok
  · cases hok
  split at hok
  · cases hok
  split at hok
  · -- DS_TOP is the parameter typeset: push the block, retype the typeset
    rename_i hbkF hmode hts
    have h1 : st.stack.length % 3 = 1 := (shape_top_ts hsh).1 hts
    have e1 : dsTopMinus (st.stack ++ [StackVal.blk (some bits)]) 1
        = st.stack.getD (st.stack.length - 1) .blank0 := by
      unfold dsTopMinus
      rw [List.length_append, List.length_singleton,
        List.getD_append _ _ _ _ (by omega)]
      congr 1
    obtain ⟨p, hp⟩ := isTypeset_tsv hts
    unfold dsTop at hp
    rw [e1, hp] at hok
    simp only [] at hok
    split at hok
    · cases hok
    injection hok with h
    subst h
    have hset : (st.stack ++ [StackVal.blk (some bits)]).length - 2
        = st.stack.length - 1 := by
      simp
    refine ⟨⟨inv.fret, inv.ffake, inv.fleave, ?_, ?_, ?_, inv.leaveIdx⟩, rfl, rfl⟩
    · rw [hset]
      apply shape_set (shape_push_blk hsh h1) (by simp; omega)
      · simp [StackVal.isTypeset]
        omega
      · simp [StackVal.isBlock]
        omega
      · simp [StackVal.isString]
        omega
    · intro i q hq
      rw [hset] at hq
      rcases getD_set_cases hq with ⟨_, _, hv⟩ | hq2
      · injection hv with hv
        rw [← hv]
        exact inv.classes _ p hp
      · rcases getD_append_tsv hq2 with hq3 | ⟨_, hv⟩
        · exact inv.classes i q hq3
        · cases hv
    · intro idx hidx
      obtain ⟨h3, h03, hlt, q, hq, hcanon, hclass⟩ := inv.retIdx idx hidx
      rw [hset]
      refine ⟨h3, h03, by simp; omega, ?_⟩
      by_cases hixt : idx = st.stack.length - 1
      · subst hixt
        rw [getD_set_self (by simp; omega)]
        rw [hq] at hp
        injection hp with hp
        exact ⟨{ p with bits := bits }, rfl, by rw [← hp]; exact hcanon,
          by rw [← hp]; exact hclass⟩
      · rw [getD_set_ne (by omega)]
        rw [List.getD_append _ _ _ _ hlt]
        exact ⟨q, hq, hcanon, hclass⟩
  · -- DS_TOP is a note string: the typeset to retype sits two cells down
    rename_i hbkF hmode htsF
    split at hok
    · cases hok
    rename_i hblank
    have h0 : st.stack.length % 3 = 0 := by
      have hts0 : (dsTop st.stack).isTypeset = false := by
        cases hc : (dsTop st.stack).isTypeset
        · rfl
        · exact absurd hc htsF
      have hbk0 : (dsTop st.stack).isBlock = false := by
        cases hc : (dsTop st.stack).isBlock
        · rfl
        · exact absurd hc hbkF
      by_cases hm1 : st.stack.length % 3 = 1
      · rw [(shape_top_ts hsh).2 hm1] at hts0
        cases hts0
      · by_cases hm2 : st.stack.length % 3 = 2
        · rw [(shape_top_blk hsh).2 hm2] at hbk0
          cases hbk0
        · omega
    have hlen6 : 6 ≤ st.stack.length := by
      by_contra hc
      have hlen33 : st.stack.length = 3 := by omega
      apply hblank
      unfold dsTopMinus
      rw [hlen33]
      exact shape_getD_zero hsh
    have e2 : dsTopMinus st.stack 2 = st.stack.getD (st.stack.length - 3) .blank0 := by
      unfold dsTopMinus
      congr 1
    have e3 : dsTopMinus st.stack 1 = st.stack.getD (st.stack.length - 2) .blank0 := by
      unfold dsTopMinus
      congr 1
    have hts2 : (st.stack.getD (st.stack.length - 3) .blank0).isTypeset = true := by
      exact ((hsh.2 (st.stack.length - 3) (by omega)).1).2 ⟨by omega, by omega⟩
    obtain ⟨p, hp⟩ := isTypeset_tsv hts2
    have hbk2 : (st.stack.getD (st.stack.length - 2) .blank0).isBlock = true := by
      exact ((hsh.2 (st.stack.length - 2) (by omega)).2.1).2 (by omega)
    obtain ⟨b, hb⟩ := isBlock_blk hbk2
    rw [e2, e3, hp, hb] at hok
    cases b with
    | some bv =>
        simp only [] at hok
        cases hok
    | none =>
        simp only [] at hok
        split at hok
        · cases hok
        injection hok with h
        subst h
        have hlenset : (st.stack.set (st.stack.length - 2)
            (StackVal.blk (some bits))).length = st.stack.length := by simp
        refine ⟨⟨inv.fret, inv.ffake, inv.fleave, ?_, ?_, ?_, inv.leaveIdx⟩, rfl, rfl⟩
        · apply shape_set _ (by simp; omega)
          · simp [StackVal.isTypeset]
            omega
          · simp [StackVal.isBlock]
            omega
          · simp [StackVal.isString]
            omega
          apply shape_set hsh (by omega)
          · simp [StackVal.isTypeset]
            omega
          · simp [StackVal.isBlock]
            omega
          · simp [StackVal.isString]
            omega
        · intro i q hq
          rcases getD_set_cases hq with ⟨_, _, hv⟩ | hq2
          · injection hv with hv
            rw [← hv]
            exact inv.classes _ p hp
          · rcases getD_set_cases hq2 with ⟨_, _, hv⟩ | hq3
            · cases hv
            · exact inv.classes i q hq3
        · intro idx hidx
          obtain ⟨h3, h03, hlt, q, hq, hcanon, hclass⟩ := inv.retIdx idx hidx
          refine ⟨h3, h03, by simp; omega, ?_⟩
          by_cases hixt : idx = st.stack.length - 3
          · subst hixt
            rw [getD_set_self (by simp; omega)]
            rw [hq] at hp
            injection hp with hp
            exact ⟨{ p with bits := bits }, rfl, by rw [← hp]; exact hcanon,
              by rw [← hp]; exact hclass⟩
          · rw [getD_set_ne (by omega), getD_set_ne (by omega)]
            exact ⟨q, hq, hcanon, hclass⟩

theorem wordParamClass_ne (wk : WordKind) (mode : SpecMode) :
    wordParamClass wk mode ≠ ParamClass.returnP
    ∧ wordParamClass wk mode ≠ ParamClass.leaveP := by
  cases wk with
  | wkWord =>
      constructor <;> by_cases h : mode = SpecMode.localMode <;>
        simp [wordParamClass, h]
  | wkGetWord => exact ⟨by simp [wordParamClass], by simp [wordParamClass]⟩
  | wkLitWord => exact ⟨by simp [wordParamClass], by simp [wordParamClass]⟩
  | wkRefinement => exact ⟨by simp [wordParamClass], by simp [wordParamClass]⟩
  | wkSetWord => exact ⟨by simp [wordParamClass], by simp [wordParamClass]⟩
  | wkIssue => exact ⟨by simp [wordParamClass], by simp [wordParamClass]⟩

theorem bookkeeping_eq_of_ret {st : BuildState} {wk : WordKind} {canon : String}
    {L : Nat} (hleave : st.flags.mkfLeave = false) (hcanon : canon = "return")
    (hwk : wk = WordKind.wkSetWord) :
    returnLeaveBookkeeping st wk canon L = (some L, st.defLeaveIdx, st.flags) := by
  unfold returnLeaveBookkeeping
  rw [if_pos ⟨hcanon, by simp [hleave]⟩, if_pos hwk]

theorem bookkeeping_eq_other {st : BuildState} {wk : WordKind} {canon : String}
    {L : Nat} (hret : st.flags.mkfReturn = true) (hcanon : canon ≠ "return") :
    returnLeaveBookkeeping st wk canon L
      = (st.defReturnIdx, st.defLeaveIdx, st.flags) := by
  unfold returnLeaveBookkeeping
  rw [if_neg (fun h => hcanon h.1)]
  rw [if_neg (fun h => h.2 (Or.inl hret))]

theorem processWordCore_eq_with (st : BuildState) (wk : WordKind) (sp : String)
    (mode : SpecMode) (hW : mode = SpecMode.withMode ∧ wk ≠ WordKind.wkSetWord) :
    processWordCore st wk sp mode
      = { st with
          stack := fleshOutRhythm st.stack
          , mode := mode
          , defReturnIdx := (returnLeaveBookkeeping st wk (canonSpelling sp)
              (fleshOutRhythm st.stack).length).1
          , defLeaveIdx := (returnLeaveBookkeeping st wk (canonSpelling sp)
              (fleshOutRhythm st.stack).length).2.1
          , flags := (returnLeaveBookkeeping st wk (canonSpelling sp)
              (fleshOutRhythm st.stack).length).2.2 } := by
  simp only [processWordCore]
  rw [if_pos hW, List.dropLast_concat]

theorem processWordCore_eq_main (st : BuildState) (wk : WordKind) (sp : String)
    (mode : SpecMode) (hW : ¬ (mode = SpecMode.withMode ∧ wk ≠ WordKind.wkSetWord)) :
    processWordCore st wk sp mode
      = { st with
          stack := fleshOutRhythm st.stack
            ++ [.tsv ⟨sp, wordParamClass wk mode, defaultParamBits st.flags.mkfAnyValue⟩]
          , mode := mode
          , refinementSeen := (if wk = WordKind.wkRefinement then true
              else st.refinementSeen)
          , defReturnIdx := (returnLeaveBookkeeping st wk (canonSpelling sp)
              (fleshOutRhythm st.stack).length).1
          , defLeaveIdx := (returnLeaveBookkeeping st wk (canonSpelling sp)
              (fleshOutRhythm st.stack).length).2.1
          , flags := (returnLeaveBookkeeping st wk (canonSpelling sp)
              (fleshOutRhythm st.stack).length).2.2 } := by
  simp only [processWordCore]
  rw [if_neg hW, List.dropLast_concat]

theorem inv_word {st st' : BuildState} {wk : WordKind} {sp : String} (inv : BuilderInv st)
    (hcancel : ¬ (wk ≠ WordKind.wkSetWord ∧ canonSpelling sp = "return"))
    (hok : processWord st wk sp = Except.ok st') :
    BuilderInv st'
    ∧ (st.defReturnIdx = none →
        ¬ (wk = WordKind.wkSetWord ∧ canonSpelling sp = "return") →
        st'.defReturnIdx = none)
    ∧ st'.flags = st.flags := by
  unfold processWord at hok
  cases hmode : adjustMode st.mode wk with
  | error e =>
      rw [hmode] at hok
      cases hok
  | ok mode =>
      rw [hmode] at hok
      injection hok with h
      subst h
      obtain ⟨hfsh, hfm0, hfle, hfgetD, _⟩ := flesh_spec inv.shape
      by_cases hcr : canonSpelling sp = "return"
      · -- an explicit return: set-word is being captured
        have hwk : wk = WordKind.wkSetWord := by
          by_contra hlw
          exact hcancel ⟨hlw, hcr⟩
        subst hwk
        have hW : ¬ (mode = SpecMode.withMode ∧ WordKind.wkSetWord ≠ WordKind.wkSetWord) :=
          fun h => h.2 rfl
        rw [processWordCore_eq_main _ _ _ _ hW,
          bookkeeping_eq_of_ret inv.fleave hcr rfl]
        refine ⟨⟨inv.fret, inv.ffake, inv.fleave, ?_, ?_, ?_, inv.leaveIdx⟩,
          ?_, rfl⟩
        · exact shape_push_tsv hfsh hfm0
        · intro i p hp
          rcases getD_append_tsv hp with hp2 | ⟨_, hv⟩
          · exact inv.classes i p (getD_tsv_flesh inv.shape hp2)
          · injection hv with hv
            rw [← hv]
            exact wordParamClass_ne WordKind.wkSetWord mode
        · intro idx hidx
          injection hidx with hidx
          subst hidx
          refine ⟨le_trans inv.shape.1 hfle, hfm0, by simp, ?_⟩
          rw [List.getD_append_right _ _ _ _ (le_refl _), Nat.sub_self]
          exact ⟨_, rfl, hcr, rfl⟩
        · intro _ hn
          exact absurd ⟨rfl, hcr⟩ hn
      · -- any other word: the bookkeeping leaves the captures alone
        have hbkk := @bookkeeping_eq_other st wk (canonSpelling sp) (fleshOutRhythm st.stack).length
          inv.fret hcr
        by_cases hW : mode = SpecMode.withMode ∧ wk ≠ WordKind.wkSetWord
        · rw [processWordCore_eq_with _ _ _ _ hW, hbkk]
          refine ⟨⟨inv.fret, inv.ffake, inv.fleave, hfsh, ?_, ?_, inv.leaveIdx⟩,
            fun h _ => h, rfl⟩
          · intro i p hp
            exact inv.classes i p (getD_tsv_flesh inv.shape hp)
          · intro idx hidx
            obtain ⟨h3, h03, hlt, q, hq, hcanon, hclass⟩ := inv.retIdx idx hidx
            refine ⟨h3, h03, ?_, q, ?_, hcanon, hclass⟩
            · show idx < (fleshOutRhythm st.stack).length
              omega
            · rw [hfgetD idx hlt]
              exact hq
        · rw [processWordCore_eq_main _ _ _ _ hW, hbkk]
          refine ⟨⟨inv.fret, inv.ffake, inv.fleave, shape_push_tsv hfsh hfm0,
            ?_, ?_, inv.leaveIdx⟩, fun h _ => h, rfl⟩
          · intro i p hp
            rcases getD_append_tsv hp with hp2 | ⟨_, hv⟩
            · exact inv.classes i p (getD_tsv_flesh inv.shape hp2)
            · injection hv with hv
              rw [← hv]
              exact wordParamClass_ne wk mode
          · intro idx hidx
            obtain ⟨h3, h03, hlt, q, hq, hcanon, hclass⟩ := inv.retIdx idx hidx
            refine ⟨h3, h03, ?_, q, ?_, hcanon, hclass⟩
            · show idx < (fleshOutRhythm st.stack
                ++ [StackVal.tsv ⟨sp, wordParamClass wk mode,
                  defaultParamBits st.flags.mkfAnyValue⟩]).length
              simp
              omega
            · rw [List.getD_append _ _ _ _ (by omega)]
              rw [hfgetD idx hlt]
              exact hq

theorem processItem_inv {st st' : BuildState} {item : SpecItem}
    (inv : BuilderInv st) (hcancel : isCancelItem item = false)
    (hok : processItem st item = Except.ok st') :
    BuilderInv st'
    ∧ (st.defReturnIdx = none → isReturnSetWord item = false →
        st'.defReturnIdx = none) := by
  cases item with
  | str s0 =>
      obtain ⟨i1, i2, _⟩ := inv_str inv hok
      exact ⟨i1, fun h _ => by rw [i2]; exact h⟩
  | tagLocal =>
      obtain ⟨i1, i2, _⟩ := inv_tagLocal inv hok
      exact ⟨i1, fun h _ => by rw [i2]; exact h⟩
  | tagWith =>
      obtain ⟨i1, i2, _⟩ := inv_tagWith inv hok
      exact ⟨i1, fun h _ => by rw [i2]; exact h⟩
  | tagOther =>
      simp only [processItem] at hok
      cases hok
  | block bits =>
      obtain ⟨i1, i2, _⟩ := inv_block inv hok
      exact ⟨i1, fun h _ => by rw [i2]; exact h⟩
  | word sp =>
      simp only [processItem] at hok
      simp only [isCancelItem, SpecItem.asWord] at hcancel
      obtain ⟨i1, i2, _⟩ := inv_word inv
        (by
          rintro ⟨_, hcr⟩
          simp [hcr] at hcancel) hok
      exact ⟨i1, fun h _ => i2 h (by rintro ⟨hco, _⟩; cases hco)⟩
  | getWord sp =>
      simp only [processItem] at hok
      simp only [isCancelItem, SpecItem.asWord] at hcancel
      obtain ⟨i1, i2, _⟩ := inv_word inv
        (by
          rintro ⟨_, hcr⟩
          simp [hcr] at hcancel) hok
      exact ⟨i1, fun h _ => i2 h (by rintro ⟨hco, _⟩; cases hco)⟩
  | litWord sp =>
      simp only [processItem] at hok
      simp only [isCancelItem, SpecItem.asWord] at hcancel
      obtain ⟨i1, i2, _⟩ := inv_word inv
        (by
          rintro ⟨_, hcr⟩
          simp [hcr] at hcancel) hok
      exact ⟨i1, fun h _ => i2 h (by rintro ⟨hco, _⟩; cases hco)⟩
  | refinement sp =>
      simp only [processItem] at hok
      simp only [isCancelItem, SpecItem.asWord] at hcancel
      obtain ⟨i1, i2, _⟩ := inv_word inv
        (by
          rintro ⟨_, hcr⟩
          simp [hcr] at hcancel) hok
      exact ⟨i1, fun h _ => i2 h (by rintro ⟨hco, _⟩; cases hco)⟩
  | issue sp =>
      simp only [processItem] at hok
      simp only [isCancelItem, SpecItem.asWord] at hcancel
      obtain ⟨i1, i2, _⟩ := inv_word inv
        (by
          rintro ⟨_, hcr⟩
          simp [hcr] at hcancel) hok
      exact ⟨i1, fun h _ => i2 h (by rintro ⟨hco, _⟩; cases hco)⟩
  | setWord sp =>
      simp only [processItem] at hok
      obtain ⟨i1, i2, _⟩ := inv_word inv (by rintro ⟨hne, _⟩; exact hne rfl) hok
      refine ⟨i1, fun h hret => i2 h ?_⟩
      rintro ⟨_, hcr⟩
      simp only [isReturnSetWord] at hret
      rw [hcr] at hret
      cases hret

theorem loop_inv :
    ∀ (spec : List SpecItem) (st st' : BuildState), BuilderInv st →
      specCancelsReturn spec = false →
      List.foldlM processItem st spec = Except.ok st' →
      BuilderInv st'
      ∧ (st.defReturnIdx = none → hasReturnSetWord spec = false →
          st'.defReturnIdx = none) := by
  intro spec
  induction spec with
  | nil =>
      intro st st' inv _ hok
      injection hok with h
      subst h
      exact ⟨inv, fun h _ => h⟩
  | cons item rest ih =>
      intro st st' inv hcancel hok
      rw [List.foldlM_cons] at hok
      cases hmid : processItem st item with
      | error e =>
          rw [hmid] at hok
          cases hok
      | ok stm =>
          rw [hmid] at hok
          have hok2 : List.foldlM processItem stm rest = Except.ok st' := hok
          have hcans : isCancelItem item = false ∧ rest.any isCancelItem = false := by
            have h1 := hcancel
            unfold specCancelsReturn at h1
            rw [List.any_cons, Bool.or_eq_false_iff] at h1
            exact h1
          obtain ⟨invm, hpres⟩ := processItem_inv inv hcans.1 hmid
          obtain ⟨inv', hpres'⟩ := ih stm st' invm hcans.2 hok2
          refine ⟨inv', ?_⟩
          intro h0 hret
          unfold hasReturnSetWord at hret
          rw [List.any_cons, Bool.or_eq_false_iff] at hret
          exact hpres' (hpres h0 hret.1) hret.2

theorem C6_chainer_order_witness :
    (Chainer_Dispatcher [fun n => n + 1, fun n => n * 2, fun n => n + 3] ([] : List (Nat → Nat))).1
        = [fun n => n + 1, fun n => n * 2, fun n => n + 3].drop 1 ++ []
    ∧ (Chainer_Dispatcher [fun n => n + 1, fun n => n * 2, fun n => n + 3] ([] : List (Nat → Nat))).2.1
        = [fun n => n + 1, fun n => n * 2, fun n => n + 3].getD 0 id
    ∧ (Chainer_Dispatcher [fun n => n + 1, fun n => n * 2, fun n => n + 3] ([] : List (Nat → Nat))).2.2
        = RebSignal.rRedoUnchecked
    ∧ applyPostStack ([fun n => n + 1, fun n => n * 2, fun n => n + 3].drop 1)
        (([fun n => n + 1, fun n => n * 2, fun n => n + 3].getD 0 id) 5)
        = [fun n => n + 1, fun n => n * 2, fun n => n + 3].foldl (fun acc g => g acc) 5
    ∧ (∀ f g h : Nat → Nat, [fun n => n + 1, fun n => n * 2, fun n => n + 3] = [f, g, h] →
        applyPostStack ([fun n => n + 1, fun n => n * 2, fun n => n + 3].drop 1)
          (([fun n => n + 1, fun n => n * 2, fun n => n + 3].getD 0 id) 5) = h (g (f 5))) :=
  C6_chainer_order [fun n => n + 1, fun n => n * 2, fun n => n + 3] [] (by simp) 5

theorem filterMap_keepAll {slots : List (Nat × ParamTypeset)} {d : Option Nat}
    (h : ∀ ip ∈ slots, ¬ d = some ip.1) :
    (slots.filterMap fun ip => if d = some ip.1 then none else some ip.2)
      = slots.map Prod.snd := by
  induction slots with
  | nil => rfl
  | cons a t ih =>
      rw [List.filterMap_cons, if_neg (h a (by simp)), List.map_cons,
        ih fun ip hm => h ip (by simp [hm])]

theorem find_eq_of_unique {l : List (Nat × ParamTypeset)} {j : Nat}
    {a : Nat × ParamTypeset} (hmem : a ∈ l) (ha : a.1 = j)
    (huniq : ∀ x ∈ l, x.1 = j → x = a) :
    l.find? (fun ip => ip.1 = j) = some a := by
  induction l with
  | nil => cases hmem
  | cons b t ih =>
      by_cases hb : b.1 = j
      · have hba : b = a := huniq b (by simp) hb
        subst hba
        exact List.find?_cons_of_pos _ (by simp [hb])
      · rw [List.find?_cons_of_neg _ (by simp [hb])]
        have hat : a ∈ t := by
          rcases List.mem_cons.1 hmem with hab | hat
          · exact absurd (hab ▸ ha) hb
          · exact hat
        exact ih hat fun x hx hxj => huniq x (by simp [hx]) hxj

theorem init_inv {flags : MKFlags} (hret : flags.mkfReturn = true)
    (hfake : flags.mkfFakeReturn = false) (hleave : flags.mkfLeave = false) :
    BuilderInv (initBuildState flags) := by
  refine ⟨hret, hfake, hleave, ?_, ?_, ?_, rfl⟩
  · refine ⟨by simp [initBuildState], ?_⟩
    intro i hi
    simp only [initBuildState, List.length_cons, List.length_nil] at hi
    have hstack : (initBuildState flags).stack = [.blank0, .blk none, .strv none] := rfl
    rw [hstack]
    match i, hi with
    | 0, _ => exact ⟨by decide, by decide, by decide⟩
    | 1, _ => exact ⟨by decide, by decide, by decide⟩
    | 2, _ => exact ⟨by decide, by decide, by decide⟩
  · intro i p hp
    match i with
    | 0 => cases hp
    | 1 => cases hp
    | 2 => cases hp
    | (n + 3) =>
        rw [List.getD_eq_default _ _ (by simp [initBuildState])] at hp
        cases hp
  · intro idx h
    cases h

theorem finalizeReturnLeave_spec {st : BuildState} (inv : BuilderInv st) :
    ∃ idx pl,
      (finalizeReturnLeave st).defReturnIdx = some idx
      ∧ (finalizeReturnLeave st).flags = st.flags
      ∧ pl.pclass = ParamClass.returnP
      ∧ canonSpelling pl.spelling = "return"
      ∧ (st.defReturnIdx = none → pl.spelling = "return")
      ∧ (idx, pl) ∈ typesetSlots (finalizeReturnLeave st).stack
      ∧ (∀ i q, (i, q) ∈ typesetSlots (finalizeReturnLeave st).stack → i = idx → q = pl)
      ∧ (∀ i q, (i, q) ∈ typesetSlots (finalizeReturnLeave st).stack → i ≠ idx →
          q.pclass ≠ ParamClass.returnP) := by
  obtain ⟨hsh1, hm1, hle1, hpres1, hts1⟩ := flesh_spec inv.shape
  rcases hdr : st.defReturnIdx with _ | idx
  · -- synthesized at the tail
    have hfrl : finalizeReturnLeave st =
        { st with
          stack := fleshOutRhythm st.stack
            ++ [.tsv ⟨"return", .returnP, synthesizedReturnBits
                  { st with stack := fleshOutRhythm st.stack }⟩, .blk none, .strv none]
          , defReturnIdx := some (fleshOutRhythm st.stack).length } := by
      simp only [finalizeReturnLeave, inv.fleave, Bool.false_eq_true, if_false,
        inv.fret, if_true, hdr]
    set R : ParamTypeset :=
      ⟨"return", .returnP, synthesizedReturnBits { st with stack := fleshOutRhythm st.stack }⟩
      with hR
    set L : Nat := (fleshOutRhythm st.stack).length with hL
    have hstk : (finalizeReturnLeave st).stack
        = ((fleshOutRhythm st.stack ++ [.tsv R]) ++ [.blk none]) ++ [.strv none] := by
      rw [hfrl]
      simp
    have hslots : typesetSlots (finalizeReturnLeave st).stack
        = typesetSlots st.stack ++ [(L, R)] := by
      rw [hstk, typesetSlots_append_nonTs (by rfl), typesetSlots_append_nonTs (by rfl),
        typesetSlots_concat_tsv (by have := inv.shape.1; omega) hm1, hts1]
    refine ⟨L, R, ?_, by rw [hfrl], rfl,
      by show canonSpelling "return" = "return"; decide, fun _ => rfl, ?_, ?_, ?_⟩
    · rw [hfrl]
    · rw [hslots]
      exact List.mem_append_right _ (by simp)
    · intro i q hmem hi
      rw [hslots] at hmem
      rcases List.mem_append.1 hmem with hm | hm
      · obtain ⟨_, _, hlt, _⟩ := mem_typesetSlots.1 hm
        omega
      · simp at hm
        exact hm.2
    · intro i q hmem hi
      rw [hslots] at hmem
      rcases List.mem_append.1 hmem with hm | hm
      · obtain ⟨_, _, _, hd⟩ := mem_typesetSlots.1 hm
        exact (inv.classes i q hd).1
      · simp at hm
        exact absurd hm.1 hi
  · -- reclassified in place
    obtain ⟨h3, hmod, hlt, p, hgd, hcanon, hclass⟩ := inv.retIdx idx hdr
    have hgd1 : (fleshOutRhythm st.stack).getD idx .blank0 = .tsv p := by
      rw [hpres1 idx hlt]
      exact hgd
    have hfrl : finalizeReturnLeave st =
        { st with
          stack := (fleshOutRhythm st.stack).set idx
            (.tsv { p with pclass := .returnP }) } := by
      simp only [finalizeReturnLeave, inv.fleave, Bool.false_eq_true, if_false,
        inv.fret, if_true, hdr, hgd1]
    set pl : ParamTypeset := { p with pclass := .returnP } with hpl
    have hltf : idx < (fleshOutRhythm st.stack).length := by omega
    refine ⟨idx, pl, ?_, by rw [hfrl], rfl, hcanon, ?_, ?_, ?_, ?_⟩
    · rw [hfrl]
      exact hdr
    · intro h0
      cases h0
    · rw [hfrl]
      refine mem_typesetSlots.2 ⟨h3, hmod, by simp [hltf], getD_set_self hltf⟩
    · intro i q hmem hi
      subst hi
      rw [hfrl] at hmem
      obtain ⟨_, _, _, hd⟩ := mem_typesetSlots.1 hmem
      rw [getD_set_self hltf] at hd
      injection hd with hd
      exact hd.symm
    · intro i q hmem hi
      rw [hfrl] at hmem
      obtain ⟨hi3, him, hilt, hd⟩ := mem_typesetSlots.1 hmem
      rw [getD_set_ne (fun hc => hi hc.symm)] at hd
      have hilt' : i < (fleshOutRhythm st.stack).length := by
        simpa using hilt
      have hmem1 : (i, q) ∈ typesetSlots (fleshOutRhythm st.stack) :=
        mem_typesetSlots.2 ⟨hi3, him, hilt', hd⟩
      rw [hts1] at hmem1
      obtain ⟨_, _, _, hd0⟩ := mem_typesetSlots.1 hmem1
      exact (inv.classes i q hd0).1

theorem finalize_ok {st : BuildState} {ps : List ParamTypeset} {bnd : List String}
    (inv : BuilderInv st) (h : finalizeParamlist st = (Except.ok ps, bnd)) :
    ∃ pl body, ps = body ++ [pl]
      ∧ pl.pclass = ParamClass.returnP
      ∧ canonSpelling pl.spelling = "return"
      ∧ (st.defReturnIdx = none → pl.spelling = "return")
      ∧ ∀ q ∈ body, q.pclass ≠ ParamClass.returnP := by
  obtain ⟨idx, pl, hdri, hflags, hpc, hpcan, hpsp, hmem, huniq, hothers⟩ :=
    finalizeReturnLeave_spec inv
  set stf := finalizeReturnLeave st with hstf
  set slots := typesetSlots stf.stack with hslotsdef
  have hfp := h
  rw [show finalizeParamlist st
      = (match (binderAddLoop slots [] none).2 with
         | some sp => (Except.error (BuildErr.dupVars sp),
             binderRemoveLoop slots (binderAddLoop slots [] none).1)
         | none => (Except.ok (copyParams slots stf.defReturnIdx stf.flags.mkfFakeReturn),
             binderRemoveLoop slots (binderAddLoop slots [] none).1)) from rfl] at hfp
  rcases hd0 : (binderAddLoop slots [] none).2 with _ | sp
  · rw [hd0] at hfp
    have hfp2 : (Except.ok (copyParams slots stf.defReturnIdx stf.flags.mkfFakeReturn)
        , binderRemoveLoop slots (binderAddLoop slots [] none).1)
        = ((Except.ok ps : Except BuildErr (List ParamTypeset)), bnd) := hfp
    rw [Prod.mk.injEq] at hfp2
    obtain ⟨hps, _⟩ := hfp2
    injection hps with hps
    have hff : stf.flags.mkfFakeReturn = false := by rw [hflags]; exact inv.ffake
    rw [hdri, hff] at hps
    have huniq' : ∀ x ∈ slots, x.1 = idx → x = (idx, pl) := by
      rintro ⟨a, b⟩ hx h1
      have hb := huniq a b hx h1
      have h1' : a = idx := h1
      rw [h1', hb]
    have hfind : slots.find? (fun ip => ip.1 = idx) = some (idx, pl) :=
      find_eq_of_unique hmem rfl huniq'
    have hcp : copyParams slots (some idx) false
        = (slots.filterMap fun ip =>
            if (some idx : Option Nat) = some ip.1 then none else some ip.2) ++ [pl] := by
      simp only [copyParams, Bool.false_eq_true, if_false, hfind]
    rw [hcp] at hps
    refine ⟨pl, _, hps.symm, hpc, hpcan, hpsp, ?_⟩
    intro q hq
    rw [List.mem_filterMap] at hq
    obtain ⟨⟨a, b⟩, hab, hf⟩ := hq
    by_cases he : (some idx : Option Nat) = some (a, b).1
    · rw [if_pos he] at hf
      cases hf
    · rw [if_neg he] at hf
      injection hf with hf
      have hne : a ≠ idx := fun hc => he (by rw [hc])
      rw [← hf]
      exact hothers a b hab hne
  · rw [hd0] at hfp
    have hfp2 : ((Except.error (BuildErr.dupVars sp) : Except BuildErr (List ParamTypeset))
        , binderRemoveLoop slots (binderAddLoop slots [] none).1)
        = ((Except.ok ps : Except BuildErr (List ParamTypeset)), bnd) := hfp
    rw [Prod.mk.injEq] at hfp2
    cases hfp2.1

/-- C4 (counterexample to the claim as stated): the claim promises that for
every spec block processed with the RETURN flag and no explicit `return:`
set-word a return parameter is synthesized and appended last.  But the
builder's bookkeeping cancels MKF_RETURN when the spec uses the plain word
`return` as an ordinary parameter name (c-function.c lines 417-433): the
spec `[return]` contains no `return:` set-word, builds successfully under
MKF_RETURN, yet the resulting paramlist contains no parameter of the
return class at all — nothing was synthesized. -/
theorem C4_counterexample :
    Make_Paramlist_Managed_May_Fail [SpecItem.word "return"]
        ⟨true, false, false, false, false⟩
      = (Except.ok [⟨"return", ParamClass.normal, defaultParamBits false⟩], [])
    ∧ hasReturnSetWord [SpecItem.word "return"] = false
    ∧ ∀ q ∈ [(⟨"return", ParamClass.normal, defaultParamBits false⟩ : ParamTypeset)],
        q.pclass ≠ ParamClass.returnP := by
  decide

/-- C4 (amended): if the builder runs with MKF_RETURN (and without
MKF_FAKE_RETURN / MKF_LEAVE) and the spec never cancels the flag by using
`return` as a plain parameter name, then every successful build ends with
a definitional return as its LAST parameter: the paramlist splits as
`body ++ [pl]` where `pl` carries the return parameter class and is
spelled `return` up to case; no other parameter carries the return class;
and when no explicit `return:` set-word occurred the last parameter is the
synthesized one, spelled exactly `return`.  (With an explicit `return:`
the slot was pushed as a pure local and is reclassified in place, keeping
its stack position, which the copy loop then appends last.) -/
theorem C4_return_placement {spec : List SpecItem} {flags : MKFlags}
    {ps : List ParamTypeset} {bnd : List String}
    (hret : flags.mkfReturn = true) (hfake : flags.mkfFakeReturn = false)
    (hleave : flags.mkfLeave = false)
    (hnc : specCancelsReturn spec = false)
    (h : Make_Paramlist_Managed_May_Fail spec flags = (Except.ok ps, bnd)) :
    ∃ pl body, ps = body ++ [pl]
      ∧ pl.pclass = ParamClass.returnP
      ∧ canonSpelling pl.spelling = "return"
      ∧ (hasReturnSetWord spec = false → pl.spelling = "return")
      ∧ ∀ q ∈ body, q.pclass ≠ ParamClass.returnP := by
  have hfold0 := h
  simp only [Make_Paramlist_Managed_May_Fail] at hfold0
  rcases hfold : List.foldlM processItem (initBuildState flags) spec with e | st
  · rw [hfold] at hfold0
    have h2 : ((Except.error e : Except BuildErr (List ParamTypeset)), ([] : List String))
        = (Except.ok ps, bnd) := hfold0
    rw [Prod.mk.injEq] at h2
    cases h2.1
  · rw [hfold] at hfold0
    have h' : finalizeParamlist st = (Except.ok ps, bnd) := hfold0
    obtain ⟨inv', hpres⟩ :=
      loop_inv spec (initBuildState flags) st (init_inv hret hfake hleave) hnc hfold
    obtain ⟨pl, body, hps, hpc, hcan, hsp, hbody⟩ := finalize_ok inv' h'
    exact ⟨pl, body, hps, hpc, hcan, fun hnr => hsp (hpres rfl hnr), hbody⟩

theorem C4_return_placement_witness :
    specCancelsReturn [SpecItem.word "x"] = false
    ∧ Make_Paramlist_Managed_May_Fail [SpecItem.word "x"] ⟨true, false, false, false, false⟩
        = (Except.ok [⟨"x", ParamClass.normal, defaultParamBits false⟩,
            ⟨"return", ParamClass.returnP, ALL_64⟩], [])
    ∧ ∃ pl body,
        ([⟨"x", ParamClass.normal, defaultParamBits false⟩,
          ⟨"return", ParamClass.returnP, ALL_64⟩] : List ParamTypeset) = body ++ [pl]
        ∧ pl.pclass = ParamClass.returnP
        ∧ canonSpelling pl.spelling = "return"
        ∧ (hasReturnSetWord [SpecItem.word "x"] = false → pl.spelling = "return")
        ∧ ∀ q ∈ body, q.pclass ≠ ParamClass.returnP :=
  ⟨by decide, by decide,
   @C4_return_placement [SpecItem.word "x"] ⟨true, false, false, false, false⟩
     [⟨"x", ParamClass.normal, defaultParamBits false⟩,
      ⟨"return", ParamClass.returnP, ALL_64⟩] []
     rfl rfl rfl (by decide) (by decide)⟩

theorem addLoop_count :
    ∀ (slots : List (Nat × ParamTypeset)) (b : List String) (d : Option String) (c : String),
      ((binderAddLoop slots b d).1).count c
        = b.count c + (if c ∈ slotCanons slots ∧ c ∉ b then 1 else 0) := by
  intro slots
  induction slots with
  | nil =>
      intro b d c
      simp [binderAddLoop, slotCanons]
  | cons a rest ih =>
      intro b d c
      obtain ⟨i, p⟩ := a
      have hsc : slotCanons ((i, p) :: rest) = canonSpelling p.spelling :: slotCanons rest := rfl
      simp only [binderAddLoop]
      by_cases hmem : canonSpelling p.spelling ∈ b
      · rw [if_pos hmem, ih]
        by_cases hc : c = canonSpelling p.spelling
        · rw [if_neg (fun h => h.2 (by rw [hc]; exact hmem)),
            if_neg (fun h => h.2 (by rw [hc]; exact hmem))]
        · rw [hsc]
          have hiff : (c ∈ canonSpelling p.spelling :: slotCanons rest ∧ c ∉ b)
              ↔ (c ∈ slotCanons rest ∧ c ∉ b) := by
            rw [List.mem_cons]
            constructor
            · rintro ⟨hm | hm, hnb⟩
              · exact absurd hm hc
              · exact ⟨hm, hnb⟩
            · rintro ⟨hm, hnb⟩
              exact ⟨Or.inr hm, hnb⟩
          rw [if_congr hiff rfl rfl]
      · rw [if_neg hmem, ih]
        rw [hsc]
        by_cases hc : c = canonSpelling p.spelling
        · subst hc
          rw [List.count_cons_self,
            if_neg (fun h => h.2 (List.mem_cons_self _ _)),
            if_pos ⟨List.mem_cons_self _ _, hmem⟩]
        · rw [List.count_cons_of_ne hc]
          have hiff2 : (c ∈ slotCanons rest ∧ c ∉ canonSpelling p.spelling :: b)
              ↔ (c ∈ canonSpelling p.spelling :: slotCanons rest ∧ c ∉ b) := by
            rw [List.mem_cons, List.mem_cons]
            constructor
            · rintro ⟨hm, hnb⟩
              exact ⟨Or.inr hm, fun hb => hnb (Or.inr hb)⟩
            · rintro ⟨hm | hm, hnb⟩
              · exact absurd hm hc
              · refine ⟨hm, ?_⟩
                rintro (h | h)
                · exact hc h
                · exact hnb h
          rw [if_congr hiff2 rfl rfl]

theorem removeLoop_count :
    ∀ (slots : List (Nat × ParamTypeset)) (B : List String) (c : String),
      (binderRemoveLoop slots B).count c = B.count c - (slotCanons slots).count c := by
  intro slots
  induction slots with
  | nil =>
      intro B c
      simp [binderRemoveLoop, slotCanons]
  | cons a rest ih =>
      intro B c
      obtain ⟨i, p⟩ := a
      have hsc : slotCanons ((i, p) :: rest) = canonSpelling p.spelling :: slotCanons rest := rfl
      simp only [binderRemoveLoop]
      rw [ih, hsc]
      by_cases hc : c = canonSpelling p.spelling
      · subst hc
        rw [List.count_erase_self, List.count_cons_self]
        omega
      · rw [List.count_erase_of_ne hc, List.count_cons_of_ne hc]

theorem binder_teardown (slots : List (Nat × ParamTypeset)) :
    binderRemoveLoop slots (binderAddLoop slots [] none).1 = [] := by
  have hall : ∀ c, (binderRemoveLoop slots (binderAddLoop slots [] none).1).count c = 0 := by
    intro c
    rw [removeLoop_count, addLoop_count]
    by_cases hin : c ∈ slotCanons slots
    · have hk : 0 < (slotCanons slots).count c := List.count_pos_iff.2 hin
      simp only [List.count_nil, hin, List.not_mem_nil, not_false_iff, and_self, if_true]
      omega
    · simp [hin]
  rw [List.eq_nil_iff_forall_not_mem]
  intro c hc
  have h0 := hall c
  rw [List.count_eq_zero] at h0
  exact h0 hc

theorem addLoop_dup_some :
    ∀ (slots : List (Nat × ParamTypeset)) (b : List String) (s : String),
      ∃ t, (binderAddLoop slots b (some s)).2 = some t := by
  intro slots
  induction slots with
  | nil =>
      intro b s
      exact ⟨s, rfl⟩
  | cons a rest ih =>
      intro b s
      obtain ⟨i, p⟩ := a
      simp only [binderAddLoop]
      by_cases hmem : canonSpelling p.spelling ∈ b
      · rw [if_pos hmem]
        exact ih b p.spelling
      · rw [if_neg hmem]
        exact ih _ s

theorem addLoop_dup_none_iff :
    ∀ (slots : List (Nat × ParamTypeset)) (b : List String),
      (binderAddLoop slots b none).2 = none
        ↔ ((slotCanons slots).Nodup ∧ ∀ c ∈ slotCanons slots, c ∉ b) := by
  intro slots
  induction slots with
  | nil =>
      intro b
      simp [binderAddLoop, slotCanons]
  | cons a rest ih =>
      intro b
      obtain ⟨i, p⟩ := a
      have hsc : slotCanons ((i, p) :: rest) = canonSpelling p.spelling :: slotCanons rest := rfl
      rw [hsc]
      simp only [binderAddLoop]
      by_cases hmem : canonSpelling p.spelling ∈ b
      · rw [if_pos hmem]
        constructor
        · intro h
          obtain ⟨t, ht⟩ := addLoop_dup_some rest b p.spelling
          rw [ht] at h
          cases h
        · rintro ⟨_, hall⟩
          exact absurd hmem (hall _ (List.mem_cons_self _ _))
      · rw [if_neg hmem, ih]
        constructor
        · rintro ⟨hnd, hall⟩
          have hcnotin : canonSpelling p.spelling ∉ slotCanons rest := by
            intro hc
            exact (hall _ hc) (List.mem_cons_self _ _)
          refine ⟨List.nodup_cons.2 ⟨hcnotin, hnd⟩, ?_⟩
          intro c hc
          rcases List.mem_cons.1 hc with h | h
          · rw [h]
            exact hmem
          · intro hb
            exact (hall c h) (List.mem_cons_of_mem _ hb)
        · rintro ⟨hnd, hall⟩
          rw [List.nodup_cons] at hnd
          refine ⟨hnd.2, ?_⟩
          intro c hc hcb
          rcases List.mem_cons.1 hcb with h | h
          · rw [h] at hc
            exact hnd.1 hc
          · exact (hall c (List.mem_cons_of_mem _ hc)) h

/-- C9: duplicate-parameter atomicity.  If the spec-walking loop succeeds
and the final data stack (after definitional return/leave synthesis)
carries two typeset slots with the same canonical spelling, then the
builder's result is the duplicate-variable error — and the transient
binder component of the result is empty: the teardown loop removed every
binder index the copy pass added before the error is raised (the helper
binder_teardown proves the same emptiness on the success path, since it
does not depend on whether a duplicate was found). -/
theorem C9_duplicate_atomicity {spec : List SpecItem} {flags : MKFlags} {st : BuildState}
    (hfold : List.foldlM processItem (initBuildState flags) spec = Except.ok st)
    (hdup : ¬ (slotCanons (typesetSlots (finalizeReturnLeave st).stack)).Nodup) :
    ∃ sp, Make_Paramlist_Managed_May_Fail spec flags
        = (Except.error (BuildErr.dupVars sp), []) := by
  set slots := typesetSlots (finalizeReturnLeave st).stack with hslots
  have hd : (binderAddLoop slots [] none).2 ≠ none := by
    intro hc
    obtain ⟨hnd, _⟩ := (addLoop_dup_none_iff slots []).1 hc
    exact hdup hnd
  rcases hd2 : (binderAddLoop slots [] none).2 with _ | sp
  · exact absurd hd2 hd
  · refine ⟨sp, ?_⟩
    have hfin : finalizeParamlist st
        = (Except.error (BuildErr.dupVars sp),
            binderRemoveLoop slots (binderAddLoop slots [] none).1) := by
      rw [show finalizeParamlist st = (match (binderAddLoop slots [] none).2 with
            | some sp => (Except.error (BuildErr.dupVars sp),
                binderRemoveLoop slots (binderAddLoop slots [] none).1)
            | none => (Except.ok (copyParams slots (finalizeReturnLeave st).defReturnIdx
                  (finalizeReturnLeave st).flags.mkfFakeReturn),
                binderRemoveLoop slots (binderAddLoop slots [] none).1)) from rfl]
      rw [hd2]
    rw [binder_teardown] at hfin
    have hmk : Make_Paramlist_Managed_May_Fail spec flags = finalizeParamlist st := by
      simp only [Make_Paramlist_Managed_May_Fail]
      rw [hfold]
    rw [hmk, hfin]

theorem C9_duplicate_atomicity_witness :
    List.foldlM processItem (initBuildState ⟨false, false, false, false, false⟩)
        [SpecItem.word "a", SpecItem.word "b", SpecItem.word "a"]
      = Except.ok ⟨[.blank0, .blk none, .strv none,
          .tsv ⟨"a", .normal, defaultParamBits false⟩,
          .blk none, .strv none, .tsv ⟨"b", .normal, defaultParamBits false⟩,
          .blk none, .strv none, .tsv ⟨"a", .normal, defaultParamBits false⟩],
          .normal, false, none, none, ⟨false, false, false, false, false⟩,
          false, false, false⟩
    ∧ ¬ (slotCanons (typesetSlots (finalizeReturnLeave
          ⟨[.blank0, .blk none, .strv none,
            .tsv ⟨"a", .normal, defaultParamBits false⟩,
            .blk none, .strv none, .tsv ⟨"b", .normal, defaultParamBits false⟩,
            .blk none, .strv none, .tsv ⟨"a", .normal, defaultParamBits false⟩],
            .normal, false, none, none, ⟨false, false, false, false, false⟩,
            false, false, false⟩).stack)).Nodup
    ∧ ∃ sp, Make_Paramlist_Managed_May_Fail
        [SpecItem.word "a", SpecItem.word "b", SpecItem.word "a"]
        ⟨false, false, false, false, false⟩
        = (Except.error (BuildErr.dupVars sp), []) :=
  ⟨by decide, by decide,
   @C9_duplicate_atomicity
     [SpecItem.word "a", SpecItem.word "b", SpecItem.word "a"]
     ⟨false, false, false, false, false⟩
     ⟨[.blank0, .blk none, .strv none,
       .tsv ⟨"a", .normal, defaultParamBits false⟩,
       .blk none, .strv none, .tsv ⟨"b", .normal, defaultParamBits false⟩,
       .blk none, .strv none, .tsv ⟨"a", .normal, defaultParamBits false⟩],
       .normal, false, none, none, ⟨false, false, false, false, false⟩,
       false, false, false⟩
     (by decide) (by decide)⟩

theorem GHP_ge {n p : Nat} (h : Get_Hash_Prime n = p) (hp : p ≠ 0) : n ≤ p := by
  unfold Get_Hash_Prime at h
  rcases hf : primesList.find? (fun q => n ≤ q) with _ | q
  · rw [hf] at h
    exact absurd h.symm hp
  · rw [hf] at h
    have hq := List.find?_some hf
    simp at hq
    rw [← h]
    exact hq

theorem expandFold_spec (hash0 : Bytes → Nat) (st : InternState) (numSlots : Nat) :
    ∀ (l : List Slot) (T : List Slot) (n : Nat) (r : List Slot × Nat),
      List.foldlM (expandStep hash0 st numSlots) (T, n) l = Except.ok r →
      T.length = numSlots →
      (∀ s ∈ T, s ≠ Slot.deletedCanon) →
      r.1.length = numSlots ∧ (∀ s ∈ r.1, s ≠ Slot.deletedCanon)
        ∧ r.2 = n - (l.filter Slot.isDeleted).length := by
  intro l
  induction l with
  | nil =>
      intro T n r h hT hTd
      injection h with h
      rw [← h]
      exact ⟨hT, hTd, rfl⟩
  | cons s rest ih =>
      intro T n r h hT hTd
      rw [List.foldlM_cons] at h
      cases s with
      | vacant =>
          have h2 : List.foldlM (expandStep hash0 st numSlots) (T, n) rest
              = Except.ok r := h
          have := ih T n r h2 hT hTd
          refine ⟨this.1, this.2.1, ?_⟩
          rw [this.2.2]
          rw [show (Slot.vacant :: rest).filter Slot.isDeleted
              = rest.filter Slot.isDeleted from rfl]
      | deletedCanon =>
          have h2 : List.foldlM (expandStep hash0 st numSlots) (T, n - 1) rest
              = Except.ok r := h
          have := ih T (n - 1) r h2 hT hTd
          refine ⟨this.1, this.2.1, ?_⟩
          rw [this.2.2]
          rw [show (Slot.deletedCanon :: rest).filter Slot.isDeleted
              = Slot.deletedCanon :: rest.filter Slot.isDeleted from rfl]
          rw [List.length_cons]
          omega
      | occupied c =>
          have hstep : expandStep hash0 st numSlots (T, n) (Slot.occupied c)
              = (match findVacant T (hashString hash0 (symOf st c).str % numSlots)
                    numSlots with
                | none => throw InternFail.probeOverflow
                | some v => pure (T.set v (Slot.occupied c), n)) := rfl
          rw [hstep] at h
          rcases hfv : findVacant T (hashString hash0 (symOf st c).str % numSlots)
              numSlots with _ | v
          · rw [hfv] at h
            cases h
          · rw [hfv] at h
            have h2 : List.foldlM (expandStep hash0 st numSlots)
                (T.set v (Slot.occupied c), n) rest = Except.ok r := h
            have hT2 : (T.set v (Slot.occupied c)).length = numSlots := by
              rw [List.length_set]
              exact hT
            have hTd2 : ∀ s ∈ T.set v (Slot.occupied c), s ≠ Slot.deletedCanon := by
              intro s hs
              rcases List.mem_or_eq_of_mem_set hs with hs | hs
              · exact hTd s hs
              · rw [hs]
                intro hc
                cases hc
            have := ih _ n r h2 hT2 hTd2
            refine ⟨this.1, this.2.1, ?_⟩
            rw [this.2.2]
            rw [show (Slot.occupied c :: rest).filter Slot.isDeleted
                = rest.filter Slot.isDeleted from rfl]

theorem Expand_sizeLimit {hash0 : Bytes → Nat} {st : InternState}
    (h0 : Get_Hash_Prime (st.table.length + 1) = 0) :
    Expand_Word_Table hash0 st = Except.error InternFail.sizeLimit := by
  unfold Expand_Word_Table
  rw [h0]
  rfl

theorem Expand_ok_basic {hash0 : Bytes → Nat} {st st' : InternState}
    (h : Expand_Word_Table hash0 st = Except.ok st') :
    Get_Hash_Prime (st.table.length + 1) ≠ 0
    ∧ st'.table.length = Get_Hash_Prime (st.table.length + 1)
    ∧ (∀ s ∈ st'.table, s ≠ Slot.deletedCanon)
    ∧ st'.slotsInUse = st.slotsInUse - deletedCount st
    ∧ st'.syms = st.syms := by
  by_cases h0 : Get_Hash_Prime (st.table.length + 1) = 0
  · rw [Expand_sizeLimit h0] at h
    cases h
  · refine ⟨h0, ?_⟩
    have hred : Expand_Word_Table hash0 st
        = (List.foldlM (expandStep hash0 st (Get_Hash_Prime (st.table.length + 1)))
            (List.replicate (Get_Hash_Prime (st.table.length + 1)) Slot.vacant,
              st.slotsInUse) st.table) >>= fun result =>
            pure { st with table := result.1, slotsInUse := result.2 } := by
      unfold Expand_Word_Table
      rw [if_neg h0]
      rfl
    rw [hred] at h
    rcases hfold : List.foldlM (expandStep hash0 st (Get_Hash_Prime (st.table.length + 1)))
        (List.replicate (Get_Hash_Prime (st.table.length + 1)) Slot.vacant,
          st.slotsInUse) st.table with e | r
    · rw [hfold] at h
      cases h
    · rw [hfold] at h
      have h2 : ({ st with table := r.1, slotsInUse := r.2 } : InternState) = st' := by
        injection h
      obtain ⟨hl, hd, hn⟩ := expandFold_spec hash0 st _ st.table _ _ r hfold
        (List.length_replicate _ _)
        (fun s hs => by rw [List.eq_of_mem_replicate hs]; intro hc; cases hc)
      rw [← h2]
      exact ⟨hl, hd, hn, rfl⟩

theorem intern_trigger (hash0 : Bytes → Nat) (st : InternState) (u : Bytes) :
    (st.slotsInUse > st.table.length / 2 →
      Intern_UTF8_Managed hash0 st u
        = Expand_Word_Table hash0 st >>= fun st2 =>
            internLoop st2 u (hashString hash0 u % st2.table.length) none
              st2.table.length)
    ∧ (¬ st.slotsInUse > st.table.length / 2 →
      Intern_UTF8_Managed hash0 st u
        = internLoop st u (hashString hash0 u % st.table.length) none
            st.table.length) := by
  constructor
  · intro hgt
    unfold Intern_UTF8_Managed
    rw [if_pos hgt]
  · intro hle
    unfold Intern_UTF8_Managed
    rw [if_neg hle]
    rfl

/-- C7 (counterexample to the claim as stated): the claim promises a rehash
into the next prime size at least DOUBLE the old size, but
Get_Hash_Prime(old + 1) merely returns the first prime not below old + 1.
A size-7 table past 50% load (4 canons hashing to slot 0 under a constant
hash) expands to 13 slots, and 13 < 2 * 7. -/
theorem C7_counterexample :
    (⟨[⟨[97], 0, true, 0, 0, 0⟩, ⟨[98], 1, true, 0, 0, 0⟩,
       ⟨[99], 2, true, 0, 0, 0⟩, ⟨[100], 3, true, 0, 0, 0⟩],
      [.occupied 0, .occupied 1, .occupied 2, .occupied 3] ++ List.replicate 3 .vacant,
      4⟩ : InternState).slotsInUse
      > (⟨[⟨[97], 0, true, 0, 0, 0⟩, ⟨[98], 1, true, 0, 0, 0⟩,
           ⟨[99], 2, true, 0, 0, 0⟩, ⟨[100], 3, true, 0, 0, 0⟩],
          [.occupied 0, .occupied 1, .occupied 2, .occupied 3] ++ List.replicate 3 .vacant,
          4⟩ : InternState).table.length / 2
    ∧ Expand_Word_Table (fun _ => 0)
        ⟨[⟨[97], 0, true, 0, 0, 0⟩, ⟨[98], 1, true, 0, 0, 0⟩,
          ⟨[99], 2, true, 0, 0, 0⟩, ⟨[100], 3, true, 0, 0, 0⟩],
         [.occupied 0, .occupied 1, .occupied 2, .occupied 3] ++ List.replicate 3 .vacant,
         4⟩
      = Except.ok
          ⟨[⟨[97], 0, true, 0, 0, 0⟩, ⟨[98], 1, true, 0, 0, 0⟩,
            ⟨[99], 2, true, 0, 0, 0⟩, ⟨[100], 3, true, 0, 0, 0⟩],
           [.occupied 0, .occupied 1, .occupied 2, .occupied 3]
             ++ List.replicate 9 .vacant,
           4⟩
    ∧ (([.occupied 0, .occupied 1, .occupied 2, .occupied 3]
        ++ List.replicate 9 .vacant : List Slot)).length = 13
    ∧ ¬ 2 * 7 ≤ 13 := by
  decide

/-- C7 (amended): the growth policy of the interner.  The expansion is
triggered exactly when the slots in use (canons plus tombstones) exceed
half the table size; the new size is Get_Hash_Prime(old size + 1) — the
FIRST listed prime above the old size, not necessarily double; when the
prime table is exhausted (Get_Hash_Prime returns 0) the interner fails
with the size-limit allocation error; and a successful expansion leaves no
tombstone in the new table, deducts the dropped tombstones from the
slots-in-use count, and does not touch the symbols themselves. -/
theorem C7_growth_policy {hash0 : Bytes → Nat} {st st' : InternState} (u : Bytes)
    (hexp : Expand_Word_Table hash0 st = Except.ok st') :
    st'.table.length = Get_Hash_Prime (st.table.length + 1)
    ∧ st.table.length + 1 ≤ st'.table.length
    ∧ (∀ s ∈ st'.table, s ≠ Slot.deletedCanon)
    ∧ st'.slotsInUse = st.slotsInUse - deletedCount st
    ∧ st'.syms = st.syms
    ∧ (st.slotsInUse > st.table.length / 2 →
        Intern_UTF8_Managed hash0 st u
          = Expand_Word_Table hash0 st >>= fun st2 =>
              internLoop st2 u (hashString hash0 u % st2.table.length) none
                st2.table.length)
    ∧ (¬ st.slotsInUse > st.table.length / 2 →
        Intern_UTF8_Managed hash0 st u
          = internLoop st u (hashString hash0 u % st.table.length) none
              st.table.length)
    ∧ (∀ st3 : InternState, Get_Hash_Prime (st3.table.length + 1) = 0 →
        Expand_Word_Table hash0 st3 = Except.error InternFail.sizeLimit) := by
  obtain ⟨h0, hlen, hnod, hsl, hsy⟩ := Expand_ok_basic hexp
  refine ⟨hlen, ?_, hnod, hsl, hsy, (intern_trigger hash0 st u).1,
    (intern_trigger hash0 st u).2, fun st3 h3 => Expand_sizeLimit h3⟩
  rw [hlen]
  exact GHP_ge rfl h0

theorem C7_growth_policy_witness :
    Expand_Word_Table (fun _ => 0)
        ⟨[⟨[97], 0, true, 0, 0, 0⟩, ⟨[98], 1, true, 0, 0, 0⟩,
          ⟨[99], 2, true, 0, 0, 0⟩, ⟨[100], 3, true, 0, 0, 0⟩],
         [.occupied 0, .occupied 1, .occupied 2, .occupied 3] ++ List.replicate 3 .vacant,
         4⟩
      = Except.ok
          ⟨[⟨[97], 0, true, 0, 0, 0⟩, ⟨[98], 1, true, 0, 0, 0⟩,
            ⟨[99], 2, true, 0, 0, 0⟩, ⟨[100], 3, true, 0, 0, 0⟩],
           [.occupied 0, .occupied 1, .occupied 2, .occupied 3]
             ++ List.replicate 9 .vacant,
           4⟩
    ∧ (⟨[⟨[97], 0, true, 0, 0, 0⟩, ⟨[98], 1, true, 0, 0, 0⟩,
         ⟨[99], 2, true, 0, 0, 0⟩, ⟨[100], 3, true, 0, 0, 0⟩],
        [.occupied 0, .occupied 1, .occupied 2, .occupied 3] ++ List.replicate 9 .vacant,
        4⟩ : InternState).table.length
      = Get_Hash_Prime
          ((⟨[⟨[97], 0, true, 0, 0, 0⟩, ⟨[98], 1, true, 0, 0, 0⟩,
              ⟨[99], 2, true, 0, 0, 0⟩, ⟨[100], 3, true, 0, 0, 0⟩],
             [.occupied 0, .occupied 1, .occupied 2, .occupied 3]
               ++ List.replicate 3 .vacant,
             4⟩ : InternState).table.length + 1) :=
  ⟨by decide,
   (@C7_growth_policy (fun _ => 0)
     ⟨[⟨[97], 0, true, 0, 0, 0⟩, ⟨[98], 1, true, 0, 0, 0⟩,
       ⟨[99], 2, true, 0, 0, 0⟩, ⟨[100], 3, true, 0, 0, 0⟩],
      [.occupied 0, .occupied 1, .occupied 2, .occupied 3] ++ List.replicate 3 .vacant,
      4⟩
     ⟨[⟨[97], 0, true, 0, 0, 0⟩, ⟨[98], 1, true, 0, 0, 0⟩,
       ⟨[99], 2, true, 0, 0, 0⟩, ⟨[100], 3, true, 0, 0, 0⟩],
      [.occupied 0, .occupied 1, .occupied 2, .occupied 3] ++ List.replicate 9 .vacant,
      4⟩
     [120] (by decide)).1⟩

theorem rippleLoop_net :
    ∀ (fuel : Nat) (T : List Slot) (slot : Nat) (t : List Slot) (p : Nat),
      rippleLoop p T slot fuel = some t → t = T ∨ ∃ x, t = T.set p x := by
  intro fuel
  induction fuel with
  | zero =>
      intro T slot t p h
      cases h
  | succ n ih =>
      intro T slot t p h
      unfold rippleLoop at h
      rcases hg : T.getD slot .vacant with _ | _ | c
      · rw [hg] at h
        injection h with h
        exact Or.inl h.symm
      · rw [hg] at h
        rcases ih _ _ t p h with h2 | ⟨x, h2⟩
        · exact Or.inr ⟨_, h2⟩
        · refine Or.inr ⟨x, ?_⟩
          rw [h2, List.set_set]
      · rw [hg] at h
        rcases ih _ _ t p h with h2 | ⟨x, h2⟩
        · exact Or.inr ⟨_, h2⟩
        · refine Or.inr ⟨x, ?_⟩
          rw [h2, List.set_set]

/-- C8 (amended): the exact removal behavior.  The symbol is unlinked from
its circular synonym ring (the predecessor found by the ring walk gets the
killed symbol's synonym pointer).  A non-canon needs nothing else.  A
canon is located in the hash table by probing from its hash; if its ring
held a distinct synonym, that synonym is promoted in place (the slot is
overwritten with it, it gets the CANON flag and zeroed bind indices).
Otherwise — because the ripple loop never advances its `previous_slot`
cursor, every copy lands in the same cell — the net effect on the table is
exactly ONE change: the killed canon's own slot becomes DELETED_CANON; no
other slot is moved and no further tombstone is installed. -/
theorem C8_removal {hash0 : Bytes → Nat} {st : InternState} {internId : Nat}
    {st' : InternState}
    (hok : GC_Kill_Interning hash0 st internId = Except.ok st') :
    ∃ temp, ringFindPrev st internId (symOf st internId).synonym (st.syms.length + 1)
        = some temp
      ∧ ∀ st1 : InternState,
          st1 = { st with syms := (st.syms.set temp
              { symOf st temp with synonym := (symOf st internId).synonym }) } →
          (((symOf st1 internId).canonFlag = false → st' = st1)
          ∧ ((symOf st1 internId).canonFlag = true →
              ∃ slot,
                findSlotOf st1.table internId
                    (hashString hash0 (symOf st1 internId).str % st1.table.length)
                    st1.table.length = some slot
                ∧ ((symOf st internId).synonym ≠ internId →
                    st' = { st1 with
                      table := st1.table.set slot (.occupied (symOf st internId).synonym)
                      , syms := (st1.syms.set (symOf st internId).synonym
                          { symOf st1 (symOf st internId).synonym with
                              canonFlag := true, bindHigh := 0, bindLow := 0 }) })
                ∧ ((symOf st internId).synonym = internId →
                    st' = { st1 with table := st1.table.set slot .deletedCanon }))) := by
  simp only [GC_Kill_Interning] at hok
  rcases hrfp : ringFindPrev st internId (symOf st internId).synonym
      (st.syms.length + 1) with _ | temp
  · rw [hrfp] at hok
    cases hok
  · rw [hrfp] at hok
    refine ⟨temp, rfl, ?_⟩
    intro st1 hst1
    have hok2 : (if (symOf st1 internId).canonFlag = false then pure st1
        else killCanon hash0 st1 internId (symOf st internId).synonym)
        = Except.ok st' := by
      rw [hst1]
      exact hok
    by_cases hcf : (symOf st1 internId).canonFlag = false
    · rw [if_pos hcf] at hok2
      injection hok2 with hok2
      refine ⟨fun _ => hok2.symm, ?_⟩
      intro h
      rw [h] at hcf
      cases hcf
    · rw [if_neg hcf] at hok2
      simp only [killCanon] at hok2
      refine ⟨fun h => absurd h hcf, ?_⟩
      intro _
      rcases hfs : findSlotOf st1.table internId
          (hashString hash0 (symOf st1 internId).str % st1.table.length)
          st1.table.length with _ | slot
      · rw [hfs] at hok2
        cases hok2
      · rw [hfs] at hok2
        refine ⟨slot, rfl, ?_, ?_⟩
        · intro hsyn
          have hk := hok2
          simp only [killCanonSlot] at hk
          rw [if_pos hsyn] at hk
          injection hk with hk
          exact hk.symm
        · intro hsyneq
          have hk := hok2
          simp only [killCanonSlot] at hk
          rw [if_neg (fun hc => hc hsyneq)] at hk
          rcases hrip : rippleLoop slot st1.table slot (st1.table.length + 1)
              with _ | tb
          · rw [hrip] at hk
            cases hk
          · rw [hrip] at hk
            injection hk with hk
            rcases rippleLoop_net _ _ _ _ _ hrip with h2 | ⟨x, h2⟩
            · rw [← hk, h2]
            · rw [← hk, h2, List.set_set]

/-- C8 (counterexample to the claim as stated): the claim says that when a
lone-ring canon is killed, "the probe chain is walked backwards installing
tombstones until the chain is restored".  In the code the walk's
`previous_slot` cursor is never advanced, so every copy lands in the
canon's own slot and the net effect is a single tombstone there: with
three canons colliding into slots 0,1,2 (constant hash), killing the canon
at slot 0 leaves slots 1 and 2 exactly as they were — nothing is walked
back, no further tombstone is installed, and exactly one DELETED_CANON
appears. -/
theorem C8_counterexample :
    GC_Kill_Interning (fun _ => 0)
        ⟨[⟨[97], 0, true, 0, 0, 0⟩, ⟨[98], 1, true, 0, 0, 0⟩, ⟨[99], 2, true, 0, 0, 0⟩],
         [.occupied 0, .occupied 1, .occupied 2] ++ List.replicate 4 .vacant, 3⟩ 0
      = Except.ok
          ⟨[⟨[97], 0, true, 0, 0, 0⟩, ⟨[98], 1, true, 0, 0, 0⟩, ⟨[99], 2, true, 0, 0, 0⟩],
           [.deletedCanon, .occupied 1, .occupied 2] ++ List.replicate 4 .vacant, 3⟩
    ∧ (([.deletedCanon, .occupied 1, .occupied 2] ++ List.replicate 4 .vacant
        : List Slot))
        = (([.occupied 0, .occupied 1, .occupied 2] ++ List.replicate 4 .vacant
          : List Slot)).set 0 .deletedCanon
    ∧ ((([.deletedCanon, .occupied 1, .occupied 2] ++ List.replicate 4 .vacant
        : List Slot)).filter Slot.isDeleted).length = 1 := by
  decide

theorem C8_removal_witness :
    GC_Kill_Interning (fun _ => 0)
        ⟨[⟨[97], 0, true, 0, 0, 0⟩, ⟨[98], 1, true, 0, 0, 0⟩, ⟨[99], 2, true, 0, 0, 0⟩],
         [.occupied 0, .occupied 1, .occupied 2] ++ List.replicate 4 .vacant, 3⟩ 0
      = Except.ok
          ⟨[⟨[97], 0, true, 0, 0, 0⟩, ⟨[98], 1, true, 0, 0, 0⟩, ⟨[99], 2, true, 0, 0, 0⟩],
           [.deletedCanon, .occupied 1, .occupied 2] ++ List.replicate 4 .vacant, 3⟩
    ∧ ∃ temp,
        ringFindPrev
            ⟨[⟨[97], 0, true, 0, 0, 0⟩, ⟨[98], 1, true, 0, 0, 0⟩,
              ⟨[99], 2, true, 0, 0, 0⟩],
             [.occupied 0, .occupied 1, .occupied 2] ++ List.replicate 4 .vacant, 3⟩ 0
            (symOf ⟨[⟨[97], 0, true, 0, 0, 0⟩, ⟨[98], 1, true, 0, 0, 0⟩,
                ⟨[99], 2, true, 0, 0, 0⟩],
               [.occupied 0, .occupied 1, .occupied 2] ++ List.replicate 4 .vacant,
               3⟩ 0).synonym
            ((⟨[⟨[97], 0, true, 0, 0, 0⟩, ⟨[98], 1, true, 0, 0, 0⟩,
                ⟨[99], 2, true, 0, 0, 0⟩],
               [.occupied 0, .occupied 1, .occupied 2] ++ List.replicate 4 .vacant,
               3⟩ : InternState).syms.length + 1)
          = some temp
        ∧ ∀ st1 : InternState,
            st1 = { (⟨[⟨[97], 0, true, 0, 0, 0⟩, ⟨[98], 1, true, 0, 0, 0⟩,
                  ⟨[99], 2, true, 0, 0, 0⟩],
                 [.occupied 0, .occupied 1, .occupied 2] ++ List.replicate 4 .vacant,
                 3⟩ : InternState) with
                syms := (([⟨[97], 0, true, 0, 0, 0⟩, ⟨[98], 1, true, 0, 0, 0⟩,
                    ⟨[99], 2, true, 0, 0, 0⟩] : List SymData).set temp
                  { symOf ⟨[⟨[97], 0, true, 0, 0, 0⟩, ⟨[98], 1, true, 0, 0, 0⟩,
                        ⟨[99], 2, true, 0, 0, 0⟩],
                       [.occupied 0, .occupied 1, .occupied 2]
                         ++ List.replicate 4 .vacant, 3⟩ temp with
                      synonym := (symOf ⟨[⟨[97], 0, true, 0, 0, 0⟩,
                          ⟨[98], 1, true, 0, 0, 0⟩, ⟨[99], 2, true, 0, 0, 0⟩],
                         [.occupied 0, .occupied 1, .occupied 2]
                           ++ List.replicate 4 .vacant, 3⟩ 0).synonym }) } →
            (((symOf st1 0).canonFlag = false →
                (⟨[⟨[97], 0, true, 0, 0, 0⟩, ⟨[98], 1, true, 0, 0, 0⟩,
                    ⟨[99], 2, true, 0, 0, 0⟩],
                  [.deletedCanon, .occupied 1, .occupied 2] ++ List.replicate 4 .vacant,
                  3⟩ : InternState) = st1)
            ∧ ((symOf st1 0).canonFlag = true →
                ∃ slot,
                  findSlotOf st1.table 0
                      (hashString (fun _ => 0) (symOf st1 0).str % st1.table.length)
                      st1.table.length = some slot
                  ∧ ((symOf ⟨[⟨[97], 0, true, 0, 0, 0⟩, ⟨[98], 1, true, 0, 0, 0⟩,
                        ⟨[99], 2, true, 0, 0, 0⟩],
                       [.occupied 0, .occupied 1, .occupied 2]
                         ++ List.replicate 4 .vacant, 3⟩ 0).synonym ≠ 0 →
                      (⟨[⟨[97], 0, true, 0, 0, 0⟩, ⟨[98], 1, true, 0, 0, 0⟩,
                          ⟨[99], 2, true, 0, 0, 0⟩],
                        [.deletedCanon, .occupied 1, .occupied 2]
                          ++ List.replicate 4 .vacant, 3⟩ : InternState)
                        = { st1 with
                          table := st1.table.set slot
                            (.occupied (symOf ⟨[⟨[97], 0, true, 0, 0, 0⟩,
                                ⟨[98], 1, true, 0, 0, 0⟩, ⟨[99], 2, true, 0, 0, 0⟩],
                               [.occupied 0, .occupied 1, .occupied 2]
                                 ++ List.replicate 4 .vacant, 3⟩ 0).synonym)
                          , syms := (st1.syms.set
                              (symOf ⟨[⟨[97], 0, true, 0, 0, 0⟩,
                                  ⟨[98], 1, true, 0, 0, 0⟩, ⟨[99], 2, true, 0, 0, 0⟩],
                                 [.occupied 0, .occupied 1, .occupied 2]
                                   ++ List.replicate 4 .vacant, 3⟩ 0).synonym
                              { symOf st1 (symOf ⟨[⟨[97], 0, true, 0, 0, 0⟩,
                                    ⟨[98], 1, true, 0, 0, 0⟩, ⟨[99], 2, true, 0, 0, 0⟩],
                                   [.occupied 0, .occupied 1, .occupied 2]
                                     ++ List.replicate 4 .vacant, 3⟩ 0).synonym with
                                  canonFlag := true, bindHigh := 0, bindLow := 0 }) })
                  ∧ ((symOf ⟨[⟨[97], 0, true, 0, 0, 0⟩, ⟨[98], 1, true, 0, 0, 0⟩,
                        ⟨[99], 2, true, 0, 0, 0⟩],
                       [.occupied 0, .occupied 1, .occupied 2]
                         ++ List.replicate 4 .vacant, 3⟩ 0).synonym = 0 →
                      (⟨[⟨[97], 0, true, 0, 0, 0⟩, ⟨[98], 1, true, 0, 0, 0⟩,
                          ⟨[99], 2, true, 0, 0, 0⟩],
                        [.deletedCanon, .occupied 1, .occupied 2]
                          ++ List.replicate 4 .vacant, 3⟩ : InternState)
                        = { st1 with table := st1.table.set slot .deletedCanon }))) :=
  ⟨by decide,
   @C8_removal (fun _ => 0)
     ⟨[⟨[97], 0, true, 0, 0, 0⟩, ⟨[98], 1, true, 0, 0, 0⟩, ⟨[99], 2, true, 0, 0, 0⟩],
      [.occupied 0, .occupied 1, .occupied 2] ++ List.replicate 4 .vacant, 3⟩ 0
     ⟨[⟨[97], 0, true, 0, 0, 0⟩, ⟨[98], 1, true, 0, 0, 0⟩, ⟨[99], 2, true, 0, 0, 0⟩],
      [.deletedCanon, .occupied 1, .occupied 2] ++ List.replicate 4 .vacant, 3⟩
     (by decide)⟩

theorem getD_set_self_d {α : Type} (l : List α) (i : Nat) (v d : α) (h : i < l.length) :
    (l.set i v).getD i d = v := by
  rw [List.getD_eq_getElem _ _ (by simpa using h)]
  simp

theorem getD_set_ne_d {α : Type} (l : List α) (i j : Nat) (v d : α) (h : i ≠ j) :
    (l.set i v).getD j d = l.getD j d := by
  by_cases hj : j < l.length
  · rw [List.getD_eq_getElem _ _ (by simpa using hj), List.getD_eq_getElem _ _ hj]
    exact List.getElem_set_ne h _
  · rw [List.getD_eq_default _ _ (by simpa using hj),
      List.getD_eq_default _ _ (by omega)]

theorem nodup_bound_length {r : List Nat} {n : Nat} (hnd : r.Nodup)
    (hb : ∀ a ∈ r, a < n) : r.length ≤ n := by
  have h1 : r.toFinset.card = r.length := List.toFinset_card_of_nodup hnd
  have h2 : r.toFinset ⊆ Finset.range n := by
    intro a ha
    rw [List.mem_toFinset] at ha
    exact Finset.mem_range.2 (hb a ha)
  have h3 := Finset.card_le_card h2
  rw [h1, Finset.card_range] at h3
  exact h3

theorem chain_drop {α : Type} {R : α → α → Prop} :
    ∀ (k : Nat) (l : List α), List.Chain' R l → List.Chain' R (l.drop k) := by
  intro k
  induction k with
  | zero =>
      intro l h
      exact h
  | succ n ih =>
      intro l h
      cases l with
      | nil => exact List.chain'_nil
      | cons a t => exact ih t h.tail

theorem strCanonWalk_reaches {st : InternState} {c : Nat}
    (hc : (symOf st c).canonFlag = true) :
    ∀ (p : List Nat) (fuel : Nat),
      (∀ a ∈ p, (symOf st a).canonFlag = false) →
      List.Chain' (fun a b => (symOf st a).synonym = b) (p ++ [c]) →
      p.length + 1 ≤ fuel →
      strCanonWalk st (p.headD c) fuel = c := by
  intro p
  induction p with
  | nil =>
      intro fuel _ _ hf
      match fuel, hf with
      | f + 1, _ =>
          show strCanonWalk st c (f + 1) = c
          unfold strCanonWalk
          rw [hc, if_pos rfl]
  | cons a rest ih =>
      intro fuel hflags hchain hf
      match fuel, hf with
      | f + 1, hf =>
          show strCanonWalk st a (f + 1) = c
          unfold strCanonWalk
          rw [hflags a (by simp), if_neg Bool.false_ne_true]
          have hsyn2 : (symOf st a).synonym = rest.headD c := by
            cases rest with
            | nil => exact (List.chain'_cons.1 hchain).1
            | cons b rest2 => exact (List.chain'_cons.1 hchain).1
          rw [hsyn2]
          refine ih f (fun x hx => hflags x (by simp [hx])) hchain.tail ?_
          rw [List.length_cons] at hf
          omega

theorem STR_CANON_ring {st : InternState} {r : List Nat} (hr : IsRing st r)
    {a : Nat} (ha : a ∈ r) : STR_CANON st a = r.headD 0 := by
  obtain ⟨c, rest, hrc⟩ : ∃ c rest, r = c :: rest := by
    cases r with
    | nil => exact absurd rfl hr.ne
    | cons c rest => exact ⟨c, rest, rfl⟩
  subst hrc
  have hc : (symOf st c).canonFlag = true := hr.headFlag
  have hchain : List.Chain' (fun x y => (symOf st x).synonym = y) ((c :: rest) ++ [c]) :=
    hr.links
  have hlen : (c :: rest).length ≤ st.syms.length :=
    nodup_bound_length hr.nodup hr.bound
  rcases List.mem_cons.1 ha with hac | harest
  · subst hac
    show strCanonWalk st ([].headD a) st.syms.length = (a :: rest).headD 0
    refine strCanonWalk_reaches hc [] st.syms.length (by simp) (List.chain'_singleton a) ?_
    have hb := hr.bound a (by simp)
    simp only [List.length_nil]
    omega
  · obtain ⟨i, hi, hieq⟩ := List.mem_iff_getElem.1 harest
    have hp : (rest.drop i).headD c = a := by
      rw [List.drop_eq_getElem_cons hi]
      rw [← hieq]
      rfl
    have hchain2 : List.Chain' (fun x y => (symOf st x).synonym = y)
        ((rest.drop i) ++ [c]) := by
      have h1 : List.Chain' (fun x y => (symOf st x).synonym = y) (rest ++ [c]) :=
        hchain.tail
      have h2 : (rest ++ [c]).drop i = rest.drop i ++ [c] := by
        rw [List.drop_append_of_le_length (le_of_lt hi)]
      rw [← h2]
      exact chain_drop i _ h1
    have hflags : ∀ x ∈ rest.drop i, (symOf st x).canonFlag = false := by
      intro x hx
      exact hr.tailFlag x (List.mem_of_mem_drop hx)
    have hfuel : (rest.drop i).length + 1 ≤ st.syms.length := by
      rw [List.length_drop]
      rw [List.length_cons] at hlen
      omega
    have hw := strCanonWalk_reaches hc (rest.drop i) st.syms.length hflags hchain2 hfuel
    rw [hp] at hw
    exact hw

theorem chain_congr_sources {α : Type} {R S : α → α → Prop} :
    ∀ (l : List α), (∀ x ∈ l.dropLast, ∀ y, R x y → S x y) →
      List.Chain' R l → List.Chain' S l := by
  intro l
  induction l with
  | nil =>
      intro _ _
      exact List.chain'_nil
  | cons a t ih =>
      intro h hch
      cases t with
      | nil => exact List.chain'_singleton a
      | cons b t2 =>
          rw [List.chain'_cons] at hch ⊢
          have hdl : (a :: b :: t2).dropLast = a :: (b :: t2).dropLast := rfl
          refine ⟨h a (by rw [hdl]; simp) b hch.1,
            ih (fun x hx y hr => h x (by rw [hdl]; simp [hx]) y hr) hch.2⟩

theorem IsRing_congr {st st' : InternState} {r : List Nat}
    (htab : st'.table = st.table)
    (hlen : st'.syms.length = st.syms.length)
    (hsyn : ∀ x, (symOf st' x).synonym = (symOf st x).synonym)
    (hflag : ∀ x, (symOf st' x).canonFlag = (symOf st x).canonFlag)
    (hstr : ∀ x, (symOf st' x).str = (symOf st x).str)
    (hr : IsRing st r) : IsRing st' r := by
  refine ⟨hr.ne, hr.nodup, ?_, ?_, ?_, ?_, ?_, ?_, ?_⟩
  · intro a ha
    rw [hlen]
    exact hr.bound a ha
  · unfold ringLinks
    refine chain_congr_sources _ ?_ hr.links
    intro x _ y hxy
    rw [hsyn]
    exact hxy
  · rw [hflag]
    exact hr.headFlag
  · intro a ha
    rw [hflag]
    exact hr.tailFlag a ha
  · intro a ha
    rw [hstr, hstr]
    exact hr.classEq a ha
  · obtain ⟨slot, hs⟩ := hr.slotEx
    refine ⟨slot, ?_⟩
    unfold slotOf at hs ⊢
    rw [htab]
    exact hs
  · refine hr.strsNe.imp ?_
    intro a b h
    rw [hstr a, hstr b]
    exact h

theorem tagWalk_spec (c sym : Nat) :
    ∀ (p : List Nat) (st : InternState) (fuel : Nat),
      p ≠ [] → p.length ≤ fuel → p.Nodup → c ∉ p.tail →
      (∀ a ∈ p, a < st.syms.length) →
      List.Chain' (fun a b => (symOf st a).synonym = b) (p ++ [c]) →
      (tagRingWalk c sym st (p.headD 0) fuel).syms.length = st.syms.length
      ∧ (tagRingWalk c sym st (p.headD 0) fuel).table = st.table
      ∧ (tagRingWalk c sym st (p.headD 0) fuel).slotsInUse = st.slotsInUse
      ∧ (∀ a ∈ p, symOf (tagRingWalk c sym st (p.headD 0) fuel) a
          = { symOf st a with symNum := sym })
      ∧ (∀ x, x ∉ p → symOf (tagRingWalk c sym st (p.headD 0) fuel) x = symOf st x) := by
  intro p
  induction p with
  | nil =>
      intro st fuel hne
      exact absurd rfl hne
  | cons a rest ih =>
      intro st fuel hne hf hnd hct hb hchain
      match fuel, hf with
      | f + 1, hf =>
          have hred : tagRingWalk c sym st ((a :: rest).headD 0) (f + 1)
              = (if (symOf st a).synonym = c
                  then { st with
                    syms := (st.syms.set a { symOf st a with symNum := sym }) }
                  else tagRingWalk c sym
                    { st with
                      syms := (st.syms.set a { symOf st a with symNum := sym }) }
                    ((symOf st a).synonym) f) := rfl
          have halen : a < st.syms.length := hb a (by simp)
          have hsyma : symOf { st with
              syms := (st.syms.set a { symOf st a with symNum := sym }) } a
              = { symOf st a with symNum := sym } := by
            show (st.syms.set a { symOf st a with symNum := sym }).getD a default
              = { symOf st a with symNum := sym }
            exact getD_set_self_d _ _ _ _ halen
          have hsymx : ∀ x, x ≠ a → symOf { st with
              syms := (st.syms.set a { symOf st a with symNum := sym }) } x
              = symOf st x := by
            intro x hx
            show (st.syms.set a { symOf st a with symNum := sym }).getD x default
              = st.syms.getD x default
            exact getD_set_ne_d _ _ _ _ _ (fun hc2 => hx hc2.symm)
          cases rest with
          | nil =>
              have hnext : (symOf st a).synonym = c := (List.chain'_cons.1 hchain).1
              rw [hred, if_pos hnext]
              refine ⟨by simp, rfl, rfl, ?_, ?_⟩
              · intro x hx
                rw [List.mem_singleton] at hx
                rw [hx]
                exact hsyma
              · intro x hx
                rw [List.mem_singleton] at hx
                exact hsymx x hx
          | cons b rest2 =>
              have hnext : (symOf st a).synonym = b := (List.chain'_cons.1 hchain).1
              have hbc : b ≠ c := by
                intro hbc
                apply hct
                rw [← hbc]
                simp
              rw [hred, if_neg (by rw [hnext]; exact hbc)]
              set st2 : InternState :=
                { st with syms := (st.syms.set a { symOf st a with symNum := sym }) }
                with hst2
              have hanr : a ∉ b :: rest2 := (List.nodup_cons.1 hnd).1
              have hchain2 : List.Chain' (fun x y => (symOf st2 x).synonym = y)
                  ((b :: rest2) ++ [c]) := by
                refine chain_congr_sources _ ?_ hchain.tail
                intro x hx y hxy
                rw [List.dropLast_concat] at hx
                have hxa : x ≠ a := fun hc2 => hanr (hc2 ▸ hx)
                rw [hsymx x hxa]
                exact hxy
              have hih := ih st2 f (by simp) (by rw [List.length_cons] at hf; simpa using hf)
                (List.nodup_cons.1 hnd).2
                (by
                  intro hc2
                  apply hct
                  exact List.mem_cons_of_mem _ hc2)
                (by
                  intro x hx
                  have : st2.syms.length = st.syms.length := by simp
                  rw [this]
                  exact hb x (List.mem_cons_of_mem _ hx))
                hchain2
              have hhead : ((b :: rest2).headD 0) = b := rfl
              rw [hhead] at hih
              have hsyn2 : (symOf st a).synonym = b := hnext
              rw [hsyn2]
              obtain ⟨ihlen, ihtab, ihslots, ihmem, ihout⟩ := hih
              refine ⟨by rw [ihlen]; simp, by rw [ihtab], by rw [ihslots], ?_, ?_⟩
              · intro x hx
                rcases List.mem_cons.1 hx with hxa | hxr
                · rw [hxa]
                  rw [ihout a hanr]
                  exact hsyma
                · rw [ihmem x hxr, hsymx x (fun hc2 => hanr (hc2 ▸ hxr))]
              · intro x hx
                have hxa : x ≠ a := fun hc2 => hx (by rw [hc2]; simp)
                have hxr : x ∉ b :: rest2 := fun hc2 => hx (List.mem_cons_of_mem _ hc2)
                rw [ihout x hxr]
                exact hsymx x hxa

theorem headD_mem {r : List Nat} (h : r ≠ []) : r.headD 0 ∈ r := by
  cases r with
  | nil => exact absurd rfl h
  | cons a t => exact List.mem_cons_self a t

theorem startupFold_spec :
    ∀ (rs : List (List Nat)) (words : List Nat) (st : InternState) (k : Nat),
      rs.length = words.length →
      (∀ i, i < rs.length → IsRing st (rs.getD i [])
          ∧ (rs.getD i []).headD 0 = words.getD i 0) →
      (rs.flatMap id).Nodup →
      (words.foldl startupStep (st, k)).1.syms.length = st.syms.length
      ∧ (words.foldl startupStep (st, k)).1.table = st.table
      ∧ (words.foldl startupStep (st, k)).1.slotsInUse = st.slotsInUse
      ∧ (∀ i, i < rs.length → ∀ a ∈ rs.getD i [],
          symOf (words.foldl startupStep (st, k)).1 a
            = { symOf st a with symNum := k + i + 1 })
      ∧ (∀ x, (∀ i, i < rs.length → x ∉ rs.getD i []) →
          symOf (words.foldl startupStep (st, k)).1 x = symOf st x) := by
  intro rs
  induction rs with
  | nil =>
      intro words st k hlen _ _
      have hwords : words = [] := List.eq_nil_of_length_eq_zero hlen.symm
      subst hwords
      exact ⟨rfl, rfl, rfl, fun i hi => absurd hi (by simp), fun x _ => rfl⟩
  | cons r0 rsrest ih =>
      intro words st k hlen hrings hdisj
      obtain ⟨w, wrest, hw⟩ : ∃ w wrest, words = w :: wrest := by
        cases words with
        | nil => rw [List.length_cons] at hlen; cases hlen
        | cons w wrest => exact ⟨w, wrest, rfl⟩
      subst hw
      have hr0 : IsRing st r0 ∧ r0.headD 0 = w := by
        have := hrings 0 (by simp)
        simpa using this
      obtain ⟨hr0ring, hr0head⟩ := hr0
      have hr0len : r0.length ≤ st.syms.length :=
        nodup_bound_length hr0ring.nodup hr0ring.bound
      have hchain0 : List.Chain' (fun a b => (symOf st a).synonym = b) (r0 ++ [w]) := by
        have hl := hr0ring.links
        unfold ringLinks at hl
        have htake : r0.take 1 = [w] := by
          cases r0 with
          | nil => exact absurd rfl hr0ring.ne
          | cons a t =>
              have : a = w := hr0head
              rw [List.take_succ_cons, List.take_zero, this]
        rw [htake] at hl
        exact hl
      have hwtail : w ∉ r0.tail := by
        cases r0 with
        | nil => simp
        | cons a t =>
            have ha : a = w := hr0head
            have := (List.nodup_cons.1 hr0ring.nodup).1
            rw [ha] at this
            exact this
      obtain ⟨twlen, twtab, twslots, twmem, twout⟩ :=
        tagWalk_spec w (k + 1) r0 st (st.syms.length + 1) hr0ring.ne
          (by omega) hr0ring.nodup hwtail hr0ring.bound hchain0
      -- the head the walk starts from is w
      rw [hr0head] at twlen twtab twslots twmem twout
      set st2 := tagRingWalk w (k + 1) st w (st.syms.length + 1) with hst2
      have hfold1 : (w :: wrest).foldl startupStep (st, k)
          = wrest.foldl startupStep (st2, k + 1) := rfl
      -- disjointness pieces
      have hflat : (r0 ++ rsrest.flatMap id).Nodup := by
        have : ((r0 :: rsrest).flatMap id) = r0 ++ rsrest.flatMap id := by
          simp [List.flatMap_cons]
        rw [this] at hdisj
        exact hdisj
      rw [List.nodup_append] at hflat
      obtain ⟨_, hrestnd, hdisj2⟩ := hflat
      have hnotin : ∀ a ∈ r0, ∀ j, j < rsrest.length → a ∉ rsrest.getD j [] := by
        intro a ha j hj hmem
        refine hdisj2 ha ?_
        rw [List.mem_flatMap]
        refine ⟨rsrest.getD j [], ?_, hmem⟩
        rw [List.getD_eq_getElem _ _ hj]
        exact List.getElem_mem _
      have hinr0 : ∀ j, j < rsrest.length → ∀ a ∈ rsrest.getD j [], a ∉ r0 := by
        intro j hj a hmem ha
        exact hnotin a ha j hj hmem
      -- field preservation from st to st2, for every symbol
      have hfields : ∀ x, (symOf st2 x).synonym = (symOf st x).synonym
          ∧ (symOf st2 x).canonFlag = (symOf st x).canonFlag
          ∧ (symOf st2 x).str = (symOf st x).str := by
        intro x
        by_cases hx : x ∈ r0
        · rw [twmem x hx]
          exact ⟨rfl, rfl, rfl⟩
        · rw [twout x hx]
          exact ⟨rfl, rfl, rfl⟩
      have hrings2 : ∀ i, i < rsrest.length → IsRing st2 (rsrest.getD i [])
          ∧ (rsrest.getD i []).headD 0 = wrest.getD i 0 := by
        intro i hi
        have := hrings (i + 1) (by simp; omega)
        have hg1 : (r0 :: rsrest).getD (i + 1) [] = rsrest.getD i [] := rfl
        have hg2 : (w :: wrest).getD (i + 1) 0 = wrest.getD i 0 := rfl
        rw [hg1, hg2] at this
        exact ⟨IsRing_congr twtab twlen (fun x => (hfields x).1)
          (fun x => (hfields x).2.1) (fun x => (hfields x).2.2) this.1, this.2⟩
      have hlen2 : rsrest.length = wrest.length := by
        rw [List.length_cons, List.length_cons] at hlen
        omega
      obtain ⟨ihlen, ihtab, ihslots, ihmem, ihout⟩ :=
        ih wrest st2 (k + 1) hlen2 hrings2 hrestnd
      rw [hfold1]
      refine ⟨by rw [ihlen, twlen], by rw [ihtab, twtab], by rw [ihslots, twslots],
        ?_, ?_⟩
      · intro i hi a ha
        match i with
        | 0 =>
            have ha0 : a ∈ r0 := by simpa using ha
            have haout : ∀ j, j < rsrest.length → a ∉ rsrest.getD j [] :=
              hnotin a ha0
            rw [ihout a haout, twmem a ha0]
        | j + 1 =>
            have haj : a ∈ rsrest.getD j [] := by simpa using ha
            have hj : j < rsrest.length := by
              rw [List.length_cons] at hi
              omega
            rw [ihmem j hj a haj, twout a (hinr0 j hj a haj)]
            have : k + 1 + j + 1 = k + (j + 1) + 1 := by omega
            rw [this]
      · intro x hx
        have hx0 : x ∉ r0 := by
          have := hx 0 (by simp)
          simpa using this
        have hxr : ∀ j, j < rsrest.length → x ∉ rsrest.getD j [] := by
          intro j hj
          have := hx (j + 1) (by simp; omega)
          simpa using this
        rw [ihout x hxr, twout x hx0]

theorem getD_append_last {α : Type} (l : List α) (x d : α) :
    (l ++ [x]).getD l.length d = x := by
  rw [List.getD_append_right _ _ _ _ (le_refl _), Nat.sub_self]
  rfl

theorem getD_append_last_of_eq {α : Type} (l : List α) (x d : α) (n : Nat)
    (h : n = l.length) : (l ++ [x]).getD n d = x := by
  subst h
  exact getD_append_last l x d

theorem internNewSynonym_symNum (st0 : InternState) (u : Bytes) (canonId : Nat) :
    STR_SYMBOL (internNewSynonym st0 u canonId).1 (internNewSynonym st0 u canonId).2
      = STR_SYMBOL st0 canonId
    ∧ STR_SYMBOL (internNewSynonym st0 u canonId).1 canonId = STR_SYMBOL st0 canonId := by
  constructor
  · show (List.getD ((st0.syms.set canonId
        { symOf st0 canonId with synonym := st0.syms.length })
        ++ [(⟨u, (symOf st0 canonId).synonym, false,
          (symOf st0 canonId).symNum, 0, 0⟩ : SymData)])
          st0.syms.length default).symNum
      = (symOf st0 canonId).symNum
    have hlen : (st0.syms.set canonId
        { symOf st0 canonId with synonym := st0.syms.length }).length
        = st0.syms.length := List.length_set _ _ _
    rw [getD_append_last_of_eq _ _ _ _ hlen.symm]
  · show (List.getD ((st0.syms.set canonId
        { symOf st0 canonId with synonym := st0.syms.length })
        ++ [(⟨u, (symOf st0 canonId).synonym, false,
          (symOf st0 canonId).symNum, 0, 0⟩ : SymData)])
          canonId default).symNum
      = (symOf st0 canonId).symNum
    by_cases hlt : canonId < st0.syms.length
    · rw [List.getD_append _ _ _ _ (by rw [List.length_set]; exact hlt)]
      rw [getD_set_self_d _ _ _ _ hlt]
    · by_cases heq : canonId = st0.syms.length
      · subst heq
        have hlen : (st0.syms.set st0.syms.length
            { symOf st0 st0.syms.length with synonym := st0.syms.length }).length
            = st0.syms.length := List.length_set _ _ _
        rw [getD_append_last_of_eq _ _ _ _ hlen.symm]
      · have hout : ((st0.syms.set canonId
            { symOf st0 canonId with synonym := st0.syms.length })
            ++ [(⟨u, (symOf st0 canonId).synonym, false,
              (symOf st0 canonId).symNum, 0, 0⟩ : SymData)]).length ≤ canonId := by
          rw [List.length_append, List.length_set]
          simp
          omega
        rw [List.getD_eq_default _ _ hout]
        have hout2 : st0.syms.length ≤ canonId := by omega
        show (default : SymData).symNum = (st0.syms.getD canonId default).symNum
        rw [List.getD_eq_default _ _ hout2]

theorem startupFold_counter :
    ∀ (words : List Nat) (p : InternState × Nat),
      (words.foldl startupStep p).2 = p.2 + words.length := by
  intro words
  induction words with
  | nil =>
      intro p
      rfl
  | cons w wrest ih =>
      intro p
      rw [List.foldl_cons, ih]
      show (p.2 + 1) + wrest.length = p.2 + (wrest.length + 1)
      omega

/-- C10 (implicit claim): every interned symbol reports the same well-known
symbol number as its canon.  A freshly interned synonym inherits the
canon's SYM number from the header's second uint16 — and the canon keeps
its own.  Startup_Symbols numbers the %words.r canons from 1 upward and
tags every member of each canon's synonym ring with the canon's number, so
after it runs, symbol_of(s) = symbol_of(canon(s)) for every ring member,
while symbols outside the tagged rings keep their numbers (SYM_0 for
non-indexed ones); the SYM→canon lookup table has a trash 0 slot followed
by the canons in order, except that the final terminator write clobbers
the last canon's slot with NULL. -/
theorem C10_symbol_numbers {st : InternState} {words : List Nat} {rs : List (List Nat)}
    (hlen : rs.length = words.length)
    (hrings : ∀ i, i < rs.length → IsRing st (rs.getD i [])
        ∧ (rs.getD i []).headD 0 = words.getD i 0)
    (hdisj : (rs.flatMap id).Nodup) :
    (∀ (st0 : InternState) (u : Bytes) (canonId : Nat),
        STR_SYMBOL (internNewSynonym st0 u canonId).1 (internNewSynonym st0 u canonId).2
          = STR_SYMBOL st0 canonId
        ∧ STR_SYMBOL (internNewSynonym st0 u canonId).1 canonId = STR_SYMBOL st0 canonId)
    ∧ (Startup_Symbols st words).2 = (none :: words.map some).set words.length none
    ∧ (∀ i, i < rs.length → ∀ a ∈ rs.getD i [],
        STR_SYMBOL (Startup_Symbols st words).1 a = i + 1
        ∧ STR_CANON (Startup_Symbols st words).1 a = words.getD i 0
        ∧ STR_SYMBOL (Startup_Symbols st words).1 a
            = STR_SYMBOL (Startup_Symbols st words).1
                (STR_CANON (Startup_Symbols st words).1 a))
    ∧ (∀ x, (∀ i, i < rs.length → x ∉ rs.getD i []) →
        STR_SYMBOL (Startup_Symbols st words).1 x = STR_SYMBOL st x) := by
  obtain ⟨flen, ftab, fslots, fmem, fout⟩ :=
    startupFold_spec rs words st 0 hlen hrings hdisj
  have hfin : (Startup_Symbols st words).1 = (words.foldl startupStep (st, 0)).1 := rfl
  refine ⟨fun st0 u canonId => internNewSynonym_symNum st0 u canonId, ?_, ?_, ?_⟩
  · show (none :: words.map some).set (words.foldl startupStep (st, 0)).2 none
      = (none :: words.map some).set words.length none
    rw [startupFold_counter words (st, 0), Nat.zero_add]
  · intro i hi a ha
    have hfieldsF : ∀ x,
        (symOf (Startup_Symbols st words).1 x).synonym = (symOf st x).synonym
        ∧ (symOf (Startup_Symbols st words).1 x).canonFlag = (symOf st x).canonFlag
        ∧ (symOf (Startup_Symbols st words).1 x).str = (symOf st x).str := by
      intro x
      by_cases hx : ∃ j, j < rs.length ∧ x ∈ rs.getD j []
      · obtain ⟨j, hj, hxj⟩ := hx
        rw [hfin, fmem j hj x hxj]
        exact ⟨rfl, rfl, rfl⟩
      · rw [hfin, fout x (fun j hj hmem => hx ⟨j, hj, hmem⟩)]
        exact ⟨rfl, rfl, rfl⟩
    have hringF : IsRing (Startup_Symbols st words).1 (rs.getD i []) :=
      IsRing_congr (by rw [hfin]; exact ftab) (by rw [hfin]; exact flen)
        (fun x => (hfieldsF x).1) (fun x => (hfieldsF x).2.1)
        (fun x => (hfieldsF x).2.2) (hrings i hi).1
    have hcanon : STR_CANON (Startup_Symbols st words).1 a = (rs.getD i []).headD 0 :=
      STR_CANON_ring hringF ha
    have hsym : STR_SYMBOL (Startup_Symbols st words).1 a = i + 1 := by
      show (symOf (Startup_Symbols st words).1 a).symNum = i + 1
      rw [hfin, fmem i hi a ha]
      simp
    have hheadmem : (rs.getD i []).headD 0 ∈ rs.getD i [] :=
      headD_mem (hrings i hi).1.ne
    have hsymc : STR_SYMBOL (Startup_Symbols st words).1 ((rs.getD i []).headD 0)
        = i + 1 := by
      show (symOf (Startup_Symbols st words).1 ((rs.getD i []).headD 0)).symNum = i + 1
      rw [hfin, fmem i hi _ hheadmem]
      simp
    refine ⟨hsym, ?_, ?_⟩
    · rw [hcanon]
      exact (hrings i hi).2
    · rw [hsym, hcanon, hsymc]
  · intro x hx
    show (symOf (Startup_Symbols st words).1 x).symNum = (symOf st x).symNum
    rw [hfin, fout x hx]

theorem C10_symbol_numbers_witness :
    (∀ i, i < ([[0, 1]] : List (List Nat)).length →
        IsRing ⟨[⟨[97], 1, true, 0, 0, 0⟩, ⟨[65], 0, false, 0, 0, 0⟩],
            [.occupied 0] ++ List.replicate 6 .vacant, 1⟩
          (([[0, 1]] : List (List Nat)).getD i [])
        ∧ ((([[0, 1]] : List (List Nat)).getD i []).headD 0
            = ([0] : List Nat).getD i 0))
    ∧ (STR_SYMBOL (Startup_Symbols ⟨[⟨[97], 1, true, 0, 0, 0⟩,
          ⟨[65], 0, false, 0, 0, 0⟩],
          [.occupied 0] ++ List.replicate 6 .vacant, 1⟩ [0]).1 1 = 0 + 1
       ∧ STR_CANON (Startup_Symbols ⟨[⟨[97], 1, true, 0, 0, 0⟩,
          ⟨[65], 0, false, 0, 0, 0⟩],
          [.occupied 0] ++ List.replicate 6 .vacant, 1⟩ [0]).1 1
          = ([0] : List Nat).getD 0 0
       ∧ STR_SYMBOL (Startup_Symbols ⟨[⟨[97], 1, true, 0, 0, 0⟩,
          ⟨[65], 0, false, 0, 0, 0⟩],
          [.occupied 0] ++ List.replicate 6 .vacant, 1⟩ [0]).1 1
          = STR_SYMBOL (Startup_Symbols ⟨[⟨[97], 1, true, 0, 0, 0⟩,
              ⟨[65], 0, false, 0, 0, 0⟩],
              [.occupied 0] ++ List.replicate 6 .vacant, 1⟩ [0]).1
              (STR_CANON (Startup_Symbols ⟨[⟨[97], 1, true, 0, 0, 0⟩,
                ⟨[65], 0, false, 0, 0, 0⟩],
                [.occupied 0] ++ List.replicate 6 .vacant, 1⟩ [0]).1 1)) := by
  have hr : ∀ i, i < ([[0, 1]] : List (List Nat)).length →
      IsRing ⟨[⟨[97], 1, true, 0, 0, 0⟩, ⟨[65], 0, false, 0, 0, 0⟩],
          [.occupied 0] ++ List.replicate 6 .vacant, 1⟩
        (([[0, 1]] : List (List Nat)).getD i [])
      ∧ ((([[0, 1]] : List (List Nat)).getD i []).headD 0
          = ([0] : List Nat).getD i 0) := by
    intro i hi
    match i, hi with
    | 0, _ =>
        refine ⟨⟨by decide, by decide, by decide, ?_, by decide, by decide, by decide,
          ⟨0, by decide⟩, by decide⟩, by decide⟩
        show List.Chain' _ ([0, 1] ++ [0, 1].take 1)
        rw [show ([0, 1] ++ [0, 1].take 1 : List Nat) = [0, 1, 0] from rfl,
          List.chain'_cons, List.chain'_cons]
        exact ⟨by decide, by decide, List.chain'_singleton _⟩
  have happ := @C10_symbol_numbers
     ⟨[⟨[97], 1, true, 0, 0, 0⟩, ⟨[65], 0, false, 0, 0, 0⟩],
       [.occupied 0] ++ List.replicate 6 .vacant, 1⟩ [0] [[0, 1]]
     rfl hr (by decide)
  have hinst := happ.2.2.1 0 (by decide) 1 (by decide)
  exact ⟨hr, hinst⟩

/-! ### C2: interner equivalence classes -/

theorem probe_pos_inj {L s j k : Nat} (hjk : j < k) (hk : k < L) :
    (s + j) % L ≠ (s + k) % L := by
  intro h
  have hmod : Nat.ModEq L j k := Nat.ModEq.add_left_cancel' s h
  have hdvd := (Nat.modEq_iff_dvd' (le_of_lt hjk)).1 hmod
  have hle := Nat.le_of_dvd (by omega) hdvd
  omega

theorem findVacant_spec :
    ∀ (fuel : Nat) (T : List Slot) (p v : Nat), p < T.length →
      findVacant T p fuel = some v →
      T.getD v .vacant = .vacant
      ∧ ∃ d, d < fuel ∧ v = (p + d) % T.length
        ∧ ∀ j, j < d → T.getD ((p + j) % T.length) .vacant ≠ .vacant := by
  intro fuel
  induction fuel with
  | zero =>
      intro T p v _ h
      simp [findVacant] at h
  | succ f ih =>
      intro T p v hp h
      have hL : 0 < T.length := Nat.lt_of_le_of_lt (Nat.zero_le p) hp
      rcases hT : T.getD p .vacant with _ | _ | c
      · have hstep : findVacant T p (f + 1)
            = match T.getD p .vacant with
              | Slot.vacant => some p
              | _ => findVacant T (nextSlot p T.length) f := rfl
        rw [hstep, hT] at h
        injection h with h
        subst h
        refine ⟨hT, 0, Nat.succ_pos f, ?_, fun j hj => absurd hj (by omega)⟩
        rw [Nat.add_zero, Nat.mod_eq_of_lt hp]
      · have hstep : findVacant T p (f + 1)
            = match T.getD p .vacant with
              | Slot.vacant => some p
              | _ => findVacant T (nextSlot p T.length) f := rfl
        rw [hstep, hT] at h
        have h2 : findVacant T (nextSlot p T.length) f = some v := h
        have hnext : nextSlot p T.length < T.length := Nat.mod_lt _ hL
        obtain ⟨hv, d, hd, hveq, hpre⟩ := ih T _ v hnext h2
        refine ⟨hv, d + 1, by omega, ?_, ?_⟩
        · rw [hveq]
          show (nextSlot p T.length + d) % T.length = (p + (d + 1)) % T.length
          unfold nextSlot
          rw [Nat.mod_add_mod]
          congr 1
          omega
        · intro j hj
          cases j with
          | zero =>
              rw [Nat.add_zero, Nat.mod_eq_of_lt hp, hT]
              intro hc
              cases hc
          | succ j2 =>
              have hpos : (p + (j2 + 1)) % T.length
                  = (nextSlot p T.length + j2) % T.length := by
                unfold nextSlot
                rw [Nat.mod_add_mod]
                congr 1
                omega
              rw [hpos]
              exact hpre j2 (by omega)
      · have hstep : findVacant T p (f + 1)
            = match T.getD p .vacant with
              | Slot.vacant => some p
              | _ => findVacant T (nextSlot p T.length) f := rfl
        rw [hstep, hT] at h
        have h2 : findVacant T (nextSlot p T.length) f = some v := h
        have hnext : nextSlot p T.length < T.length := Nat.mod_lt _ hL
        obtain ⟨hv, d, hd, hveq, hpre⟩ := ih T _ v hnext h2
        refine ⟨hv, d + 1, by omega, ?_, ?_⟩
        · rw [hveq]
          show (nextSlot p T.length + d) % T.length = (p + (d + 1)) % T.length
          unfold nextSlot
          rw [Nat.mod_add_mod]
          congr 1
          omega
        · intro j hj
          cases j with
          | zero =>
              rw [Nat.add_zero, Nat.mod_eq_of_lt hp, hT]
              intro hc
              cases hc
          | succ j2 =>
              have hpos : (p + (j2 + 1)) % T.length
                  = (nextSlot p T.length + j2) % T.length := by
                unfold nextSlot
                rw [Nat.mod_add_mod]
                congr 1
                omega
              rw [hpos]
              exact hpre j2 (by omega)

theorem symOf_congr {st st' : InternState} (h : st'.syms = st.syms) (x : Nat) :
    symOf st' x = symOf st x := by
  unfold symOf
  rw [h]

theorem strCanonWalk_congr {st st' : InternState} (h : st'.syms = st.syms) :
    ∀ (fuel id : Nat), strCanonWalk st' id fuel = strCanonWalk st id fuel := by
  intro fuel
  induction fuel with
  | zero =>
      intro id
      rfl
  | succ f ih =>
      intro id
      unfold strCanonWalk
      rw [symOf_congr h, ih]

theorem STR_CANON_congr {st st' : InternState} (h : st'.syms = st.syms) (id : Nat) :
    STR_CANON st' id = STR_CANON st id := by
  unfold STR_CANON
  rw [h, strCanonWalk_congr h]

theorem synList_congr {st st' : InternState} (h : st'.syms = st.syms) (c : Nat) :
    ∀ (fuel cur : Nat), synList st' c cur fuel = synList st c cur fuel := by
  intro fuel
  induction fuel with
  | zero =>
      intro cur
      rfl
  | succ f ih =>
      intro cur
      unfold synList
      rw [symOf_congr h, ih]

theorem ringOf_congr {st st' : InternState} (h : st'.syms = st.syms) (c : Nat) :
    ringOf st' c = ringOf st c := by
  unfold ringOf
  rw [symOf_congr h, h, synList_congr h]

theorem synList_path {st : InternState} {c : Nat} :
    ∀ (p : List Nat) (fuel : Nat), p.length < fuel → c ∉ p →
      List.Chain' (fun a b => (symOf st a).synonym = b) (p ++ [c]) →
      synList st c (p.headD c) fuel = p := by
  intro p
  induction p with
  | nil =>
      intro fuel hf _ _
      match fuel, hf with
      | f + 1, _ =>
          show synList st c c (f + 1) = []
          unfold synList
          rw [if_pos rfl]
  | cons a rest ih =>
      intro fuel hf hc hchain
      match fuel, hf with
      | f + 1, hf =>
          show synList st c a (f + 1) = a :: rest
          unfold synList
          rw [if_neg (fun hac => hc (by rw [← hac]; simp))]
          have hsyn : (symOf st a).synonym = rest.headD c := by
            cases rest with
            | nil => exact (List.chain'_cons.1 hchain).1
            | cons b rest2 => exact (List.chain'_cons.1 hchain).1
          rw [hsyn, ih f (by rw [List.length_cons] at hf; omega)
            (fun hm => hc (List.mem_cons_of_mem a hm)) hchain.tail]

theorem ringOf_eq {st : InternState} {r : List Nat} (hne : r ≠ []) (hnd : r.Nodup)
    (hb : ∀ a ∈ r, a < st.syms.length) (hl : ringLinks st r) :
    ringOf st (r.headD 0) = r := by
  obtain ⟨c, rest, rfl⟩ : ∃ c rest, r = c :: rest := by
    cases r with
    | nil => exact absurd rfl hne
    | cons c rest => exact ⟨c, rest, rfl⟩
  show ringOf st c = c :: rest
  unfold ringOf
  have hchain : List.Chain' (fun a b => (symOf st a).synonym = b) ((c :: rest) ++ [c]) := hl
  have hsyn : (symOf st c).synonym = rest.headD c := by
    cases rest with
    | nil => exact (List.chain'_cons.1 hchain).1
    | cons b rest2 => exact (List.chain'_cons.1 hchain).1
  rw [hsyn]
  have hlen : rest.length < st.syms.length + 1 := by
    have := nodup_bound_length hnd hb
    rw [List.length_cons] at this
    omega
  rw [synList_path rest (st.syms.length + 1) hlen
    (fun hm => (List.nodup_cons.1 hnd).1 hm) hchain.tail]

theorem STR_CANON_self {hash0 : Bytes → Nat} {st : InternState} (wf : WFIntern hash0 st)
    {c : Nat} (hc : c < st.syms.length) (hflag : (symOf st c).canonFlag = true) :
    STR_CANON st c = c := by
  obtain ⟨hr, hm⟩ := wf.rings c hc
  unfold ringOf at hm
  rcases List.mem_cons.1 hm with h1 | h2
  · exact h1.symm
  · have hf := hr.tailFlag c (by
      show c ∈ (ringOf st (STR_CANON st c)).tail
      unfold ringOf
      exact h2)
    rw [hflag] at hf
    cases hf

theorem canon_facts {hash0 : Bytes → Nat} {st : InternState} (wf : WFIntern hash0 st)
    {x : Nat} (hx : x < st.syms.length) :
    (symOf st (STR_CANON st x)).canonFlag = true
    ∧ caseFold (symOf st (STR_CANON st x)).str = caseFold (symOf st x).str
    ∧ (∃ slot, slotOf st slot = Slot.occupied (STR_CANON st x))
    ∧ STR_CANON st x < st.syms.length := by
  obtain ⟨hr, hm⟩ := wf.rings x hx
  have hh : (ringOf st (STR_CANON st x)).headD 0 = STR_CANON st x := rfl
  refine ⟨?_, ?_, ?_, ?_⟩
  · have := hr.headFlag
    rw [hh] at this
    exact this
  · have := hr.classEq x hm
    rw [hh] at this
    exact this.symm
  · have := hr.slotEx
    rw [hh] at this
    exact this
  · refine hr.bound _ ?_
    unfold ringOf
    simp

theorem intern_str_unique {hash0 : Bytes → Nat} {st : InternState}
    (wf : WFIntern hash0 st) {x y : Nat} (hx : x < st.syms.length)
    (hy : y < st.syms.length) (hs : (symOf st x).str = (symOf st y).str) : x = y := by
  obtain ⟨hrx, hmx⟩ := wf.rings x hx
  obtain ⟨hry, hmy⟩ := wf.rings y hy
  have hcc : STR_CANON st x = STR_CANON st y := by
    obtain ⟨hfx, hclx, ⟨sx, hsx⟩, _⟩ := canon_facts wf hx
    obtain ⟨hfy, hcly, ⟨sy, hsy⟩, _⟩ := canon_facts wf hy
    refine wf.classUnique sx sy _ _ hsx hsy ?_
    rw [hclx, hcly, hs]
  rw [hcc] at hmx
  by_contra hne
  have hpair : List.Pairwise (fun a b => (symOf st a).str ≠ (symOf st b).str)
      (ringOf st (STR_CANON st y)) := hry.strsNe
  have hsymm : Symmetric (fun a b => (symOf st a).str ≠ (symOf st b).str) := by
    intro a b hab he
    exact hab he.symm
  exact hpair.forall hsymm hmx hmy hne hs

theorem IsRing_congr_mem {st st' : InternState} {r : List Nat}
    (hlen : st.syms.length ≤ st'.syms.length)
    (hslot : ∀ c, (∃ slot, slotOf st slot = Slot.occupied c) →
      ∃ slot, slotOf st' slot = Slot.occupied c)
    (hsym : ∀ x ∈ r, symOf st' x = symOf st x)
    (hr : IsRing st r) : IsRing st' r := by
  obtain ⟨c, rest, rfl⟩ : ∃ c rest, r = c :: rest := by
    cases r with
    | nil => exact absurd rfl hr.ne
    | cons c rest => exact ⟨c, rest, rfl⟩
  refine ⟨hr.ne, hr.nodup, ?_, ?_, ?_, ?_, ?_, ?_, ?_⟩
  · intro a ha
    exact Nat.lt_of_lt_of_le (hr.bound a ha) hlen
  · show ringLinks st' (c :: rest)
    unfold ringLinks
    refine chain_congr_sources _ ?_ hr.links
    intro x hx y hxy
    have hxr : x ∈ c :: rest := by
      have hdl : ((c :: rest) ++ (c :: rest).take 1).dropLast = c :: rest := by
        rw [show (c :: rest).take 1 = [c] from rfl]
        exact List.dropLast_concat
      rw [hdl] at hx
      exact hx
    rw [hsym x hxr]
    exact hxy
  · show (symOf st' c).canonFlag = true
    rw [hsym c (by simp)]
    exact hr.headFlag
  · intro a ha
    rw [hsym a (List.mem_cons_of_mem c ha)]
    exact hr.tailFlag a ha
  · intro a ha
    show caseFold (symOf st' a).str = caseFold (symOf st' c).str
    rw [hsym a ha, hsym c (by simp)]
    exact hr.classEq a ha
  · exact hslot _ hr.slotEx
  · refine List.Pairwise.imp_of_mem ?_ hr.strsNe
    intro a b ha hb h
    rw [hsym a ha, hsym b hb]
    exact h

theorem ringFindExact_walk {st : InternState} {c : Nat} {u : Bytes} :
    ∀ (p : List Nat) (fuel : Nat), p.length < fuel → c ∉ p →
      List.Chain' (fun a b => (symOf st a).synonym = b) (p ++ [c]) →
      (∀ syn, ringFindExact st c u (p.headD c) fuel = some syn →
        syn ∈ p ∧ (symOf st syn).str = u)
      ∧ (ringFindExact st c u (p.headD c) fuel = none →
        ∀ a ∈ p, (symOf st a).str ≠ u) := by
  intro p
  induction p with
  | nil =>
      intro fuel hf _ _
      match fuel, hf with
      | f + 1, _ =>
          have h0 : ringFindExact st c u c (f + 1) = none := by
            unfold ringFindExact
            rw [if_pos rfl]
          constructor
          · intro syn h
            rw [show ([] : List Nat).headD c = c from rfl, h0] at h
            cases h
          · intro _ a ha
            cases ha
  | cons a rest ih =>
      intro fuel hf hc hchain
      match fuel, hf with
      | f + 1, hf =>
          have hac : ¬ (a = c) := fun h => hc (by rw [← h]; simp)
          have hsyn : (symOf st a).synonym = rest.headD c := by
            cases rest with
            | nil => exact (List.chain'_cons.1 hchain).1
            | cons b r2 => exact (List.chain'_cons.1 hchain).1
          have hstep0 : ringFindExact st c u a (f + 1)
              = if a = c then none
                else if (symOf st a).str = u then some a
                else ringFindExact st c u (symOf st a).synonym f := rfl
          have hstep : ringFindExact st c u ((a :: rest).headD c) (f + 1)
              = if (symOf st a).str = u then some a
                else ringFindExact st c u (rest.headD c) f := by
            show ringFindExact st c u a (f + 1) = _
            rw [hstep0, if_neg hac, hsyn]
          have hrest := ih f (by rw [List.length_cons] at hf; omega)
            (fun hm => hc (List.mem_cons_of_mem a hm)) hchain.tail
          constructor
          · intro syn h
            rw [hstep] at h
            by_cases hsu : (symOf st a).str = u
            · rw [if_pos hsu] at h
              injection h with h
              subst h
              exact ⟨by simp, hsu⟩
            · rw [if_neg hsu] at h
              obtain ⟨hm, hs⟩ := hrest.1 syn h
              exact ⟨List.mem_cons_of_mem a hm, hs⟩
          · intro h b hb
            rw [hstep] at h
            by_cases hsu : (symOf st a).str = u
            · rw [if_pos hsu] at h
              cases h
            · rw [if_neg hsu] at h
              rcases List.mem_cons.1 hb with h1 | h2
              · rw [h1]
                exact hsu
              · exact hrest.2 h b h2

theorem filter_length_set {α : Type} (p : α → Bool) :
    ∀ (T : List α) (w : Nat) (v d : α), w < T.length →
      (if p (T.getD w d) then 1 else 0) + ((T.set w v).filter p).length
        = (if p v then 1 else 0) + (T.filter p).length := by
  intro T
  induction T with
  | nil =>
      intro w v d hw
      simp at hw
  | cons a t ih =>
      intro w v d hw
      cases w with
      | zero =>
          show (if p a then 1 else 0) + ((v :: t).filter p).length
            = (if p v then 1 else 0) + ((a :: t).filter p).length
          rw [List.filter_cons, List.filter_cons]
          by_cases pa : p a <;> by_cases pv : p v <;> simp [pa, pv] <;> omega
      | succ w2 =>
          have hw2 : w2 < t.length := by
            rw [List.length_cons] at hw
            omega
          have hset : (a :: t).set (w2 + 1) v = a :: t.set w2 v := rfl
          have hgd : (a :: t).getD (w2 + 1) d = t.getD w2 d := rfl
          rw [hset, hgd, List.filter_cons, List.filter_cons]
          have hih := ih w2 v d hw2
          by_cases pa : p a = true
          · rw [if_pos pa, if_pos pa, List.length_cons, List.length_cons]
            omega
          · rw [if_neg pa, if_neg pa]
            omega

theorem count_partition : ∀ (T : List Slot),
    (T.filter (fun s => !(s = Slot.vacant : Bool))).length
      = (T.filter Slot.isOccupied).length + (T.filter Slot.isDeleted).length := by
  intro T
  induction T with
  | nil => rfl
  | cons s t ih =>
      cases s with
      | vacant => exact ih
      | deletedCanon =>
          show (t.filter (fun s => !(s = Slot.vacant : Bool))).length + 1
            = (t.filter Slot.isOccupied).length + ((t.filter Slot.isDeleted).length + 1)
          omega
      | occupied c =>
          show (t.filter (fun s => !(s = Slot.vacant : Bool))).length + 1
            = ((t.filter Slot.isOccupied).length + 1) + (t.filter Slot.isDeleted).length
          omega

theorem occIds_length : ∀ (l : List Slot),
    (occIds l).length = (l.filter Slot.isOccupied).length := by
  intro l
  induction l with
  | nil => rfl
  | cons s t ih =>
      cases s with
      | vacant => exact ih
      | deletedCanon => exact ih
      | occupied c =>
          show (occIds t).length + 1 = (t.filter Slot.isOccupied).length + 1
          omega

theorem mem_occIds {l : List Slot} {c : Nat} : c ∈ occIds l ↔ Slot.occupied c ∈ l := by
  unfold occIds
  rw [List.mem_filterMap]
  constructor
  · rintro ⟨s, hs, he⟩
    cases s with
    | vacant => cases he
    | deletedCanon => cases he
    | occupied c2 =>
        injection he with he
        subst he
        exact hs
  · intro hm
    exact ⟨Slot.occupied c, hm, rfl⟩

theorem occIn_iff_mem {T : List Slot} {c : Nat} :
    occIn T c ↔ Slot.occupied c ∈ T := by
  constructor
  · rintro ⟨slot, hs⟩
    have hlt : slot < T.length := by
      by_contra hge
      rw [List.getD_eq_default _ _ (by omega)] at hs
      cases hs
    rw [List.getD_eq_getElem _ _ hlt] at hs
    rw [← hs]
    exact List.getElem_mem hlt
  · intro hm
    obtain ⟨i, hi, hieq⟩ := List.mem_iff_getElem.1 hm
    exact ⟨i, by rw [List.getD_eq_getElem _ _ hi]; exact hieq⟩

theorem occIds_nodup : ∀ (T : List Slot),
    (∀ s1 s2 c, T.getD s1 .vacant = .occupied c → T.getD s2 .vacant = .occupied c →
      s1 = s2) →
    (occIds T).Nodup := by
  intro T
  induction T with
  | nil =>
      intro _
      exact List.nodup_nil
  | cons s t ih =>
      intro hinj
      have hinjt : ∀ s1 s2 c, t.getD s1 .vacant = .occupied c →
          t.getD s2 .vacant = .occupied c → s1 = s2 := by
        intro s1 s2 c h1 h2
        have h1b : (s :: t).getD (s1 + 1) .vacant = .occupied c := h1
        have h2b : (s :: t).getD (s2 + 1) .vacant = .occupied c := h2
        have := hinj _ _ _ h1b h2b
        omega
      cases s with
      | vacant => exact ih hinjt
      | deletedCanon => exact ih hinjt
      | occupied c =>
          show (c :: occIds t).Nodup
          rw [List.nodup_cons]
          refine ⟨?_, ih hinjt⟩
          intro hm
          obtain ⟨i, hi, hieq⟩ := List.mem_iff_getElem.1 (mem_occIds.1 hm)
          have h1 : (Slot.occupied c :: t).getD 0 .vacant = .occupied c := rfl
          have h2 : (Slot.occupied c :: t).getD (i + 1) .vacant = .occupied c := by
            show t.getD i .vacant = .occupied c
            rw [List.getD_eq_getElem _ _ hi]
            exact hieq
          have := hinj _ _ _ h1 h2
          omega

theorem getD_replicate_vacant (n i : Nat) :
    (List.replicate n Slot.vacant).getD i .vacant = .vacant := by
  by_cases hi : i < n
  · rw [List.getD_eq_getElem _ _ (by simpa using hi)]
    simp
  · rw [List.getD_eq_default _ _ (by simp; omega)]

theorem filter_replicate_vacant : ∀ (n : Nat),
    (List.replicate n Slot.vacant).filter Slot.isOccupied = [] := by
  intro n
  induction n with
  | zero => rfl
  | succ k ih =>
      rw [List.replicate_succ, List.filter_cons]
      simp [Slot.isOccupied, ih]

theorem expandFold_wf (hash0 : Bytes → Nat) (st : InternState) (numSlots : Nat)
    (hpos : 0 < numSlots) :
    ∀ (l : List Slot) (T : List Slot) (n : Nat) (r : List Slot × Nat),
      List.foldlM (expandStep hash0 st numSlots) (T, n) l = Except.ok r →
      T.length = numSlots →
      (occIds l).Nodup →
      (∀ c ∈ occIds l, ¬ occIn T c) →
      (∀ s1 s2 c, T.getD s1 .vacant = .occupied c → T.getD s2 .vacant = .occupied c →
        s1 = s2) →
      TableChainOK hash0 st T →
      r.1.length = numSlots
      ∧ (r.1.filter Slot.isOccupied).length
          = (T.filter Slot.isOccupied).length + (occIds l).length
      ∧ (∀ c, occIn r.1 c ↔ (occIn T c ∨ c ∈ occIds l))
      ∧ (∀ s1 s2 c, r.1.getD s1 .vacant = .occupied c →
          r.1.getD s2 .vacant = .occupied c → s1 = s2)
      ∧ TableChainOK hash0 st r.1 := by
  intro l
  induction l with
  | nil =>
      intro T n r h hT _ _ hinj hchain
      injection h with h
      rw [← h]
      refine ⟨hT, rfl, ?_, hinj, hchain⟩
      intro c
      constructor
      · intro hc
        exact Or.inl hc
      · intro hc
        rcases hc with hc | hc
        · exact hc
        · simp [occIds] at hc
  | cons s rest ih =>
      intro T n r h hT hnd hfresh hinj hchain
      rw [List.foldlM_cons] at h
      cases s with
      | vacant =>
          have h2 : List.foldlM (expandStep hash0 st numSlots) (T, n) rest
              = Except.ok r := h
          have hoc : occIds (Slot.vacant :: rest) = occIds rest := rfl
          rw [hoc] at hnd hfresh ⊢
          exact ih T n r h2 hT hnd hfresh hinj hchain
      | deletedCanon =>
          have h2 : List.foldlM (expandStep hash0 st numSlots) (T, n - 1) rest
              = Except.ok r := h
          have hoc : occIds (Slot.deletedCanon :: rest) = occIds rest := rfl
          rw [hoc] at hnd hfresh ⊢
          exact ih T (n - 1) r h2 hT hnd hfresh hinj hchain
      | occupied c =>
          have hstep : expandStep hash0 st numSlots (T, n) (Slot.occupied c)
              = (match findVacant T (hashString hash0 (symOf st c).str % numSlots)
                    numSlots with
                | none => throw InternFail.probeOverflow
                | some v => pure (T.set v (Slot.occupied c), n)) := rfl
          rw [hstep] at h
          rcases hfv : findVacant T (hashString hash0 (symOf st c).str % numSlots)
              numSlots with _ | v
          · rw [hfv] at h
            cases h
          · rw [hfv] at h
            have h2 : List.foldlM (expandStep hash0 st numSlots)
                (T.set v (Slot.occupied c), n) rest = Except.ok r := h
            have hTpos : 0 < T.length := by
              rw [hT]
              exact hpos
            have hplt : hashString hash0 (symOf st c).str % numSlots < T.length := by
              rw [hT]
              exact Nat.mod_lt _ hpos
            obtain ⟨hvv, d, hd, hveq, hpre⟩ := findVacant_spec numSlots T _ v hplt hfv
            have hvlt : v < T.length := by
              rw [hveq]
              exact Nat.mod_lt _ hTpos
            have hoc : occIds (Slot.occupied c :: rest) = c :: occIds rest := rfl
            rw [hoc] at hnd hfresh ⊢
            have hcrest : c ∉ occIds rest := (List.nodup_cons.1 hnd).1
            have hndrest : (occIds rest).Nodup := (List.nodup_cons.1 hnd).2
            have hcfresh : ¬ occIn T c := hfresh c (by simp)
            have hT2len : (T.set v (Slot.occupied c)).length = numSlots := by
              rw [List.length_set]
              exact hT
            have hgetT2 : ∀ s2, s2 ≠ v →
                (T.set v (Slot.occupied c)).getD s2 .vacant = T.getD s2 .vacant := by
              intro s2 hs2
              exact getD_set_ne_d T v s2 _ _ (fun hh => hs2 hh.symm)
            have hgetv : (T.set v (Slot.occupied c)).getD v .vacant = Slot.occupied c :=
              getD_set_self_d T v _ _ hvlt
            have hoccT2 : ∀ c2, occIn (T.set v (Slot.occupied c)) c2 ↔
                (occIn T c2 ∨ c2 = c) := by
              intro c2
              constructor
              · rintro ⟨slot, hs⟩
                by_cases hsv : slot = v
                · subst hsv
                  rw [hgetv] at hs
                  injection hs with hs
                  exact Or.inr hs.symm
                · rw [hgetT2 slot hsv] at hs
                  exact Or.inl ⟨slot, hs⟩
              · rintro (⟨slot, hs⟩ | hc2)
                · refine ⟨slot, ?_⟩
                  have hsv : slot ≠ v := by
                    intro hh
                    subst hh
                    rw [hs] at hvv
                    cases hvv
                  rw [hgetT2 slot hsv]
                  exact hs
                · subst hc2
                  exact ⟨v, hgetv⟩
            have hfresh2 : ∀ c2 ∈ occIds rest, ¬ occIn (T.set v (Slot.occupied c)) c2 := by
              intro c2 hc2 hocc
              rcases (hoccT2 c2).1 hocc with hold | hceq
              · exact hfresh c2 (List.mem_cons_of_mem c hc2) hold
              · rw [hceq] at hc2
                exact hcrest hc2
            have hinj2 : ∀ s1 s2 c2,
                (T.set v (Slot.occupied c)).getD s1 .vacant = .occupied c2 →
                (T.set v (Slot.occupied c)).getD s2 .vacant = .occupied c2 → s1 = s2 := by
              intro s1 s2 c2 h1 h2
              by_cases h1v : s1 = v <;> by_cases h2v : s2 = v
              · rw [h1v, h2v]
              · subst h1v
                rw [hgetv] at h1
                injection h1 with h1
                rw [hgetT2 s2 h2v] at h2
                rw [← h1] at h2
                exact absurd ⟨s2, h2⟩ hcfresh
              · subst h2v
                rw [hgetv] at h2
                injection h2 with h2
                rw [hgetT2 s1 h1v] at h1
                rw [← h2] at h1
                exact absurd ⟨s1, h1⟩ hcfresh
              · rw [hgetT2 s1 h1v] at h1
                rw [hgetT2 s2 h2v] at h2
                exact hinj s1 s2 c2 h1 h2
            have hchain2 : TableChainOK hash0 st (T.set v (Slot.occupied c)) := by
              intro slot c2 hs
              by_cases hsv : slot = v
              · rw [hsv] at hs ⊢
                rw [hgetv] at hs
                injection hs with hs
                subst hs
                refine ⟨d, ?_, ?_, ?_⟩
                · rw [List.length_set, hT]
                  omega
                · rw [List.length_set]
                  rw [hT] at hveq ⊢
                  exact hveq
                · intro j hj
                  rw [List.length_set, hT]
                  by_cases hjv :
                      (hashString hash0 (symOf st c).str % numSlots + j) % numSlots = v
                  · rw [hjv, hgetv]
                    intro hcon
                    cases hcon
                  · rw [hgetT2 _ hjv]
                    have hpj := hpre j hj
                    rw [hT] at hpj
                    exact hpj
              · rw [hgetT2 slot hsv] at hs
                obtain ⟨d2, hd2, hslot2, hpre2⟩ := hchain slot c2 hs
                refine ⟨d2, ?_, ?_, ?_⟩
                · rw [List.length_set]
                  exact hd2
                · rw [List.length_set]
                  exact hslot2
                · intro j hj
                  rw [List.length_set]
                  by_cases hjv :
                      (hashString hash0 (symOf st c2).str % T.length + j) % T.length = v
                  · rw [hjv, hgetv]
                    intro hcon
                    cases hcon
                  · rw [hgetT2 _ hjv]
                    exact hpre2 j hj
            obtain ⟨ihlen, ihcount, ihiff, ihinj, ihchain⟩ :=
              ih (T.set v (Slot.occupied c)) n r h2 hT2len hndrest hfresh2 hinj2 hchain2
            refine ⟨ihlen, ?_, ?_, ihinj, ihchain⟩
            · have hcnt := filter_length_set Slot.isOccupied T v (Slot.occupied c)
                Slot.vacant hvlt
              rw [hvv] at hcnt
              simp [Slot.isOccupied] at hcnt
              rw [ihcount, List.length_cons]
              omega
            · intro c2
              rw [ihiff c2, hoccT2 c2]
              constructor
              · rintro ((hold | hceq) | hrest2)
                · exact Or.inl hold
                · exact Or.inr (by rw [hceq]; simp)
                · exact Or.inr (List.mem_cons_of_mem c hrest2)
              · rintro (hold | hmem)
                · exact Or.inl (Or.inl hold)
                · rcases List.mem_cons.1 hmem with hceq | hrest2
                  · exact Or.inl (Or.inr hceq)
                  · exact Or.inr hrest2

theorem Expand_ok_wf {hash0 : Bytes → Nat} {st st' : InternState}
    (wf : WFIntern hash0 st)
    (h : Expand_Word_Table hash0 st = Except.ok st') :
    WFIntern hash0 st' ∧ st'.syms = st.syms
    ∧ (∀ c, occIn st'.table c ↔ occIn st.table c) := by
  obtain ⟨h0, hlen, hnodel, huse, hsyms⟩ := Expand_ok_basic h
  have hpos : 0 < Get_Hash_Prime (st.table.length + 1) := by
    have := GHP_ge rfl h0
    omega
  have hred : Expand_Word_Table hash0 st
      = (List.foldlM (expandStep hash0 st (Get_Hash_Prime (st.table.length + 1)))
          (List.replicate (Get_Hash_Prime (st.table.length + 1)) Slot.vacant,
            st.slotsInUse) st.table) >>= fun result =>
          pure { st with table := result.1, slotsInUse := result.2 } := by
    unfold Expand_Word_Table
    rw [if_neg h0]
    rfl
  rw [hred] at h
  rcases hfold : List.foldlM (expandStep hash0 st (Get_Hash_Prime (st.table.length + 1)))
      (List.replicate (Get_Hash_Prime (st.table.length + 1)) Slot.vacant,
        st.slotsInUse) st.table with e | r
  · rw [hfold] at h
    cases h
  · rw [hfold] at h
    have h2 : ({ st with table := r.1, slotsInUse := r.2 } : InternState) = st' := by
      injection h
    obtain ⟨flen, fcount, fiff, finj, fchain⟩ :=
      expandFold_wf hash0 st _ hpos st.table _ _ r hfold
        (List.length_replicate _ _)
        (occIds_nodup st.table wf.occInj)
        (fun c _ hocc => by
          obtain ⟨slot, hs⟩ := hocc
          rw [getD_replicate_vacant] at hs
          cases hs)
        (fun s1 s2 c h1 => by rw [getD_replicate_vacant] at h1; cases h1)
        (fun slot c hs => by rw [getD_replicate_vacant] at hs; cases hs)
    have hiffT : ∀ c, occIn r.1 c ↔ occIn st.table c := by
      intro c
      rw [fiff c]
      constructor
      · rintro (⟨slot, hs⟩ | hm)
        · rw [getD_replicate_vacant] at hs
          cases hs
        · exact occIn_iff_mem.2 (mem_occIds.1 hm)
      · intro hocc
        exact Or.inr (mem_occIds.2 (occIn_iff_mem.1 hocc))
    subst h2
    refine ⟨⟨?_, ?_, ?_, ?_, ?_, ?_, ?_⟩, rfl, hiffT⟩
    · show 0 < r.1.length
      rw [flen]
      exact hpos
    · show r.2 = nonVacantCount { st with table := r.1, slotsInUse := r.2 }
      have e1 : r.1.filter (fun s => !(s = Slot.vacant : Bool))
          = r.1.filter Slot.isOccupied := by
        refine List.filter_congr ?_
        intro s hs
        have hd := hnodel s hs
        cases s with
        | vacant => rfl
        | deletedCanon => exact absurd rfl hd
        | occupied c2 => rfl
      show r.2 = (r.1.filter (fun s => !(s = Slot.vacant : Bool))).length
      rw [e1]
      have e2 := fcount
      rw [occIds_length] at e2
      have e3 : ((List.replicate (Get_Hash_Prime (st.table.length + 1))
          Slot.vacant).filter Slot.isOccupied).length = 0 := by
        rw [filter_replicate_vacant]
        rfl
      have e4 := count_partition st.table
      have e5 := wf.countEq
      unfold nonVacantCount at e5
      have e6 : r.2 = st.slotsInUse - deletedCount st := huse
      unfold deletedCount at e6
      unfold occupiedCount at e4
      omega
    · intro slot c hs
      obtain ⟨s0, hs0⟩ := (hiffT c).1 ⟨slot, hs⟩
      exact wf.occValid s0 c hs0
    · exact finj
    · intro s1 s2 c1 c2 hc1 hc2 hcf
      obtain ⟨t1, ht1⟩ := (hiffT c1).1 ⟨s1, hc1⟩
      obtain ⟨t2, ht2⟩ := (hiffT c2).1 ⟨s2, hc2⟩
      exact wf.classUnique t1 t2 c1 c2 ht1 ht2 hcf
    · exact fchain
    · intro x hx
      obtain ⟨hr0, hm0⟩ := wf.rings x hx
      have hscan : STR_CANON { st with table := r.1, slotsInUse := r.2 } x
          = STR_CANON st x :=
        @STR_CANON_congr st { st with table := r.1, slotsInUse := r.2 } rfl x
      have hrof : ringOf { st with table := r.1, slotsInUse := r.2 } (STR_CANON st x)
          = ringOf st (STR_CANON st x) :=
        @ringOf_congr st { st with table := r.1, slotsInUse := r.2 } rfl _
      rw [hscan, hrof]
      refine ⟨@IsRing_congr_mem st { st with table := r.1, slotsInUse := r.2 } _
        (le_of_eq rfl) ?_
        (fun y _ => @symOf_congr st { st with table := r.1, slotsInUse := r.2 } rfl y)
        hr0, hm0⟩
      intro c hex
      obtain ⟨sl, hsl⟩ := hex
      obtain ⟨sl2, hsl2⟩ := (hiffT c).2 ⟨sl, hsl⟩
      exact ⟨sl2, hsl2⟩

theorem internLoop_found {st : InternState} {u : Bytes} {h slotc c : Nat}
    (hocc : slotOf st slotc = Slot.occupied c)
    (hclass : caseFold (symOf st c).str = caseFold u)
    (hinj : ∀ s1 s2 c2, slotOf st s1 = Slot.occupied c2 →
      slotOf st s2 = Slot.occupied c2 → s1 = s2)
    (hcu : ∀ s2 c2, slotOf st s2 = Slot.occupied c2 →
      caseFold (symOf st c2).str = caseFold u → c2 = c)
    {d : Nat} (hdL : d < st.table.length)
    (hslotc : slotc = (h + d) % st.table.length)
    (hpre : ∀ j, j < d → slotOf st ((h + j) % st.table.length) ≠ Slot.vacant) :
    ∀ (fuel i : Nat) (ds : Option Nat) (res : InternState × Nat),
      i ≤ d →
      internLoop st u ((h + i) % st.table.length) ds fuel = Except.ok res →
      ((symOf st c).str = u ∧ res = (st, c))
      ∨ (∃ syn, (symOf st c).str ≠ u
          ∧ ringFindExact st c u (symOf st c).synonym (st.syms.length + 1) = some syn
          ∧ res = (st, syn))
      ∨ ((symOf st c).str ≠ u
          ∧ ringFindExact st c u (symOf st c).synonym (st.syms.length + 1) = none
          ∧ res = internNewSynonym st u c) := by
  intro fuel
  induction fuel with
  | zero =>
      intro i ds res _ hrun
      have h0 : internLoop st u ((h + i) % st.table.length) ds 0
          = Except.error InternFail.probeOverflow := rfl
      rw [h0] at hrun
      cases hrun
  | succ f ihf =>
      intro i ds res hi hrun
      by_cases hid : i = d
      · have hpos2 : (h + i) % st.table.length = slotc := by
          rw [hid, hslotc]
        rw [hpos2] at hrun
        have hstep : internLoop st u slotc ds (f + 1)
            = (match slotOf st slotc with
              | Slot.vacant => pure (internNewCanon st u slotc ds)
              | Slot.deletedCanon =>
                  internLoop st u (nextSlot slotc st.table.length) (some slotc) f
              | Slot.occupied c2 =>
                  let cmp := compareUTF8 (symOf st c2).str u
                  if cmp = 0 then pure (st, c2)
                  else if cmp < 0 then
                    internLoop st u (nextSlot slotc st.table.length) ds f
                  else
                    match ringFindExact st c2 u (symOf st c2).synonym
                        (st.syms.length + 1) with
                    | some syn => pure (st, syn)
                    | none => pure (internNewSynonym st u c2)) := rfl
        rw [hstep, hocc] at hrun
        have hrun2 : (if compareUTF8 (symOf st c).str u = 0
              then (pure (st, c) : Except InternFail (InternState × Nat))
              else if compareUTF8 (symOf st c).str u < 0 then
                internLoop st u (nextSlot slotc st.table.length) ds f
              else
                match ringFindExact st c u (symOf st c).synonym
                    (st.syms.length + 1) with
                | some syn => pure (st, syn)
                | none => pure (internNewSynonym st u c)) = Except.ok res := hrun
        by_cases hs0 : (symOf st c).str = u
        · have hc0 : compareUTF8 (symOf st c).str u = 0 := by
            unfold compareUTF8
            rw [if_pos hs0]
          rw [hc0, if_pos rfl] at hrun2
          injection hrun2 with hrun2
          exact Or.inl ⟨hs0, hrun2.symm⟩
        · have hc1 : compareUTF8 (symOf st c).str u = 1 := by
            unfold compareUTF8
            rw [if_neg hs0, if_pos hclass]
          rw [hc1, if_neg (by decide), if_neg (by decide)] at hrun2
          rcases hrf : ringFindExact st c u (symOf st c).synonym (st.syms.length + 1)
              with _ | syn
          · rw [hrf] at hrun2
            injection hrun2 with hrun2
            exact Or.inr (Or.inr ⟨hs0, rfl, hrun2.symm⟩)
          · rw [hrf] at hrun2
            injection hrun2 with hrun2
            exact Or.inr (Or.inl ⟨syn, hs0, rfl, hrun2.symm⟩)
      · have hilt : i < d := lt_of_le_of_ne hi hid
        have hne2 : (h + i) % st.table.length ≠ slotc := by
          rw [hslotc]
          exact probe_pos_inj hilt hdL
        have hnv := hpre i hilt
        have hnext : nextSlot ((h + i) % st.table.length) st.table.length
            = (h + (i + 1)) % st.table.length := by
          unfold nextSlot
          rw [Nat.mod_add_mod, Nat.add_assoc]
        have hstep : internLoop st u ((h + i) % st.table.length) ds (f + 1)
            = (match slotOf st ((h + i) % st.table.length) with
              | Slot.vacant =>
                  pure (internNewCanon st u ((h + i) % st.table.length) ds)
              | Slot.deletedCanon =>
                  internLoop st u
                    (nextSlot ((h + i) % st.table.length) st.table.length)
                    (some ((h + i) % st.table.length)) f
              | Slot.occupied c2 =>
                  let cmp := compareUTF8 (symOf st c2).str u
                  if cmp = 0 then pure (st, c2)
                  else if cmp < 0 then
                    internLoop st u
                      (nextSlot ((h + i) % st.table.length) st.table.length) ds f
                  else
                    match ringFindExact st c2 u (symOf st c2).synonym
                        (st.syms.length + 1) with
                    | some syn => pure (st, syn)
                    | none => pure (internNewSynonym st u c2)) := rfl
        rw [hstep] at hrun
        rcases hsl : slotOf st ((h + i) % st.table.length) with _ | _ | c2
        · exact absurd hsl hnv
        · rw [hsl, hnext] at hrun
          exact ihf (i + 1) _ res (by omega) hrun
        · rw [hsl] at hrun
          have hc2c : c2 ≠ c := by
            intro hcc
            rw [hcc] at hsl
            exact hne2 (hinj _ _ _ hsl hocc)
          have hclass2 : caseFold (symOf st c2).str ≠ caseFold u := by
            intro hcf
            exact hc2c (hcu _ _ hsl hcf)
          have hs2 : (symOf st c2).str ≠ u := by
            intro hsu
            exact hclass2 (by rw [hsu])
          have hcm1 : compareUTF8 (symOf st c2).str u = -1 := by
            unfold compareUTF8
            rw [if_neg hs2, if_neg hclass2]
          have hrun2 : (if compareUTF8 (symOf st c2).str u = 0
                then (pure (st, c2) : Except InternFail (InternState × Nat))
                else if compareUTF8 (symOf st c2).str u < 0 then
                  internLoop st u
                    (nextSlot ((h + i) % st.table.length) st.table.length) ds f
                else
                  match ringFindExact st c2 u (symOf st c2).synonym
                      (st.syms.length + 1) with
                  | some syn => pure (st, syn)
                  | none => pure (internNewSynonym st u c2)) = Except.ok res := hrun
          rw [hcm1, if_neg (by decide), if_pos (by decide), hnext] at hrun2
          exact ihf (i + 1) ds res (by omega) hrun2

theorem internLoop_new {st : InternState} {u : Bytes} {h : Nat}
    (hclassless : ∀ s2 c2, slotOf st s2 = Slot.occupied c2 →
      caseFold (symOf st c2).str ≠ caseFold u) :
    ∀ (fuel i : Nat) (ds : Option Nat) (res : InternState × Nat),
      fuel + i = st.table.length →
      (∀ j, j < i → slotOf st ((h + j) % st.table.length) ≠ Slot.vacant) →
      (ds = none ∨ ∃ dd, dd < i ∧ ds = some ((h + dd) % st.table.length)
        ∧ slotOf st ((h + dd) % st.table.length) = Slot.deletedCanon) →
      internLoop st u ((h + i) % st.table.length) ds fuel = Except.ok res →
      ∃ w dw, dw < st.table.length ∧ w = (h + dw) % st.table.length
        ∧ (∀ j, j < dw → slotOf st ((h + j) % st.table.length) ≠ Slot.vacant)
        ∧ ((slotOf st w = Slot.vacant
            ∧ res = ({ st with
                syms := st.syms ++ [⟨u, st.syms.length, true, 0, 0, 0⟩]
                , table := st.table.set w (Slot.occupied st.syms.length)
                , slotsInUse := st.slotsInUse + 1 }, st.syms.length))
          ∨ (slotOf st w = Slot.deletedCanon
            ∧ res = ({ st with
                syms := st.syms ++ [⟨u, st.syms.length, true, 0, 0, 0⟩]
                , table := st.table.set w (Slot.occupied st.syms.length) },
                st.syms.length))) := by
  intro fuel
  induction fuel with
  | zero =>
      intro i ds res _ _ _ hrun
      have h0 : internLoop st u ((h + i) % st.table.length) ds 0
          = Except.error InternFail.probeOverflow := rfl
      rw [h0] at hrun
      cases hrun
  | succ f ihf =>
      intro i ds res hfi hpre hds hrun
      have hstep : internLoop st u ((h + i) % st.table.length) ds (f + 1)
          = (match slotOf st ((h + i) % st.table.length) with
            | Slot.vacant =>
                pure (internNewCanon st u ((h + i) % st.table.length) ds)
            | Slot.deletedCanon =>
                internLoop st u
                  (nextSlot ((h + i) % st.table.length) st.table.length)
                  (some ((h + i) % st.table.length)) f
            | Slot.occupied c2 =>
                let cmp := compareUTF8 (symOf st c2).str u
                if cmp = 0 then pure (st, c2)
                else if cmp < 0 then
                  internLoop st u
                    (nextSlot ((h + i) % st.table.length) st.table.length) ds f
                else
                  match ringFindExact st c2 u (symOf st c2).synonym
                      (st.syms.length + 1) with
                  | some syn => pure (st, syn)
                  | none => pure (internNewSynonym st u c2)) := rfl
      rw [hstep] at hrun
      have hnext : nextSlot ((h + i) % st.table.length) st.table.length
          = (h + (i + 1)) % st.table.length := by
        unfold nextSlot
        rw [Nat.mod_add_mod, Nat.add_assoc]
      rcases hsl : slotOf st ((h + i) % st.table.length) with _ | _ | c2
      · rw [hsl] at hrun
        have hrun2 : (Except.ok (internNewCanon st u ((h + i) % st.table.length) ds)
            : Except InternFail (InternState × Nat)) = Except.ok res := hrun
        injection hrun2 with hrun2
        rcases hds with hdn | ⟨dd, hddi, hdse, hdsd⟩
        · refine ⟨(h + i) % st.table.length, i, by omega, rfl, hpre, Or.inl ⟨hsl, ?_⟩⟩
          rw [← hrun2, hdn]
          rfl
        · refine ⟨(h + dd) % st.table.length, dd, by omega, rfl,
            fun j hj => hpre j (by omega), Or.inr ⟨hdsd, ?_⟩⟩
          rw [← hrun2, hdse]
          rfl
      · rw [hsl, hnext] at hrun
        refine ihf (i + 1) _ res (by omega) ?_ ?_ hrun
        · intro j hj
          by_cases hji : j = i
          · rw [hji, hsl]
            intro hcon
            cases hcon
          · exact hpre j (by omega)
        · exact Or.inr ⟨i, by omega, rfl, hsl⟩
      · rw [hsl] at hrun
        have hclass2 : caseFold (symOf st c2).str ≠ caseFold u := hclassless _ _ hsl
        have hs2 : (symOf st c2).str ≠ u := by
          intro hsu
          exact hclass2 (by rw [hsu])
        have hcm1 : compareUTF8 (symOf st c2).str u = -1 := by
          unfold compareUTF8
          rw [if_neg hs2, if_neg hclass2]
        have hrun2 : (if compareUTF8 (symOf st c2).str u = 0
              then (pure (st, c2) : Except InternFail (InternState × Nat))
              else if compareUTF8 (symOf st c2).str u < 0 then
                internLoop st u
                  (nextSlot ((h + i) % st.table.length) st.table.length) ds f
              else
                match ringFindExact st c2 u (symOf st c2).synonym
                    (st.syms.length + 1) with
                | some syn => pure (st, syn)
                | none => pure (internNewSynonym st u c2)) = Except.ok res := hrun
        rw [hcm1, if_neg (by decide), if_pos (by decide), hnext] at hrun2
        refine ihf (i + 1) ds res (by omega) ?_ ?_ hrun2
        · intro j hj
          by_cases hji : j = i
          · rw [hji, hsl]
            intro hcon
            cases hcon
          · exact hpre j (by omega)
        · rcases hds with hdn | ⟨dd, hddi, hdse, hdsd⟩
          · exact Or.inl hdn
          · exact Or.inr ⟨dd, by omega, hdse, hdsd⟩

theorem chain_cons_headD {α : Type} {R : α → α → Prop} {a c : α} {l : List α}
    (h1 : R a (l.headD c)) (h2 : List.Chain' R (l ++ [c])) :
    List.Chain' R (a :: (l ++ [c])) := by
  cases l with
  | nil => exact List.chain'_cons.2 ⟨h1, h2⟩
  | cons b t => exact List.chain'_cons.2 ⟨h1, h2⟩

theorem canon_ring_shape {hash0 : Bytes → Nat} {st : InternState} (wf : WFIntern hash0 st)
    {c : Nat} (hc : c < st.syms.length) (hflag : (symOf st c).canonFlag = true) :
    IsRing st (ringOf st c)
    ∧ (symOf st c).synonym = (ringOf st c).tail.headD c
    ∧ c ∉ (ringOf st c).tail
    ∧ (ringOf st c).tail.length + 1 ≤ st.syms.length := by
  obtain ⟨hr, hm⟩ := wf.rings c hc
  rw [STR_CANON_self wf hc hflag] at hr
  have hnd : (c :: (ringOf st c).tail).Nodup := hr.nodup
  have hchain : List.Chain' (fun a b => (symOf st a).synonym = b)
      ((c :: (ringOf st c).tail) ++ [c]) := hr.links
  refine ⟨hr, ?_, (List.nodup_cons.1 hnd).1, ?_⟩
  · cases htl : (ringOf st c).tail with
    | nil =>
        rw [htl] at hchain
        exact (List.chain'_cons.1 hchain).1
    | cons b rest =>
        rw [htl] at hchain
        exact (List.chain'_cons.1 hchain).1
  · have := nodup_bound_length hr.nodup hr.bound
    have hlc : (ringOf st c).length = (ringOf st c).tail.length + 1 := rfl
    omega

theorem internNewSynonym_wf {hash0 : Bytes → Nat} {st : InternState} {u : Bytes} {c : Nat}
    (wf : WFIntern hash0 st) (hc : c < st.syms.length)
    (hflag : (symOf st c).canonFlag = true)
    (hclass : caseFold (symOf st c).str = caseFold u)
    (hneu : (symOf st c).str ≠ u)
    (hnotail : ∀ a ∈ (ringOf st c).tail, (symOf st a).str ≠ u)
    (hcu : ∀ s2 c2, slotOf st s2 = Slot.occupied c2 →
      caseFold (symOf st c2).str = caseFold u → c2 = c) :
    ∀ st' id, internNewSynonym st u c = (st', id) →
      WFIntern hash0 st'
      ∧ id < st'.syms.length
      ∧ (symOf st' id).str = u
      ∧ st.syms.length ≤ st'.syms.length
      ∧ (∀ x, x < st.syms.length → (symOf st' x).str = (symOf st x).str)
      ∧ (∀ x, x < st.syms.length → STR_CANON st' x = STR_CANON st x)
      ∧ (∀ id0, id0 < st.syms.length → (symOf st id0).str ≠ u)
      ∧ (∀ c2 slot2, slotOf st' slot2 = Slot.occupied c2 →
          caseFold (symOf st' c2).str = caseFold u → STR_CANON st' id = c2) := by
  intro st' id heq
  obtain ⟨hr0, hsyn0, hcnotl, hlen0⟩ := canon_ring_shape wf hc hflag
  simp only [internNewSynonym] at heq
  injection heq with heq1 heq2
  subst heq1
  subst heq2
  have hRlen : (((st.syms.set c { symOf st c with synonym := st.syms.length })
      ++ [(⟨u, (symOf st c).synonym, false, (symOf st c).symNum, 0, 0⟩ : SymData)])).length
      = st.syms.length + 1 := by
    rw [List.length_append, List.length_set]
    rfl
  have hsymA : ∀ x, x ≠ c → x < st.syms.length →
      symOf { st with syms := (st.syms.set c { symOf st c with synonym := st.syms.length })
        ++ [⟨u, (symOf st c).synonym, false, (symOf st c).symNum, 0, 0⟩] } x
      = symOf st x := by
    intro x hx hxlen
    show ((st.syms.set c { symOf st c with synonym := st.syms.length })
      ++ [(⟨u, (symOf st c).synonym, false, (symOf st c).symNum, 0, 0⟩ : SymData)]).getD
        x default = symOf st x
    rw [List.getD_append _ _ _ _ (by rw [List.length_set]; exact hxlen)]
    exact getD_set_ne_d st.syms c x _ _ (fun h => hx h.symm)
  have hsymC : symOf { st with
        syms := (st.syms.set c { symOf st c with synonym := st.syms.length })
          ++ [⟨u, (symOf st c).synonym, false, (symOf st c).symNum, 0, 0⟩] } c
      = { symOf st c with synonym := st.syms.length } := by
    show ((st.syms.set c { symOf st c with synonym := st.syms.length })
      ++ [(⟨u, (symOf st c).synonym, false, (symOf st c).symNum, 0, 0⟩ : SymData)]).getD
        c default = _
    rw [List.getD_append _ _ _ _ (by rw [List.length_set]; exact hc)]
    exact getD_set_self_d st.syms c _ _ hc
  have hsymN : symOf { st with
        syms := (st.syms.set c { symOf st c with synonym := st.syms.length })
          ++ [⟨u, (symOf st c).synonym, false, (symOf st c).symNum, 0, 0⟩] }
        st.syms.length
      = ⟨u, (symOf st c).synonym, false, (symOf st c).symNum, 0, 0⟩ := by
    show ((st.syms.set c { symOf st c with synonym := st.syms.length })
      ++ [(⟨u, (symOf st c).synonym, false, (symOf st c).symNum, 0, 0⟩ : SymData)]).getD
        st.syms.length default = _
    refine getD_append_last_of_eq _ _ default st.syms.length ?_
    rw [List.length_set]
  have hstr : ∀ x, x < st.syms.length →
      (symOf { st with
        syms := (st.syms.set c { symOf st c with synonym := st.syms.length })
          ++ [⟨u, (symOf st c).synonym, false, (symOf st c).symNum, 0, 0⟩] } x).str
      = (symOf st x).str := by
    intro x hxlen
    by_cases hx : x = c
    · rw [hx, hsymC]
    · rw [hsymA x hx hxlen]
  have hflagP : ∀ x, x < st.syms.length →
      (symOf { st with
        syms := (st.syms.set c { symOf st c with synonym := st.syms.length })
          ++ [⟨u, (symOf st c).synonym, false, (symOf st c).symNum, 0, 0⟩] } x).canonFlag
      = (symOf st x).canonFlag := by
    intro x hxlen
    by_cases hx : x = c
    · rw [hx, hsymC]
    · rw [hsymA x hx hxlen]
  have htlb : ∀ a ∈ (ringOf st c).tail, a < st.syms.length :=
    fun a ha => hr0.bound a (List.mem_cons_of_mem c ha)
  have htlf : ∀ a ∈ (ringOf st c).tail, (symOf st a).canonFlag = false :=
    fun a ha => hr0.tailFlag a ha
  have htlnd : (ringOf st c).tail.Nodup := (List.nodup_cons.1 hr0.nodup).2
  have hchain0 : List.Chain' (fun a b => (symOf st a).synonym = b)
      ((c :: (ringOf st c).tail) ++ [c]) := hr0.links
  have hclassEq0 : ∀ a ∈ (c :: (ringOf st c).tail),
      caseFold (symOf st a).str = caseFold (symOf st c).str := hr0.classEq
  have hoccC : ∃ slot, slotOf st slot = Slot.occupied c := by
    have hcf := canon_facts wf hc
    rw [STR_CANON_self wf hc hflag] at hcf
    exact hcf.2.2.1
  have hr' : IsRing { st with
      syms := (st.syms.set c { symOf st c with synonym := st.syms.length })
        ++ [⟨u, (symOf st c).synonym, false, (symOf st c).symNum, 0, 0⟩] }
      (c :: st.syms.length :: (ringOf st c).tail) := by
    refine ⟨?_, ?_, ?_, ?_, ?_, ?_, ?_, ?_, ?_⟩
    · intro hcon
      cases hcon
    · refine List.nodup_cons.2 ⟨?_, List.nodup_cons.2 ⟨?_, htlnd⟩⟩
      · intro hm
        rcases List.mem_cons.1 hm with hm | hm
        · omega
        · exact hcnotl hm
      · intro hm
        have := htlb _ hm
        omega
    · intro a ha
      rw [hRlen]
      rcases List.mem_cons.1 ha with ha | ha
      · omega
      · rcases List.mem_cons.1 ha with ha | ha
        · omega
        · have := htlb _ ha
          omega
    · show List.Chain' _ (c :: (st.syms.length :: ((ringOf st c).tail ++ [c])))
      refine List.chain'_cons.2 ⟨?_, ?_⟩
      · rw [hsymC]
      · refine chain_cons_headD ?_ ?_
        · show (symOf _ st.syms.length).synonym = _
          rw [hsymN]
          exact hsyn0
        · refine chain_congr_sources _ ?_ hchain0.tail
          intro x hx y hxy
          have hxtl : x ∈ (ringOf st c).tail := by
            rw [List.dropLast_concat] at hx
            exact hx
          rw [hsymA x (fun hh => hcnotl (hh ▸ hxtl)) (htlb x hxtl)]
          exact hxy
    · show (symOf _ c).canonFlag = true
      rw [hsymC]
      exact hflag
    · intro a ha
      rcases List.mem_cons.1 ha with ha | ha
      · rw [ha, hsymN]
      · rw [hsymA a (fun hh => hcnotl (hh ▸ ha)) (htlb a ha)]
        exact htlf a ha
    · intro a ha
      show caseFold (symOf _ a).str = caseFold (symOf _ c).str
      rcases List.mem_cons.1 ha with ha | ha
      · rw [ha]
      · rcases List.mem_cons.1 ha with ha | ha
        · rw [ha, hsymN, hsymC]
          exact hclass.symm
        · rw [hsymA a (fun hh => hcnotl (hh ▸ ha)) (htlb a ha), hsymC]
          exact hclassEq0 a (List.mem_cons_of_mem c ha)
    · obtain ⟨slot, hslot⟩ := hoccC
      exact ⟨slot, hslot⟩
    · refine List.pairwise_cons.2 ⟨?_, List.pairwise_cons.2 ⟨?_, ?_⟩⟩
      · intro a ha
        rcases List.mem_cons.1 ha with ha | ha
        · rw [ha, hsymC, hsymN]
          exact hneu
        · rw [hsymC, hsymA a (fun hh => hcnotl (hh ▸ ha)) (htlb a ha)]
          exact (List.pairwise_cons.1 hr0.strsNe).1 a ha
      · intro a ha
        rw [hsymN, hsymA a (fun hh => hcnotl (hh ▸ ha)) (htlb a ha)]
        exact fun hh => hnotail a ha hh.symm
      · refine List.Pairwise.imp_of_mem ?_ (List.pairwise_cons.1 hr0.strsNe).2
        intro a b ha hb hne3
        rw [hsymA a (fun hh => hcnotl (hh ▸ ha)) (htlb a ha),
          hsymA b (fun hh => hcnotl (hh ▸ hb)) (htlb b hb)]
        exact hne3
  have hcanR : ∀ x ∈ (c :: st.syms.length :: (ringOf st c).tail),
      STR_CANON { st with
        syms := (st.syms.set c { symOf st c with synonym := st.syms.length })
          ++ [⟨u, (symOf st c).synonym, false, (symOf st c).symNum, 0, 0⟩] } x = c :=
    fun x hx => STR_CANON_ring hr' hx
  have hrofR : ringOf { st with
      syms := (st.syms.set c { symOf st c with synonym := st.syms.length })
        ++ [⟨u, (symOf st c).synonym, false, (symOf st c).symNum, 0, 0⟩] } c
      = c :: st.syms.length :: (ringOf st c).tail :=
    ringOf_eq hr'.ne hr'.nodup hr'.bound hr'.links
  have hcanOld : ∀ x ∈ (c :: (ringOf st c).tail), STR_CANON st x = c :=
    fun x hx => STR_CANON_ring hr0 hx
  have hnonmem : ∀ x, x < st.syms.length → x ∉ (c :: (ringOf st c).tail) →
      IsRing { st with
        syms := (st.syms.set c { symOf st c with synonym := st.syms.length })
          ++ [⟨u, (symOf st c).synonym, false, (symOf st c).symNum, 0, 0⟩] }
        (ringOf st (STR_CANON st x))
      ∧ STR_CANON { st with
        syms := (st.syms.set c { symOf st c with synonym := st.syms.length })
          ++ [⟨u, (symOf st c).synonym, false, (symOf st c).symNum, 0, 0⟩] } x
        = STR_CANON st x
      ∧ x ∈ ringOf st (STR_CANON st x) := by
    intro x hxlen hxout
    obtain ⟨hrx, hmx⟩ := wf.rings x hxlen
    have hcnx : c ∉ ringOf st (STR_CANON st x) := by
      intro hcin
      rcases List.mem_cons.1 hcin with hch | hct
      · rw [← hch] at hmx
        exact hxout hmx
      · have := hrx.tailFlag c hct
        rw [hflag] at this
        cases this
    have hr2 : IsRing { st with
        syms := (st.syms.set c { symOf st c with synonym := st.syms.length })
          ++ [⟨u, (symOf st c).synonym, false, (symOf st c).symNum, 0, 0⟩] }
        (ringOf st (STR_CANON st x)) := by
      refine @IsRing_congr_mem st { st with
          syms := (st.syms.set c { symOf st c with synonym := st.syms.length })
            ++ [⟨u, (symOf st c).synonym, false, (symOf st c).symNum, 0, 0⟩] }
        (ringOf st (STR_CANON st x)) (by rw [hRlen]; omega) (fun c2 hex => hex) ?_ hrx
      intro y hy
      exact hsymA y (fun hh => hcnx (hh ▸ hy)) (hrx.bound y hy)
    have hc1 := STR_CANON_ring hr2 hmx
    have hc2 := STR_CANON_ring hrx hmx
    exact ⟨hr2, hc1.trans hc2.symm, hmx⟩
  have hnoexact : ∀ id0, id0 < st.syms.length → (symOf st id0).str ≠ u := by
    intro id0 hid0 hseq
    obtain ⟨hcfl, hccl, ⟨slot0, hslot0⟩, hclt⟩ := canon_facts wf hid0
    have hCc : STR_CANON st id0 = c := by
      refine hcu slot0 _ hslot0 ?_
      rw [hccl, hseq]
    obtain ⟨_, hmx⟩ := wf.rings id0 hid0
    rw [hCc] at hmx
    rcases List.mem_cons.1 hmx with hh | hh
    · rw [hh] at hseq
      exact hneu hseq
    · exact hnotail id0 hh hseq
  refine ⟨⟨wf.tableNE, wf.countEq, ?_, wf.occInj, ?_, ?_, ?_⟩, ?_, ?_, ?_, hstr, ?_,
    hnoexact, ?_⟩
  · intro slot c2 hs
    have hv := wf.occValid slot c2 hs
    refine ⟨by rw [hRlen]; omega, ?_⟩
    rw [hflagP c2 hv.1]
    exact hv.2
  · intro s1 s2 c1 c2 h1 h2 hcf
    have hv1 := wf.occValid s1 c1 h1
    have hv2 := wf.occValid s2 c2 h2
    rw [hstr c1 hv1.1, hstr c2 hv2.1] at hcf
    exact wf.classUnique s1 s2 c1 c2 h1 h2 hcf
  · intro slot c2 hs
    obtain ⟨d, hd, hsl, hpre⟩ := wf.probeChain slot c2 hs
    have hv := wf.occValid slot c2 hs
    refine ⟨d, hd, ?_, ?_⟩
    · show slot = (hashString hash0 (symOf _ c2).str % _ + d) % _
      rw [hstr c2 hv.1]
      exact hsl
    · intro j hj
      have h3 := hpre j hj
      show List.getD _ ((hashString hash0 (symOf _ c2).str % _ + j) % _) _ ≠ _
      rw [hstr c2 hv.1]
      exact h3
  · intro x hx
    rw [hRlen] at hx
    by_cases hxr : x ∈ (c :: st.syms.length :: (ringOf st c).tail)
    · rw [hcanR x hxr, hrofR]
      exact ⟨hr', hxr⟩
    · have hxlen : x < st.syms.length := by
        rcases Nat.lt_succ_iff_lt_or_eq.1 hx with hlt | heq3
        · exact hlt
        · exact absurd (by rw [heq3]; exact List.mem_cons_of_mem c (List.mem_cons_self _ _))
            hxr
      have hxout : x ∉ (c :: (ringOf st c).tail) := by
        intro hm
        rcases List.mem_cons.1 hm with hh | hh
        · exact hxr (by rw [hh]; exact List.mem_cons_self _ _)
        · exact hxr (List.mem_cons_of_mem c (List.mem_cons_of_mem _ hh))
      obtain ⟨hr2, hceq, hmem⟩ := hnonmem x hxlen hxout
      have hre : ringOf { st with
          syms := (st.syms.set c { symOf st c with synonym := st.syms.length })
            ++ [⟨u, (symOf st c).synonym, false, (symOf st c).symNum, 0, 0⟩] }
          (STR_CANON st x) = ringOf st (STR_CANON st x) :=
        ringOf_eq hr2.ne hr2.nodup hr2.bound hr2.links
      rw [hceq, hre]
      exact ⟨hr2, hmem⟩
  · rw [hRlen]
    omega
  · rw [hsymN]
  · rw [hRlen]
    omega
  · intro x hxlen
    by_cases hxold : x ∈ (c :: (ringOf st c).tail)
    · have hxr : x ∈ (c :: st.syms.length :: (ringOf st c).tail) := by
        rcases List.mem_cons.1 hxold with hh | hh
        · rw [hh]
          exact List.mem_cons_self _ _
        · exact List.mem_cons_of_mem c (List.mem_cons_of_mem _ hh)
      rw [hcanR x hxr, hcanOld x hxold]
    · exact (hnonmem x hxlen hxold).2.1
  · intro c2 slot2 hs2 hcf2
    have hv2 := wf.occValid slot2 c2 hs2
    rw [hstr c2 hv2.1] at hcf2
    have hc2c := hcu slot2 c2 hs2 hcf2
    rw [hcanR st.syms.length (List.mem_cons_of_mem c (List.mem_cons_self _ _))]
    exact hc2c.symm

theorem internNewCanon_wf {hash0 : Bytes → Nat} {st : InternState} {u : Bytes}
    {w dw siu : Nat} (wf : WFIntern hash0 st)
    (hclassless : ∀ s2 c2, slotOf st s2 = Slot.occupied c2 →
      caseFold (symOf st c2).str ≠ caseFold u)
    (hdw : dw < st.table.length)
    (hw : w = (hashString hash0 u % st.table.length + dw) % st.table.length)
    (hpre : ∀ j, j < dw → slotOf st ((hashString hash0 u % st.table.length + j)
      % st.table.length) ≠ Slot.vacant)
    (hsiu : (slotOf st w = Slot.vacant ∧ siu = st.slotsInUse + 1)
      ∨ (slotOf st w = Slot.deletedCanon ∧ siu = st.slotsInUse)) :
    WFIntern hash0 (⟨st.syms ++ [⟨u, st.syms.length, true, 0, 0, 0⟩],
        st.table.set w (Slot.occupied st.syms.length), siu⟩ : InternState)
    ∧ st.syms.length < (⟨st.syms ++ [⟨u, st.syms.length, true, 0, 0, 0⟩],
        st.table.set w (Slot.occupied st.syms.length), siu⟩ : InternState).syms.length
    ∧ (symOf (⟨st.syms ++ [⟨u, st.syms.length, true, 0, 0, 0⟩],
        st.table.set w (Slot.occupied st.syms.length), siu⟩ : InternState)
        st.syms.length).str = u
    ∧ st.syms.length ≤ (⟨st.syms ++ [⟨u, st.syms.length, true, 0, 0, 0⟩],
        st.table.set w (Slot.occupied st.syms.length), siu⟩ : InternState).syms.length
    ∧ (∀ x, x < st.syms.length →
        (symOf (⟨st.syms ++ [⟨u, st.syms.length, true, 0, 0, 0⟩],
          st.table.set w (Slot.occupied st.syms.length), siu⟩ : InternState) x).str
        = (symOf st x).str)
    ∧ (∀ x, x < st.syms.length →
        STR_CANON (⟨st.syms ++ [⟨u, st.syms.length, true, 0, 0, 0⟩],
          st.table.set w (Slot.occupied st.syms.length), siu⟩ : InternState) x
        = STR_CANON st x)
    ∧ (∀ id0, id0 < st.syms.length → (symOf st id0).str ≠ u)
    ∧ (∀ c2 slot2, slotOf (⟨st.syms ++ [⟨u, st.syms.length, true, 0, 0, 0⟩],
          st.table.set w (Slot.occupied st.syms.length), siu⟩ : InternState) slot2
          = Slot.occupied c2 →
        caseFold (symOf (⟨st.syms ++ [⟨u, st.syms.length, true, 0, 0, 0⟩],
          st.table.set w (Slot.occupied st.syms.length), siu⟩ : InternState) c2).str
          = caseFold u →
        STR_CANON (⟨st.syms ++ [⟨u, st.syms.length, true, 0, 0, 0⟩],
          st.table.set w (Slot.occupied st.syms.length), siu⟩ : InternState)
          st.syms.length = c2) := by
  have hL : 0 < st.table.length := wf.tableNE
  have hwlt : w < st.table.length := by
    rw [hw]
    exact Nat.mod_lt _ hL
  have hRlen : ((⟨st.syms ++ [⟨u, st.syms.length, true, 0, 0, 0⟩],
      st.table.set w (Slot.occupied st.syms.length), siu⟩ : InternState)).syms.length
      = st.syms.length + 1 := by
    show (st.syms ++ [(⟨u, st.syms.length, true, 0, 0, 0⟩ : SymData)]).length = _
    rw [List.length_append]
    rfl
  have hsymA : ∀ x, x < st.syms.length →
      symOf (⟨st.syms ++ [⟨u, st.syms.length, true, 0, 0, 0⟩],
        st.table.set w (Slot.occupied st.syms.length), siu⟩ : InternState) x
      = symOf st x := by
    intro x hxlen
    show (st.syms ++ [(⟨u, st.syms.length, true, 0, 0, 0⟩ : SymData)]).getD x default
      = symOf st x
    rw [List.getD_append _ _ _ _ hxlen]
    rfl
  have hsymN : symOf (⟨st.syms ++ [⟨u, st.syms.length, true, 0, 0, 0⟩],
      st.table.set w (Slot.occupied st.syms.length), siu⟩ : InternState) st.syms.length
      = ⟨u, st.syms.length, true, 0, 0, 0⟩ := by
    show (st.syms ++ [(⟨u, st.syms.length, true, 0, 0, 0⟩ : SymData)]).getD
      st.syms.length default = _
    exact getD_append_last _ _ _
  have hstr : ∀ x, x < st.syms.length →
      (symOf (⟨st.syms ++ [⟨u, st.syms.length, true, 0, 0, 0⟩],
        st.table.set w (Slot.occupied st.syms.length), siu⟩ : InternState) x).str
      = (symOf st x).str := by
    intro x hxlen
    rw [hsymA x hxlen]
  have hgetw : (st.table.set w (Slot.occupied st.syms.length)).getD w Slot.vacant
      = Slot.occupied st.syms.length := getD_set_self_d st.table w _ _ hwlt
  have hgetO : ∀ s2, s2 ≠ w →
      (st.table.set w (Slot.occupied st.syms.length)).getD s2 Slot.vacant
      = st.table.getD s2 Slot.vacant := by
    intro s2 hs2
    exact getD_set_ne_d st.table w s2 _ _ (fun hh => hs2 hh.symm)
  have hfresh : ∀ sl, slotOf st sl ≠ Slot.occupied st.syms.length := by
    intro sl hcon
    have := (wf.occValid sl _ hcon).1
    omega
  have hslC : ∀ sl c2, slotOf (⟨st.syms ++ [⟨u, st.syms.length, true, 0, 0, 0⟩],
      st.table.set w (Slot.occupied st.syms.length), siu⟩ : InternState) sl
      = Slot.occupied c2 →
      (sl = w ∧ c2 = st.syms.length) ∨ (sl ≠ w ∧ slotOf st sl = Slot.occupied c2) := by
    intro sl c2 h
    by_cases hslw : sl = w
    · rw [hslw] at h
      have h2 : (st.table.set w (Slot.occupied st.syms.length)).getD w Slot.vacant
          = Slot.occupied c2 := h
      rw [hgetw] at h2
      injection h2 with h2
      exact Or.inl ⟨hslw, h2.symm⟩
    · have h2 : (st.table.set w (Slot.occupied st.syms.length)).getD sl Slot.vacant
          = Slot.occupied c2 := h
      rw [hgetO sl hslw] at h2
      exact Or.inr ⟨hslw, h2⟩
  have hr1 : IsRing (⟨st.syms ++ [⟨u, st.syms.length, true, 0, 0, 0⟩],
      st.table.set w (Slot.occupied st.syms.length), siu⟩ : InternState)
      [st.syms.length] := by
    refine ⟨?_, ?_, ?_, ?_, ?_, ?_, ?_, ?_, ?_⟩
    · intro hcon
      cases hcon
    · exact List.nodup_singleton _
    · intro a ha
      rcases List.mem_singleton.1 ha with rfl
      rw [hRlen]
      omega
    · show List.Chain' _ [st.syms.length, st.syms.length]
      refine List.chain'_cons.2 ⟨?_, List.chain'_singleton _⟩
      rw [hsymN]
    · show (symOf _ st.syms.length).canonFlag = true
      rw [hsymN]
    · intro a ha
      cases ha
    · intro a ha
      rcases List.mem_singleton.1 ha with rfl
      rfl
    · exact ⟨w, hgetw⟩
    · exact List.pairwise_singleton _ _
  have hcanN : STR_CANON (⟨st.syms ++ [⟨u, st.syms.length, true, 0, 0, 0⟩],
      st.table.set w (Slot.occupied st.syms.length), siu⟩ : InternState) st.syms.length
      = st.syms.length :=
    STR_CANON_ring hr1 (List.mem_singleton.2 rfl)
  have hrofN : ringOf (⟨st.syms ++ [⟨u, st.syms.length, true, 0, 0, 0⟩],
      st.table.set w (Slot.occupied st.syms.length), siu⟩ : InternState) st.syms.length
      = [st.syms.length] :=
    ringOf_eq hr1.ne hr1.nodup hr1.bound hr1.links
  have holdring : ∀ x, x < st.syms.length →
      IsRing (⟨st.syms ++ [⟨u, st.syms.length, true, 0, 0, 0⟩],
        st.table.set w (Slot.occupied st.syms.length), siu⟩ : InternState)
        (ringOf st (STR_CANON st x))
      ∧ STR_CANON (⟨st.syms ++ [⟨u, st.syms.length, true, 0, 0, 0⟩],
        st.table.set w (Slot.occupied st.syms.length), siu⟩ : InternState) x
        = STR_CANON st x
      ∧ x ∈ ringOf st (STR_CANON st x) := by
    intro x hxlen
    obtain ⟨hrx, hmx⟩ := wf.rings x hxlen
    have hr2 : IsRing (⟨st.syms ++ [⟨u, st.syms.length, true, 0, 0, 0⟩],
        st.table.set w (Slot.occupied st.syms.length), siu⟩ : InternState)
        (ringOf st (STR_CANON st x)) := by
      refine @IsRing_congr_mem st (⟨st.syms ++ [⟨u, st.syms.length, true, 0, 0, 0⟩],
          st.table.set w (Slot.occupied st.syms.length), siu⟩ : InternState)
        (ringOf st (STR_CANON st x)) (by rw [hRlen]; omega) ?_ ?_ hrx
      · intro c2 hex
        obtain ⟨sl0, h0⟩ := hex
        have hne0 : sl0 ≠ w := by
          intro hh
          rw [hh] at h0
          rcases hsiu with ⟨hvac, _⟩ | ⟨hdel, _⟩
          · rw [hvac] at h0
            cases h0
          · rw [hdel] at h0
            cases h0
        refine ⟨sl0, ?_⟩
        show (st.table.set w (Slot.occupied st.syms.length)).getD sl0 Slot.vacant = _
        rw [hgetO sl0 hne0]
        exact h0
      · intro y hy
        exact hsymA y (hrx.bound y hy)
    have hc1 := STR_CANON_ring hr2 hmx
    have hc2 := STR_CANON_ring hrx hmx
    exact ⟨hr2, hc1.trans hc2.symm, hmx⟩
  have hnoexact : ∀ id0, id0 < st.syms.length → (symOf st id0).str ≠ u := by
    intro id0 hid0 hseq
    obtain ⟨hcfl, hccl, ⟨slot0, hslot0⟩, hclt⟩ := canon_facts wf hid0
    refine hclassless slot0 _ hslot0 ?_
    rw [hccl, hseq]
  refine ⟨⟨?_, ?_, ?_, ?_, ?_, ?_, ?_⟩, by rw [hRlen]; omega, by rw [hsymN],
    by rw [hRlen]; omega, hstr, ?_, hnoexact, ?_⟩
  · show 0 < (st.table.set w (Slot.occupied st.syms.length)).length
    rw [List.length_set]
    exact hL
  · show siu = nonVacantCount _
    have hflspre := filter_length_set (fun s => !(s = Slot.vacant : Bool)) st.table w
      (Slot.occupied st.syms.length) Slot.vacant hwlt
    have e5 := wf.countEq
    unfold nonVacantCount at e5
    show siu = ((st.table.set w (Slot.occupied st.syms.length)).filter
      (fun s => !(s = Slot.vacant : Bool))).length
    rcases hsiu with ⟨hvac, hsi⟩ | ⟨hdel, hsi⟩
    · have hvac2 : st.table.getD w Slot.vacant = Slot.vacant := hvac
      rw [hvac2] at hflspre
      simp at hflspre
      omega
    · have hdel2 : st.table.getD w Slot.vacant = Slot.deletedCanon := hdel
      rw [hdel2] at hflspre
      simp at hflspre
      omega
  · intro sl c2 h
    rcases hslC sl c2 h with ⟨hslw, hc2⟩ | ⟨hslw, hold⟩
    · subst hc2
      exact ⟨by rw [hRlen]; omega, by rw [hsymN]⟩
    · have hv := wf.occValid sl c2 hold
      refine ⟨by rw [hRlen]; omega, ?_⟩
      rw [hsymA c2 hv.1]
      exact hv.2
  · intro s1 s2 c2 h1 h2
    rcases hslC s1 c2 h1 with ⟨hs1w, hc1⟩ | ⟨hs1w, hold1⟩ <;>
      rcases hslC s2 c2 h2 with ⟨hs2w, hc2⟩ | ⟨hs2w, hold2⟩
    · rw [hs1w, hs2w]
    · subst hc1
      exact absurd hold2 (hfresh s2)
    · subst hc2
      exact absurd hold1 (hfresh s1)
    · exact wf.occInj s1 s2 c2 hold1 hold2
  · intro s1 s2 c1 c2 h1 h2 hcf
    rcases hslC s1 c1 h1 with ⟨hs1w, hc1⟩ | ⟨hs1w, hold1⟩ <;>
      rcases hslC s2 c2 h2 with ⟨hs2w, hc2⟩ | ⟨hs2w, hold2⟩
    · rw [hc1, hc2]
    · subst hc1
      rw [hsymN, hsymA c2 (wf.occValid s2 c2 hold2).1] at hcf
      exact absurd hcf.symm (hclassless s2 c2 hold2)
    · subst hc2
      rw [hsymN, hsymA c1 (wf.occValid s1 c1 hold1).1] at hcf
      exact absurd hcf (hclassless s1 c1 hold1)
    · rw [hsymA c1 (wf.occValid s1 c1 hold1).1,
        hsymA c2 (wf.occValid s2 c2 hold2).1] at hcf
      exact wf.classUnique s1 s2 c1 c2 hold1 hold2 hcf
  · intro sl c2 h
    rcases hslC sl c2 h with ⟨hslw, hc2⟩ | ⟨hslw, hold⟩
    · subst hc2
      refine ⟨dw, ?_, ?_, ?_⟩
      · show dw < (st.table.set w (Slot.occupied st.syms.length)).length
        rw [List.length_set]
        exact hdw
      · show sl = (hashString hash0 (symOf _ st.syms.length).str
          % (st.table.set w (Slot.occupied st.syms.length)).length + dw)
          % (st.table.set w (Slot.occupied st.syms.length)).length
        rw [hsymN, List.length_set, hslw]
        exact hw
      · intro j hj
        show (st.table.set w (Slot.occupied st.syms.length)).getD
          ((hashString hash0 (symOf _ st.syms.length).str
            % (st.table.set w (Slot.occupied st.syms.length)).length + j)
            % (st.table.set w (Slot.occupied st.syms.length)).length) Slot.vacant
          ≠ Slot.vacant
        rw [hsymN, List.length_set]
        show (st.table.set w (Slot.occupied st.syms.length)).getD
          ((hashString hash0 u % st.table.length + j) % st.table.length) Slot.vacant
          ≠ Slot.vacant
        by_cases hjw : (hashString hash0 u % st.table.length + j) % st.table.length = w
        · rw [hjw, hgetw]
          intro hcon
          cases hcon
        · rw [hgetO _ hjw]
          exact hpre j hj
    · obtain ⟨d2, hd2, hsl2, hpre2⟩ := wf.probeChain sl c2 hold
      have hv := wf.occValid sl c2 hold
      refine ⟨d2, ?_, ?_, ?_⟩
      · show d2 < (st.table.set w (Slot.occupied st.syms.length)).length
        rw [List.length_set]
        exact hd2
      · show sl = (hashString hash0 (symOf _ c2).str
          % (st.table.set w (Slot.occupied st.syms.length)).length + d2)
          % (st.table.set w (Slot.occupied st.syms.length)).length
        rw [hsymA c2 hv.1, List.length_set]
        exact hsl2
      · intro j hj
        show (st.table.set w (Slot.occupied st.syms.length)).getD
          ((hashString hash0 (symOf _ c2).str
            % (st.table.set w (Slot.occupied st.syms.length)).length + j)
            % (st.table.set w (Slot.occupied st.syms.length)).length) Slot.vacant
          ≠ Slot.vacant
        rw [hsymA c2 hv.1, List.length_set]
        by_cases hjw : (hashString hash0 (symOf st c2).str % st.table.length + j)
            % st.table.length = w
        · rw [hjw, hgetw]
          intro hcon
          cases hcon
        · rw [hgetO _ hjw]
          exact hpre2 j hj
  · intro x hx
    rw [hRlen] at hx
    by_cases hxn : x = st.syms.length
    · rw [hxn, hcanN, hrofN]
      exact ⟨hr1, List.mem_singleton.2 rfl⟩
    · have hxlen : x < st.syms.length := by omega
      obtain ⟨hr2, hceq, hmem⟩ := holdring x hxlen
      have hre : ringOf (⟨st.syms ++ [⟨u, st.syms.length, true, 0, 0, 0⟩],
          st.table.set w (Slot.occupied st.syms.length), siu⟩ : InternState)
          (STR_CANON st x) = ringOf st (STR_CANON st x) :=
        ringOf_eq hr2.ne hr2.nodup hr2.bound hr2.links
      rw [hceq, hre]
      exact ⟨hr2, hmem⟩
  · intro x hxlen
    exact (holdring x hxlen).2.1
  · intro c2 slot2 h2 hcf2
    rcases hslC slot2 c2 h2 with ⟨hslw, hc2⟩ | ⟨hslw, hold⟩
    · rw [hcanN, hc2]
    · rw [hsymA c2 (wf.occValid slot2 c2 hold).1] at hcf2
      exact absurd hcf2 (hclassless slot2 c2 hold)

theorem internLoop_spec {hash0 : Bytes → Nat} {st : InternState} {u : Bytes}
    {st' : InternState} {id : Nat} (wf : WFIntern hash0 st)
    (hrun : internLoop st u (hashString hash0 u % st.table.length) none
      st.table.length = Except.ok (st', id)) :
    WFIntern hash0 st'
    ∧ id < st'.syms.length
    ∧ (symOf st' id).str = u
    ∧ st.syms.length ≤ st'.syms.length
    ∧ (∀ x, x < st.syms.length → (symOf st' x).str = (symOf st x).str)
    ∧ (∀ x, x < st.syms.length → STR_CANON st' x = STR_CANON st x)
    ∧ (∀ id0, id0 < st.syms.length → (symOf st id0).str = u → id = id0)
    ∧ (∀ c2 slot2, slotOf st' slot2 = Slot.occupied c2 →
        caseFold (symOf st' c2).str = caseFold u → STR_CANON st' id = c2) := by
  have hL : 0 < st.table.length := wf.tableNE
  have hstart : hashString hash0 u % st.table.length
      = (hashString hash0 u % st.table.length + 0) % st.table.length := by
    rw [Nat.add_zero, Nat.mod_eq_of_lt (Nat.mod_lt _ hL)]
  rw [hstart] at hrun
  by_cases hcp : ∃ slotc c, slotOf st slotc = Slot.occupied c
      ∧ caseFold (symOf st c).str = caseFold u
  · obtain ⟨slotc, c, hocc, hclass⟩ := hcp
    have hcOK := wf.occValid slotc c hocc
    have hcu : ∀ s2 c2, slotOf st s2 = Slot.occupied c2 →
        caseFold (symOf st c2).str = caseFold u → c2 = c :=
      fun s2 c2 hs2 hcf2 => wf.classUnique s2 slotc c2 c hs2 hocc (by rw [hcf2, hclass])
    obtain ⟨d, hd, hslotc, hpre⟩ := wf.probeChain slotc c hocc
    have hh : homeSlot hash0 st c = hashString hash0 u % st.table.length := by
      unfold homeSlot hashString
      rw [hclass]
    rw [hh] at hslotc hpre
    have hres := internLoop_found hocc hclass wf.occInj hcu hd hslotc hpre
      st.table.length 0 none (st', id) (Nat.zero_le d) hrun
    rcases hres with ⟨hs0, hres⟩ | ⟨syn, hs0, hrf, hres⟩ | ⟨hs0, hrf, hres⟩
    · have h1 : st = st' := (congrArg Prod.fst hres).symm
      have h2 : c = id := (congrArg Prod.snd hres).symm
      subst h1
      subst h2
      refine ⟨wf, hcOK.1, hs0, le_refl _, fun x _ => rfl, fun x _ => rfl, ?_, ?_⟩
      · intro id0 hid0 hstr0
        exact intern_str_unique wf hcOK.1 hid0 (by rw [hs0]; exact hstr0.symm)
      · intro c2 slot2 hs2 hcf2
        rw [hcu slot2 c2 hs2 hcf2]
        exact STR_CANON_self wf hcOK.1 hcOK.2
    · have h1 : st = st' := (congrArg Prod.fst hres).symm
      have h2 : syn = id := (congrArg Prod.snd hres).symm
      subst h1
      subst h2
      obtain ⟨hr0, hsyn0, hcnotl, hlen0⟩ := canon_ring_shape wf hcOK.1 hcOK.2
      rw [hsyn0] at hrf
      have hwalk := @ringFindExact_walk st c u (ringOf st c).tail (st.syms.length + 1)
        (by omega) hcnotl hr0.links.tail
      obtain ⟨hsmem, hsstr⟩ := hwalk.1 syn hrf
      have hsynlen : syn < st.syms.length :=
        hr0.bound syn (List.mem_cons_of_mem c hsmem)
      refine ⟨wf, hsynlen, hsstr, le_refl _, fun x _ => rfl, fun x _ => rfl, ?_, ?_⟩
      · intro id0 hid0 hstr0
        exact intern_str_unique wf hsynlen hid0 (by rw [hsstr]; exact hstr0.symm)
      · intro c2 slot2 hs2 hcf2
        rw [hcu slot2 c2 hs2 hcf2]
        exact STR_CANON_ring hr0 (List.mem_cons_of_mem c hsmem)
    · obtain ⟨hr0, hsyn0, hcnotl, hlen0⟩ := canon_ring_shape wf hcOK.1 hcOK.2
      rw [hsyn0] at hrf
      have hwalk := @ringFindExact_walk st c u (ringOf st c).tail (st.syms.length + 1)
        (by omega) hcnotl hr0.links.tail
      have hnotail := hwalk.2 hrf
      obtain ⟨w1, w2, w3, w4, w5, w6, w7, w8⟩ :=
        internNewSynonym_wf wf hcOK.1 hcOK.2 hclass hs0 hnotail hcu st' id hres.symm
      exact ⟨w1, w2, w3, w4, w5, w6, fun id0 h0 hstr0 => absurd hstr0 (w7 id0 h0), w8⟩
  · have hclassless : ∀ s2 c2, slotOf st s2 = Slot.occupied c2 →
        caseFold (symOf st c2).str ≠ caseFold u :=
      fun s2 c2 hs2 hcf => hcp ⟨s2, c2, hs2, hcf⟩
    have hres := internLoop_new hclassless st.table.length 0 none (st', id)
      (Nat.add_zero _) (fun j hj => absurd hj (by omega)) (Or.inl rfl) hrun
    obtain ⟨w, dw, hdw, hw, hpre, hcase⟩ := hres
    rcases hcase with ⟨hvac, hres⟩ | ⟨hdel, hres⟩
    · have h1 : st' = { st with
          syms := st.syms ++ [⟨u, st.syms.length, true, 0, 0, 0⟩]
          , table := st.table.set w (Slot.occupied st.syms.length)
          , slotsInUse := st.slotsInUse + 1 } := congrArg Prod.fst hres
      have h2 : id = st.syms.length := congrArg Prod.snd hres
      subst h1
      subst h2
      obtain ⟨w1, w2, w3, w4, w5, w6, w7, w8⟩ :=
        internNewCanon_wf wf hclassless hdw hw hpre (Or.inl ⟨hvac, rfl⟩)
      exact ⟨w1, w2, w3, w4, w5, w6, fun id0 h0 hstr0 => absurd hstr0 (w7 id0 h0), w8⟩
    · have h1 : st' = { st with
          syms := st.syms ++ [⟨u, st.syms.length, true, 0, 0, 0⟩]
          , table := st.table.set w (Slot.occupied st.syms.length) } :=
        congrArg Prod.fst hres
      have h2 : id = st.syms.length := congrArg Prod.snd hres
      subst h1
      subst h2
      obtain ⟨w1, w2, w3, w4, w5, w6, w7, w8⟩ :=
        internNewCanon_wf wf hclassless hdw hw hpre (Or.inr ⟨hdel, rfl⟩)
      exact ⟨w1, w2, w3, w4, w5, w6, fun id0 h0 hstr0 => absurd hstr0 (w7 id0 h0), w8⟩

theorem intern_spec {hash0 : Bytes → Nat} {st : InternState} {u : Bytes}
    {st' : InternState} {id : Nat} (wf : WFIntern hash0 st)
    (hok : Intern_UTF8_Managed hash0 st u = Except.ok (st', id)) :
    WFIntern hash0 st'
    ∧ id < st'.syms.length
    ∧ (symOf st' id).str = u
    ∧ st.syms.length ≤ st'.syms.length
    ∧ (∀ x, x < st.syms.length → (symOf st' x).str = (symOf st x).str)
    ∧ (∀ x, x < st.syms.length → STR_CANON st' x = STR_CANON st x)
    ∧ (∀ id0, id0 < st.syms.length → (symOf st id0).str = u → id = id0)
    ∧ (∀ c2 slot2, slotOf st' slot2 = Slot.occupied c2 →
        caseFold (symOf st' c2).str = caseFold u → STR_CANON st' id = c2) := by
  by_cases hgt : st.slotsInUse > st.table.length / 2
  · have hred := (intern_trigger hash0 st u).1 hgt
    rw [hred] at hok
    rcases hexp : Expand_Word_Table hash0 st with e | stE
    · rw [hexp] at hok
      cases hok
    · rw [hexp] at hok
      have hok2 : internLoop stE u (hashString hash0 u % stE.table.length) none
          stE.table.length = Except.ok (st', id) := hok
      obtain ⟨wfE, hsymsE, hoccE⟩ := Expand_ok_wf wf hexp
      have hlenE : stE.syms.length = st.syms.length := by
        rw [hsymsE]
      obtain ⟨w1, w2, w3, w4, w5, w6, w7, w8⟩ := internLoop_spec wfE hok2
      refine ⟨w1, w2, w3, by omega, ?_, ?_, ?_, w8⟩
      · intro x hx
        rw [w5 x (by omega), symOf_congr hsymsE x]
      · intro x hx
        rw [w6 x (by omega), STR_CANON_congr hsymsE x]
      · intro id0 hid0 hstr0
        refine w7 id0 (by omega) ?_
        rw [symOf_congr hsymsE id0]
        exact hstr0
  · have hred := (intern_trigger hash0 st u).2 hgt
    rw [hred] at hok
    exact internLoop_spec wf hok

/-- C2: symbol-interner equivalence classes.  For any well-formed interner
state, if interning the byte string s succeeds with symbol a and then
interning t succeeds with symbol b, then (i) re-interning the byte-identical
s again returns the same symbol a whenever it succeeds (idempotence per
byte-identical input), and (ii) the canons of a and b coincide exactly when
s and t are case-insensitive equal (equal after case folding). -/
theorem C2_intern_equivalence {hash0 : Bytes → Nat} {st st1 st2 : InternState}
    {s t : Bytes} {a b : Nat} (wf : WFIntern hash0 st)
    (h1 : Intern_UTF8_Managed hash0 st s = Except.ok (st1, a))
    (h2 : Intern_UTF8_Managed hash0 st1 t = Except.ok (st2, b)) :
    (∀ st3 c, Intern_UTF8_Managed hash0 st1 s = Except.ok (st3, c) → c = a)
    ∧ (STR_CANON st2 a = STR_CANON st2 b ↔ caseFold s = caseFold t) := by
  obtain ⟨wf1, ha1, hsa1, hle1, hstr1, hcan1, huniq1, hcanon1⟩ := intern_spec wf h1
  obtain ⟨wf2, hb2, htb2, hle2, hstr2, hcan2, huniq2, hcanon2⟩ := intern_spec wf1 h2
  constructor
  · intro st3 c h3
    obtain ⟨_, _, _, _, _, _, huniq3, _⟩ := intern_spec wf1 h3
    exact huniq3 a ha1 hsa1
  · have ha2 : a < st2.syms.length := Nat.lt_of_lt_of_le ha1 hle2
    have hsa2 : (symOf st2 a).str = s := by
      rw [hstr2 a ha1]
      exact hsa1
    constructor
    · intro hcc
      obtain ⟨hfa, hcla, _, _⟩ := canon_facts wf2 ha2
      obtain ⟨hfb, hclb, _, _⟩ := canon_facts wf2 hb2
      rw [hsa2] at hcla
      rw [htb2] at hclb
      rw [← hcla, ← hclb, hcc]
    · intro hft
      obtain ⟨hfa, hcla, ⟨slotA, hslotA⟩, hcalt⟩ := canon_facts wf2 ha2
      have hba : STR_CANON st2 b = STR_CANON st2 a := by
        refine hcanon2 (STR_CANON st2 a) slotA hslotA ?_
        rw [hcla, hsa2]
        exact hft
      exact hba.symm

theorem C2_intern_equivalence_witness :
    (∀ st3 c, Intern_UTF8_Managed (fun _ => 0)
        ⟨[⟨[97], 0, true, 0, 0, 0⟩], [Slot.occupied 0] ++ List.replicate 6 Slot.vacant, 1⟩
        [97] = Except.ok (st3, c) → c = 0)
    ∧ (STR_CANON ⟨[⟨[97], 1, true, 0, 0, 0⟩, ⟨[65], 0, false, 0, 0, 0⟩],
          [Slot.occupied 0] ++ List.replicate 6 Slot.vacant, 1⟩ 0
        = STR_CANON ⟨[⟨[97], 1, true, 0, 0, 0⟩, ⟨[65], 0, false, 0, 0, 0⟩],
          [Slot.occupied 0] ++ List.replicate 6 Slot.vacant, 1⟩ 1
      ↔ caseFold [97] = caseFold [65]) := by
  have wf0 : WFIntern (fun _ => 0) ⟨[], List.replicate 7 Slot.vacant, 0⟩ := by
    refine ⟨by decide, by decide, ?_, ?_, ?_, ?_, ?_⟩
    · intro slot c hs
      have hs2 : (List.replicate 7 Slot.vacant).getD slot Slot.vacant
          = Slot.occupied c := hs
      rw [getD_replicate_vacant] at hs2
      cases hs2
    · intro s1 s2 c hA hB
      have hs2 : (List.replicate 7 Slot.vacant).getD s1 Slot.vacant
          = Slot.occupied c := hA
      rw [getD_replicate_vacant] at hs2
      cases hs2
    · intro s1 s2 c1 c2 hA hB hcf
      have hs2 : (List.replicate 7 Slot.vacant).getD s1 Slot.vacant
          = Slot.occupied c1 := hA
      rw [getD_replicate_vacant] at hs2
      cases hs2
    · intro slot c hs
      have hs2 : (List.replicate 7 Slot.vacant).getD slot Slot.vacant
          = Slot.occupied c := hs
      rw [getD_replicate_vacant] at hs2
      cases hs2
    · intro x hx
      have hx2 : x < ([] : List SymData).length := hx
      simp at hx2
  exact @C2_intern_equivalence (fun _ => 0)
    ⟨[], List.replicate 7 Slot.vacant, 0⟩
    ⟨[⟨[97], 0, true, 0, 0, 0⟩], [Slot.occupied 0] ++ List.replicate 6 Slot.vacant, 1⟩
    ⟨[⟨[97], 1, true, 0, 0, 0⟩, ⟨[65], 0, false, 0, 0, 0⟩],
      [Slot.occupied 0] ++ List.replicate 6 Slot.vacant, 1⟩
    [97] [65] 0 1 wf0 (by decide) (by decide)

end RenC
